import Mathlib

/-!
Verification of the AVL ordered-map implementation in `src/Main.cpp`
(`BSTMap` / `AVLTreeMap` / `TreeMapStats`).

The C++ code works on heap nodes with `left`/`right` child pointers and a
`parent` back-pointer.  The running object is always a `TreeMapStats` tree, so
every node carries a key, a value, a height (`ht`) and a statistics record
(`info`).  We embed this as a purely functional binary tree `Tree` together
with an explicit zipper: a node pointer of the C++ code is rendered as a pair
`(ctx, w)` of the subtree `w` rooted at that node and the list `ctx` of
ancestor "frames" (each frame records on which side the focus hangs, the
ancestor's key/value/ht/info fields and its other subtree).  Climbing a
`parent` pointer is popping a frame; the upward walks of the code
(`rebalanceAncestors`, `updateTree`) become folds over the context.

The pointer that `TreeMapStats::putNode`/`eraseNode` keep across the
rebalancing phase (to start the final statistics walk from) is rendered as a
path (list of directions, `true` = left) from the current focus to that node;
rotations transport the path exactly as they relocate the node.
-/

namespace AVLMap

/-- Statistics record stored in every node
(`TreeMapStats::Node::Stats`, src/Main.cpp:715-762):
number of nodes, sum / minimum / maximum of the values in the subtree. -/
structure Stats where
  num : Nat
  sum : Int
  smin : Int
  smax : Int
deriving Repr, DecidableEq

/-- A (sub)tree of `TreeMapStats` nodes.  `nil` is the C++ `NULL`; a `node`
carries the fields `key`, `value`, `left`, `right`, `ht`
(`AVLTreeMap::Node`, src/Main.cpp:499-518) and `info`
(`TreeMapStats::Node`, src/Main.cpp:711-799).  The `parent` pointer is
represented externally by the zipper context. -/
inductive Tree where
  | nil : Tree
  | node (key value : Int) (left right : Tree) (ht : Nat) (info : Stats) : Tree
deriving Repr, DecidableEq

namespace Tree

/-- Reading `w->left` (NULL reads as NULL). -/
def left : Tree → Tree
  | .nil => .nil
  | .node _ _ l _ _ _ => l

/-- Reading `w->right`. -/
def right : Tree → Tree
  | .nil => .nil
  | .node _ _ _ r _ _ => r

/-- Reading `w->key` (junk 0 for NULL; never used on NULL). -/
def key : Tree → Int
  | .nil => 0
  | .node k _ _ _ _ _ => k

/-- Reading `w->value`. -/
def value : Tree → Int
  | .nil => 0
  | .node _ v _ _ _ _ => v

/-- Reading `w->info` (`none` for NULL, matching the NULL checks of
`TreeMapStats::Node::updateInfo`). -/
def info? : Tree → Option Stats
  | .nil => none
  | .node _ _ _ _ _ i => some i

end Tree

/-- `AVLTreeMap::height` (src/Main.cpp:680-683): `w ? w->ht : 0`. -/
def height : Tree → Nat
  | .nil => 0
  | .node _ _ _ _ h _ => h

/-- `TreeMapStats::Node::Stats::updateStats` (src/Main.cpp:750-761):
recompute a node's statistics from its value and its children's statistics
(a NULL child contributes 0 to `num`/`sum` and the node's own value to
`min`/`max`). -/
def updateStats (v : Int) (l r : Option Stats) : Stats :=
  { num := 1 + (match l with | some s => s.num | none => 0)
             + (match r with | some s => s.num | none => 0)
  , sum := v + (match l with | some s => s.sum | none => 0)
             + (match r with | some s => s.sum | none => 0)
  , smin := Min.min v (Min.min (match l with | some s => s.smin | none => v)
                               (match r with | some s => s.smin | none => v))
  , smax := Max.max v (Max.max (match l with | some s => s.smax | none => v)
                               (match r with | some s => s.smax | none => v)) }

/-- `TreeMapStats::Node::updateInfo` applied to a node in place
(src/Main.cpp:792-798): overwrite `info` with `updateStats` of the node's
value and its current children. -/
def updateInfo : Tree → Tree
  | .nil => .nil
  | .node k v l r h _ => .node k v l r h (updateStats v (Tree.info? l) (Tree.info? r))

/-- `AVLTreeMap::resetHeight` (src/Main.cpp:690-693):
`w->ht = max(height(w->left), height(w->right)) + 1`. -/
def resetHeight : Tree → Tree
  | .nil => .nil
  | .node k v l r _ i => .node k v l r (Max.max (height l) (height r) + 1) i

/-- `AVLTreeMap::balanced` (src/Main.cpp:700-702):
`abs(height(left) - height(right)) <= 1`. -/
def balanced : Tree → Bool
  | .nil => true
  | .node _ _ l r _ _ => ((height l : Int) - (height r : Int)).natAbs ≤ 1

/-- Side selected by `AVLTreeMap::tallestChild` (src/Main.cpp:553-558):
`true` means the left child is returned.  The C++ function returns the child
pointer `w->left` or `w->right`; all later pointer-equality tests on its
result (`z->right == y`, `x == y->left`, ...) are therefore tests on this
side, which is what we keep. -/
def tallestIsLeft (l r : Tree) (breakLeft : Bool) : Bool :=
  height r < height l || (height l == height r && breakLeft)

/-- One ancestor frame of the zipper: the focus hangs as the `fromLeft` child
of a node with fields `key`/`value`/`ht`/`info` whose other child is
`other`.  This renders a C++ `parent` pointer together with the parent's own
fields. -/
structure Frame where
  fromLeft : Bool
  key : Int
  value : Int
  ht : Nat
  info : Stats
  other : Tree
deriving Repr, DecidableEq

/-- The chain of ancestors of the focus, innermost first. -/
abbrev Ctx := List Frame

/-- Plug a subtree into its immediate parent frame (the inverse of following
a child pointer). -/
def rebuildOne (f : Frame) (t : Tree) : Tree :=
  if f.fromLeft then .node f.key f.value t f.other f.ht f.info
  else .node f.key f.value f.other t f.ht f.info

/-- Plug a subtree back through its whole ancestor chain, producing the tree
reachable from the root. -/
def rebuild : Ctx → Tree → Tree
  | [], t => t
  | f :: rest, t => rebuild rest (rebuildOne f t)

/-- Root-to-focus directions of a context (`true` = left). -/
def dirs (ctx : Ctx) : List Bool := (ctx.map Frame.fromLeft).reverse

/-- Ancestor part of `TreeMapStats::updateTree` (src/Main.cpp:827-839): the
`while` loop climbs from the focus' parent up to the root, overwriting each
ancestor's `info` by `updateInfo` computed from the then-current children.
The context form keeps the result as a context (only `info` fields change). -/
def updateCtxStats : Ctx → Tree → Ctx
  | [], _ => []
  | f :: rest, t =>
    let l := if f.fromLeft then t else f.other
    let r := if f.fromLeft then f.other else t
    let f' : Frame := ⟨f.fromLeft, f.key, f.value, f.ht, updateStats f.value (Tree.info? l) (Tree.info? r), f.other⟩
    f' :: updateCtxStats rest (rebuildOne f' t)

/-- `TreeMapStats::singleRotation` (src/Main.cpp:846-857), which first runs
`AVLTreeMap::singleRotation` (src/Main.cpp:595-614) and then repairs the
statistics.  The focus `z` is the demoted node, `rotLeft` says whether the
promoted child `y` is `z`'s right child (`rotateLeft = (y == z->right)` in
the C++).  Steps, in source order:
`z` takes `y`'s inner subtree `t` in `y`'s place, `z` becomes `y`'s child,
`resetHeight(z)` then `resetHeight(y)`; then `z`'s `info` is recomputed
(`x->updateInfo(...)`), and `updateTree(y)` recomputes `y`'s `info` and then
every ancestor's `info` up to the root (the context part).  Returns the new
focus subtree (rooted at `y`) and the statistics-updated context. -/
def singleRotation (rotLeft : Bool) (z : Tree) (ctx : Ctx) : Tree × Ctx :=
  match z with
  | .nil => (.nil, ctx)
  | .node zk zv zl zr _ zi =>
    match (if rotLeft then zr else zl) with
    | .nil => (.nil, ctx)
    | .node yk yv yl yr _ _ =>
      let t := if rotLeft then yl else yr
      let zl' := if rotLeft then zl else t
      let zr' := if rotLeft then t else zr
      let z' := Tree.node zk zv zl' zr' (Max.max (height zl') (height zr') + 1)
                  (updateStats zv (Tree.info? zl') (Tree.info? zr'))
      let yl' := if rotLeft then z' else yl
      let yr' := if rotLeft then yr else z'
      let y' := Tree.node yk yv yl' yr' (Max.max (height yl') (height yr') + 1)
                  (updateStats yv (Tree.info? yl') (Tree.info? yr'))
      (y', updateCtxStats ctx y')

/-- Relocation of a node-position under `singleRotation`: how the root-relative
path of a fixed node inside the rotated subtree changes.  This is the exact
pointer algebra of the rotation: e.g. for a left rotation the old focus `z`
ends up as the left child of the new focus `y`, `z`'s left subtree goes one
level down, `y`'s inner subtree moves under `z`'s right slot, and `y`'s outer
subtree comes one level up. -/
def rotPath : Bool → List Bool → List Bool
  | true, [] => [true]
  | true, true :: rest => true :: true :: rest
  | true, [false] => []
  | true, false :: true :: rest => true :: false :: rest
  | true, false :: false :: rest => false :: rest
  | false, [] => [false]
  | false, false :: rest => false :: false :: rest
  | false, [true] => []
  | false, true :: false :: rest => false :: true :: rest
  | false, true :: true :: rest => true :: rest

/-- `AVLTreeMap::rebalance` (src/Main.cpp:566-588) as overridden by
`TreeMapStats` for the rotations.  The unbalanced focus is `z`; `y` is its
tallest child with ties broken toward the left (`tallestChild(z, true)`),
`x` is `y`'s tallest child, tie toward the left, recomputed with tie toward
the right when `y` is `z`'s right child.  If `x`, `y`, `z` are collinear a
single rotation promotes `y`; otherwise `doubleRotation(x,y,z)`
(src/Main.cpp:621-625) runs `singleRotation(x,y)` inside `z` and then
`singleRotation(x,z)`.  The path `p` of a tracked node below `z` is
transported alongside. -/
def rebalance (z : Tree) (ctx : Ctx) (p : List Bool) : Tree × Ctx × List Bool :=
  match z with
  | .nil => (.nil, ctx, p)
  | .node zk zv zl zr zh zi =>
    let ySideL := tallestIsLeft zl zr true
    let y := if ySideL then zl else zr
    -- x := tallestChild(y, true), replaced by tallestChild(y, false) when y is z's right child
    let xSideL := if ySideL then tallestIsLeft y.left y.right true
                  else tallestIsLeft y.left y.right false
    if ySideL == xSideL then
      -- (y == z->left && x == y->left) || (y == z->right && x == y->right)
      let r := singleRotation (!ySideL) (.node zk zv zl zr zh zi) ctx
      (r.1, r.2, rotPath (!ySideL) p)
    else
      -- doubleRotation(x, y, z): singleRotation(x, y) then singleRotation(x, z)
      let zf : Frame := ⟨ySideL, zk, zv, zh, zi, if ySideL then zr else zl⟩
      let r1 := singleRotation (!xSideL) y (zf :: ctx)
      let p1 := match p with
        | [] => ([] : List Bool)
        | d :: rest => if d == ySideL then d :: rotPath (!xSideL) rest else d :: rest
      match r1.2 with
      | [] => (.nil, [], [])  -- unreachable: the rotation preserves the context length
      | zf' :: ctx1 =>
        let r2 := singleRotation (!ySideL) (rebuildOne zf' r1.1) ctx1
        (r2.1, r2.2, rotPath (!ySideL) p1)

/-- `AVLTreeMap::rebalanceAncestors` (src/Main.cpp:631-648).  Starting at a
node `w` (focus, with ancestor chain `ctx`) and climbing toward the root:
record `old_height = height(w)`; if `w` is balanced, `resetHeight(w)`,
otherwise `w = rebalance(w)`; if the height is unchanged stop (the remaining
tree is reassembled unchanged), otherwise continue at the former parent.
`p` is the path of the tracked node below `w`; the second component of the
result is that node's root-relative path in the final tree. -/
def rebalanceAncestors (ctx : Ctx) (w : Tree) (p : List Bool) : Tree × List Bool :=
  let old := height w
  let res := if balanced w then (resetHeight w, ctx, p) else rebalance w ctx p
  if height res.1 == old then (rebuild res.2.1 res.1, dirs res.2.1 ++ res.2.2)
  else
    match h : res.2.1 with
    | [] => (res.1, res.2.2)
    | f :: rest => rebalanceAncestors rest (rebuildOne f res.1) (f.fromLeft :: res.2.2)
termination_by ctx.length
decreasing_by
  have huc : ∀ (c : Ctx) (t : Tree), (updateCtxStats c t).length = c.length := by
    intro c
    induction c with
    | nil => intro t; rfl
    | cons f rest ih => intro t; simp [updateCtxStats, ih]
  have hsr : ∀ (b : Bool) (t : Tree) (c : Ctx), (singleRotation b t c).2.length = c.length := by
    intro b t c
    cases t with
    | nil => rfl
    | node zk zv zl zr zh zi =>
      simp only [singleRotation]
      cases hy : (if b then zr else zl) with
      | nil => rfl
      | node yk yv yl yr yh yi => simp [huc]
  have hrb : ∀ (t : Tree) (c : Ctx) (q : List Bool), (rebalance t c q).2.1.length = c.length := by
    intro t c q
    cases t with
    | nil => rfl
    | node zk zv zl zr zh zi =>
      simp only [rebalance]
      by_cases hc : (tallestIsLeft zl zr true) ==
          (if tallestIsLeft zl zr true then
            tallestIsLeft (if tallestIsLeft zl zr true then zl else zr).left
              (if tallestIsLeft zl zr true then zl else zr).right true
           else
            tallestIsLeft (if tallestIsLeft zl zr true then zl else zr).left
              (if tallestIsLeft zl zr true then zl else zr).right false)
      · simp only [hc, if_true, ite_true]
        simp [hsr]
      · simp only [hc]
        simp only [if_false, Bool.false_eq_true, ite_false]
        split
        · next h1 =>
            exfalso
            have h2 := hsr
              (!(if tallestIsLeft zl zr true then
                  tallestIsLeft (if tallestIsLeft zl zr true then zl else zr).left
                    (if tallestIsLeft zl zr true then zl else zr).right true
                 else
                  tallestIsLeft (if tallestIsLeft zl zr true then zl else zr).left
                    (if tallestIsLeft zl zr true then zl else zr).right false))
              (if tallestIsLeft zl zr true then zl else zr)
              (⟨tallestIsLeft zl zr true, zk, zv, zh, zi,
                if tallestIsLeft zl zr true then zr else zl⟩ :: c)
            rw [h1] at h2
            simp at h2
        · next zf2 ctx1 h1 =>
            have h2 := hsr
              (!(if tallestIsLeft zl zr true then
                  tallestIsLeft (if tallestIsLeft zl zr true then zl else zr).left
                    (if tallestIsLeft zl zr true then zl else zr).right true
                 else
                  tallestIsLeft (if tallestIsLeft zl zr true then zl else zr).left
                    (if tallestIsLeft zl zr true then zl else zr).right false))
              (if tallestIsLeft zl zr true then zl else zr)
              (⟨tallestIsLeft zl zr true, zk, zv, zh, zi,
                if tallestIsLeft zl zr true then zr else zl⟩ :: c)
            rw [h1] at h2
            simp only [List.length_cons, Nat.succ.injEq] at h2
            simp [hsr, h2]
  have hlen : res.2.1.length = ctx.length := by
    show (if balanced w then (resetHeight w, ctx, p) else rebalance w ctx p).2.1.length = ctx.length
    by_cases hb : balanced w
    · simp [hb]
    · simp [hb, hrb]
  rw [h] at hlen
  simp only [List.length_cons] at hlen
  omega

/-- `BSTMap::findNode` (src/Main.cpp:311-322) as a zipper descent: walk from
the root comparing keys, descending left when `w->key > k`, right when
`w->key < k`; the result is the node with key `k` if present, otherwise the
last node visited; `none` when the tree is empty (`NULL`). -/
def findNode (k : Int) : Ctx → Tree → Option (Ctx × Tree)
  | _, .nil => none
  | ctx, .node k' v l r h i =>
    if k' == k then some (ctx, .node k' v l r h i)
    else if k' > k then
      match l with
      | .nil => some (ctx, .node k' v l r h i)
      | .node lk lv ll lr lh li =>
        findNode k (⟨true, k', v, h, i, r⟩ :: ctx) (.node lk lv ll lr lh li)
    else
      match r with
      | .nil => some (ctx, .node k' v l r h i)
      | .node rk rv rl rr rh ri =>
        findNode k (⟨false, k', v, h, i, l⟩ :: ctx) (.node rk rv rl rr rh ri)

/-- The map state: the owned root and the entry counter `n`
(`BSTMap::root`, `BSTMap::n`, src/Main.cpp:105,126). -/
structure MapState where
  root : Tree
  n : Int
deriving Repr, DecidableEq

/-- The freshly constructed empty map (`BSTMap::BSTMap`, src/Main.cpp:81). -/
def mkEmpty : MapState := ⟨.nil, 0⟩

/-- `BSTMap::size` (src/Main.cpp:476-479): returns `n`. -/
def size (s : MapState) : Int := s.n

/-- `BSTMap::empty` (src/Main.cpp:482-485): `!root`. -/
def emptyb (s : MapState) : Bool := s.root == .nil

/-- `BSTMap::find` (src/Main.cpp:328-332): `findNode`, then keep the result
only if its key matches. -/
def find (s : MapState) (k : Int) : Option (Ctx × Tree) :=
  match findNode k [] s.root with
  | none => none
  | some (ctx, w) => if w.key == k then some (ctx, w) else none

/-- The new leaf made by `TreeMapStats::createNode` (src/Main.cpp:814) for
`putNode`'s `createNode(k, v, NULL, NULL, w)`: the `AVLTreeMap::Node`
constructor sets `ht = 1 + max(0,0) = 1` (src/Main.cpp:506-508) and the
`Stats` constructor sets `{num=1, sum=v, min=v, max=v}` (src/Main.cpp:727). -/
def newLeaf (k v : Int) : Tree := .node k v .nil .nil 1 ⟨1, v, v, v⟩

/-- `BSTMap::putNode` (src/Main.cpp:342-356): find the key; if present
overwrite the value in place, otherwise attach a fresh leaf below the last
visited node on the side given by `w->key > k` (`makeChild`); `n` increments
on insertion.  Returns the zipper position of the affected node and the new
`n`. -/
def putNodeBST (s : MapState) (k v : Int) : (Ctx × Tree) × Int :=
  match findNode k [] s.root with
  | none => (([], newLeaf k v), s.n + 1)
  | some (ctx, w) =>
    match w with
    | .nil => (([], newLeaf k v), s.n + 1)  -- unreachable: findNode never returns a NULL focus
    | .node k' v' l r h i =>
      if k' == k then ((ctx, .node k' v l r h i), s.n)
      else ((⟨k' > k, k', v', h, i, if k' > k then r else l⟩ :: ctx, newLeaf k v), s.n + 1)

/-- Final part of `TreeMapStats::updateTree` (src/Main.cpp:827-839) given as
the root-relative path of the node `w` the walk starts at: recompute `info`
at every node on the path from `w` up to the root, children first. -/
def updateTreeAt : Tree → List Bool → Tree
  | t, [] => updateInfo t
  | .nil, _ :: _ => .nil
  | .node k v l r h i, d :: pp =>
    if d then updateInfo (.node k v (updateTreeAt l pp) r h i)
    else updateInfo (.node k v l (updateTreeAt r pp) h i)

/-- `TreeMapStats::put` = `put` → `TreeMapStats::putNode` (src/Main.cpp:864-872):
run the BST insertion, then `AVLTreeMap::putNode` (src/Main.cpp:655-661)
calls `rebalanceAncestors(z->parent)`, then `updateTree(w)` recomputes the
statistics from the put node up to the root. -/
def put (s : MapState) (k v : Int) : MapState :=
  let res := putNodeBST s k v
  let ctx := res.1.1
  let w := res.1.2
  let rootPath :=
    match ctx with
    | [] => (w, ([] : List Bool))   -- z->parent is NULL: no rebalancing walk
    | f :: rest => rebalanceAncestors rest (rebuildOne f w) [f.fromLeft]
  ⟨updateTreeAt rootPath.1 rootPath.2, res.2⟩

/-- `BSTMap::removeNode` (src/Main.cpp:295-305) at a zipper position:
precondition (from the source) is that `w` has at most one child.  `x` is
`w`'s sole child (or NULL); `makeChild` splices `x` into `w`'s place under
`w`'s former parent `z` (choosing the side by `z->left == w`, i.e. the
frame's `fromLeft`), or `x` becomes the root when `z` is NULL.  Returns the
position of `z` (`none` when `w` was the root) and, for the root case, the
new root `x`. -/
def removeNode (ctx : Ctx) (w : Tree) : Option (Ctx × Tree) × Tree :=
  let x := match w.left with | .nil => w.right | _ => w.left
  match ctx with
  | [] => (none, x)
  | f :: rest => (some (rest, rebuildOne f x), rebuild rest (rebuildOne f x))

/-- `BSTMap::youngestDescendantType` (src/Main.cpp:437-443) as a zipper
descent: repeatedly move to the left (`checkLeft = true`) or right child
while it exists, collecting the parent frames. -/
def youngestDescendantType : Ctx → Tree → Bool → Ctx × Tree
  | ctx, .nil, _ => (ctx, .nil)
  | ctx, .node k v l r h i, checkLeft =>
    if checkLeft then
      match l with
      | .nil => (ctx, .node k v l r h i)
      | .node lk lv ll lr lh li =>
        youngestDescendantType (⟨true, k, v, h, i, r⟩ :: ctx) (.node lk lv ll lr lh li) checkLeft
    else
      match r with
      | .nil => (ctx, .node k v l r h i)
      | .node rk rv rl rr rh ri =>
        youngestDescendantType (⟨false, k, v, h, i, l⟩ :: ctx) (.node rk rv rl rr rh ri) checkLeft

/-- `BSTMap::youngestAncestorType` (src/Main.cpp:415-425): climb parent links
while the parent reaches the current node through its `checkLeft` child
(`(check_left ? x->left : x->right) == z`, i.e. the frame's `fromLeft`
equals `checkLeft`); return the parent where the test first fails, or NULL
when the climb runs out of ancestors. -/
def youngestAncestorType : Ctx → Tree → Bool → Option (Ctx × Tree)
  | [], _, _ => none
  | f :: rest, z, checkLeft =>
    if f.fromLeft == checkLeft then youngestAncestorType rest (rebuildOne f z) checkLeft
    else some (rest, rebuildOne f z)

/-- `BSTMap::successor` (src/Main.cpp:451-458): NULL in, NULL out; with a
right child the successor is the leftmost node of the right subtree,
otherwise the youngest left ancestor.  Positions stand for node pointers;
`none` is NULL. -/
def successor : Option (Ctx × Tree) → Option (Ctx × Tree)
  | none => none
  | some (ctx, w) =>
    match w with
    | .nil => none
    | .node k v l r h i =>
      match r with
      | .nil => youngestAncestorType ctx (.node k v l r h i) true
      | .node rk rv rl rr rh ri =>
        some (youngestDescendantType (⟨false, k, v, h, i, l⟩ :: ctx) (.node rk rv rl rr rh ri) true)

/-- `BSTMap::predecessor` (src/Main.cpp:466-473), the mirror image of
`successor`. -/
def predecessor : Option (Ctx × Tree) → Option (Ctx × Tree)
  | none => none
  | some (ctx, w) =>
    match w with
    | .nil => none
    | .node k v l r h i =>
      match l with
      | .nil => youngestAncestorType ctx (.node k v l r h i) false
      | .node lk lv ll lr lh li =>
        some (youngestDescendantType (⟨true, k, v, h, i, r⟩ :: ctx) (.node lk lv ll lr lh li) false)

/-- Key/value of the leftmost node of a subtree: what
`BSTMap::eraseNode` reads from `successor(w)` before overwriting `w`
(src/Main.cpp:382-384); the successor of a node with a right child is
`youngestDescendantType(w->right, true)`. -/
def minEntry : Tree → Int × Int
  | .nil => (0, 0)
  | .node k v l _ _ _ =>
    match l with
    | .nil => (k, v)
    | .node lk lv ll lr lh li => minEntry (.node lk lv ll lr lh li)

/-- `BSTMap::eraseNode` (src/Main.cpp:373-389): find the key; if absent
return the last visited node (tree unchanged).  If the node has two
children, overwrite its key/value with those of its in-order successor `s`
(the leftmost node of the right subtree) and remove `s` instead; otherwise
remove the node itself.  `removeNode` decrements `n`.  Returns the position
of the removed node's former parent and the new state.  In the two-children
case the frame pushed for the target already carries the overwritten
key/value, since the C++ mutates `w` before splicing out `s`. -/
def eraseNodeBST (s : MapState) (k : Int) : Option (Ctx × Tree) × MapState :=
  match findNode k [] s.root with
  | none => (none, s)
  | some (ctx, w) =>
    match w with
    | .nil => (none, s)  -- unreachable: findNode never returns a NULL focus
    | .node k' v' l r h i =>
      if k' != k then (some (ctx, .node k' v' l r h i), s)
      else
        match l, r with
        | .node lk lv ll lr lh li, .node rk rv rl rr rh ri =>
          let se := minEntry (.node rk rv rl rr rh ri)
          let sPos := youngestDescendantType
            (⟨false, se.1, se.2, h, i, .node lk lv ll lr lh li⟩ :: ctx)
            (.node rk rv rl rr rh ri) true
          let rem := removeNode sPos.1 sPos.2
          (rem.1, ⟨rem.2, s.n - 1⟩)
        | _, _ =>
          let rem := removeNode ctx (.node k' v' l r h i)
          (rem.1, ⟨rem.2, s.n - 1⟩)

/-- `TreeMapStats::erase` = `erase` → `TreeMapStats::eraseNode`
(src/Main.cpp:878-886): run the BST deletion, then `AVLTreeMap::eraseNode`
(src/Main.cpp:668-674) calls `rebalanceAncestors(z)` on the removed node's
former parent, then `updateTree(z)` recomputes the statistics from `z` up to
the root.  When `z` is NULL both walks do nothing. -/
def erase (s : MapState) (k : Int) : MapState :=
  let res := eraseNodeBST s k
  match res.1 with
  | none => res.2
  | some (ctx, z) =>
    let rp := rebalanceAncestors ctx z []
    ⟨updateTreeAt rp.1 rp.2, res.2.n⟩

/-- One public mutating operation of the map interface. -/
inductive Op where
  | put (k v : Int) : Op
  | erase (k : Int) : Op
deriving Repr, DecidableEq

/-- Run one operation. -/
def step (s : MapState) : Op → MapState
  | .put k v => put s k v
  | .erase k => erase s k

/-- Run a sequence of operations starting from the empty map. -/
def run (ops : List Op) : MapState := ops.foldl step mkEmpty

/-! ### Specification-level predicates about tree states -/

/-- In-order list of (key, value) entries of a subtree. -/
def toL : Tree → List (Int × Int)
  | .nil => []
  | .node k v l r _ _ => toL l ++ (k, v) :: toL r

/-- Number of nodes reachable in a subtree. -/
def count : Tree → Nat
  | .nil => 0
  | .node _ _ l r _ _ => count l + count r + 1

/-- Values stored in a subtree, in order. -/
def values (t : Tree) : List Int := (toL t).map Prod.snd

/-- Keys stored in a subtree, in order. -/
def keys (t : Tree) : List Int := (toL t).map Prod.fst

/-- All keys of a subtree satisfy `p`. -/
def allKeys (p : Int → Bool) : Tree → Bool
  | .nil => true
  | .node k _ l r _ _ => p k && allKeys p l && allKeys p r

/-- BST ordering invariant: at every node, all keys of the left subtree are
smaller than the node's key and all keys of the right subtree are larger. -/
def ordered : Tree → Bool
  | .nil => true
  | .node k _ l r _ _ =>
    allKeys (fun x => decide (x < k)) l && allKeys (fun x => decide (k < x)) r
      && ordered l && ordered r

/-- Height invariant: every node's stored `ht` is `1 + max` of its children's
stored heights (absent child counting as 0). -/
def htOK : Tree → Bool
  | .nil => true
  | .node _ _ l r h _ => (h == Max.max (height l) (height r) + 1) && htOK l && htOK r

/-- AVL balance invariant: at every node the children's stored heights differ
by at most one. -/
def balOK : Tree → Bool
  | .nil => true
  | .node _ _ l r _ _ =>
    (decide (((height l : Int) - (height r : Int)).natAbs ≤ 1)) && balOK l && balOK r

/-- Statistics invariant: every node's stored `info` equals `updateStats` of
its value and its children's stored statistics. -/
def statsOK : Tree → Bool
  | .nil => true
  | .node _ v l r _ i => (i == updateStats v (Tree.info? l) (Tree.info? r)) && statsOK l && statsOK r

/-- Ground-truth statistics correctness, stated directly against the subtree
contents: at every node, `num` is the number of nodes of the subtree, `sum`
the sum of its values, and `min`/`max` a lower/upper bound that is attained. -/
def statsTrue : Tree → Bool
  | .nil => true
  | .node k v l r h i =>
    (i.num == count (.node k v l r h i))
      && (i.sum == (values (.node k v l r h i)).sum)
      && (values (.node k v l r h i)).all (fun x => i.smin ≤ x)
      && (values (.node k v l r h i)).contains i.smin
      && (values (.node k v l r h i)).all (fun x => x ≤ i.smax)
      && (values (.node k v l r h i)).contains i.smax
      && statsTrue l && statsTrue r

/-- Statistics invariant away from a marked root-relative path: every node's
`info` is correct except possibly at nodes lying on the path (the spine from
the root toward the tracked node). -/
def statsExcept : Tree → List Bool → Bool
  | .nil, _ => true
  | .node _ _ l r _ _, [] => statsOK l && statsOK r
  | .node _ _ l r _ _, d :: pp =>
    if d then statsExcept l pp && statsOK r else statsOK l && statsExcept r pp

/-- The full data-structure invariant of a map state. -/
def Inv (s : MapState) : Prop :=
  ordered s.root = true ∧ htOK s.root = true ∧ balOK s.root = true
    ∧ statsOK s.root = true ∧ s.n = (count s.root : Int)

instance : DecidablePred Inv := fun s => by
  unfold Inv; infer_instance

/-! ### Basic structural lemmas -/

/-- Entries of a subtree contributed to the left of the focus by a frame. -/
def fContribL (f : Frame) : List (Int × Int) :=
  if f.fromLeft then [] else toL f.other ++ [(f.key, f.value)]

/-- Entries of a subtree contributed to the right of the focus by a frame. -/
def fContribR (f : Frame) : List (Int × Int) :=
  if f.fromLeft then (f.key, f.value) :: toL f.other else []

/-- Entries of the whole tree lying to the left of the focus subtree. -/
def lpart : Ctx → List (Int × Int)
  | [] => []
  | f :: rest => lpart rest ++ fContribL f

/-- Entries of the whole tree lying to the right of the focus subtree. -/
def rpart : Ctx → List (Int × Int)
  | [] => []
  | f :: rest => fContribR f ++ rpart rest

/-- Height / balance data recorded in an ancestor chain, relative to the
pre-operation height `h` of the hole: each frame's stored `ht` is consistent
with `h` and its other subtree, which is itself valid and was balanced
against `h`. -/
def hChain : Ctx → Nat → Prop
  | [], _ => True
  | f :: rest, h =>
    f.ht = Max.max h (height f.other) + 1
      ∧ h ≤ height f.other + 1 ∧ height f.other ≤ h + 1
      ∧ htOK f.other = true ∧ balOK f.other = true
      ∧ hChain rest f.ht

/-- All "other" subtrees hanging off an ancestor chain have correct stats. -/
def othersStats : Ctx → Prop
  | [] => True
  | f :: rest => statsOK f.other = true ∧ othersStats rest

/-- Equivalence of contexts up to `info` fields of the frames: everything the
rebalancing walk and the final statistics walk read from a context is
preserved. -/
def ctxSame (a b : Ctx) : Prop :=
  lpart a = lpart b ∧ rpart a = rpart b ∧ dirs a = dirs b
    ∧ (∀ h, hChain a h ↔ hChain b h) ∧ (othersStats a ↔ othersStats b)

/-- Precondition of one step of the rebalancing walk: the focus is a node
whose stored height is still the pre-operation height of this position, its
children are internally consistent AVL subtrees, the ancestor chain carries
the pre-operation heights, and the focus' true height differs from the
stored one by at most 1 (a decrease being possible only while the focus is
still balanced). -/
def WalkPre (ctx : Ctx) (w : Tree) : Prop :=
  ∃ k v l r h i, w = Tree.node k v l r h i
    ∧ htOK l = true ∧ balOK l = true ∧ htOK r = true ∧ balOK r = true
    ∧ hChain ctx h
    ∧ Max.max (height l) (height r) + 1 ≤ h + 1
    ∧ (h ≤ Max.max (height l) (height r) + 1
        ∨ (Max.max (height l) (height r) + 2 = h
            ∧ height l ≤ height r + 1 ∧ height r ≤ height l + 1))
    ∧ height l ≤ height r + 2 ∧ height r ≤ height l + 2

/-- Specification-side description of the two-children erase (spec §5,
"the successor node — the minimum-key node in its right subtree — is the one
physically removed"): remove the leftmost node of a subtree, splicing its
right child into its place.  Written from the spec's words, to be compared
with the code's `eraseNode`. -/
def removeMinSpec : Tree → Tree
  | .nil => .nil
  | .node k v l r h i =>
    match l with
    | .nil => r
    | .node lk lv ll lr lh li => .node k v (removeMinSpec (.node lk lv ll lr lh li)) r h i

/-- Structural skeleton of a tree: keys, shape and stored heights, with
values and statistics erased.  Used to state frame conditions ("no
structural change"). -/
def skel : Tree → Tree
  | .nil => .nil
  | .node k _ l r h _ => .node k 0 (skel l) (skel r) h ⟨0, 0, 0, 0⟩

/-- Node constructor with the height and statistics recomputed from the
children, as both rotation implementations do (`resetHeight`,
`updateStats`).  Used by the spec-side restructuring description. -/
def joinNode (k v : Int) (l r : Tree) : Tree :=
  .node k v l r (Max.max (height l) (height r) + 1)
    (updateStats v (Tree.info? l) (Tree.info? r))

/-- Specification-side trinode restructuring, written from the spec's words
(§4.2): `y` is `z`'s taller child with ties broken toward the left; `x` is
`y`'s taller child with `y`'s tie broken toward the left, except toward the
right when `y` is `z`'s right child; if `x`, `y`, `z` are collinear a single
rotation promotes `y` above `z`, otherwise a double rotation promotes `x`
above both.  To be compared with the code's `rebalance`. -/
def trinodeRestructureSpec : Tree → Tree
  | .nil => .nil
  | .node zk zv zl zr _ _ =>
    if height zr < height zl ∨ height zl = height zr then
      match zl with
      | .nil => .nil
      | .node yk yv yl yr _ _ =>
        if height yr < height yl ∨ height yl = height yr then
          joinNode yk yv yl (joinNode zk zv yr zr)
        else
          match yr with
          | .nil => .nil
          | .node xk xv xl xr _ _ =>
            joinNode xk xv (joinNode yk yv yl xl) (joinNode zk zv xr zr)
    else
      match zr with
      | .nil => .nil
      | .node yk yv yl yr _ _ =>
        if height yl < height yr ∨ height yl = height yr then
          joinNode yk yv (joinNode zk zv zl yl) yr
        else
          match yl with
          | .nil => .nil
          | .node xk xv xl xr _ _ =>
            joinNode xk xv (joinNode zk zv zl xl) (joinNode yk yv xr yr)

theorem updateCtxStats_length (ctx : Ctx) (t : Tree) :
    (updateCtxStats ctx t).length = ctx.length := by
  induction ctx generalizing t with
  | nil => rfl
  | cons f rest ih => simp [updateCtxStats, ih]

theorem singleRotation_ctx_length (rotLeft : Bool) (z : Tree) (ctx : Ctx) :
    (singleRotation rotLeft z ctx).2.length = ctx.length := by
  cases z with
  | nil => rfl
  | node zk zv zl zr zh zi =>
    simp only [singleRotation]
    cases hy : (if rotLeft then zr else zl) with
    | nil => rfl
    | node yk yv yl yr yh yi => simp [updateCtxStats_length]

theorem rebalance_ctx_length (z : Tree) (ctx : Ctx) (p : List Bool) :
    (rebalance z ctx p).2.1.length = ctx.length := by
  cases z with
  | nil => rfl
  | node zk zv zl zr zh zi =>
    simp only [rebalance]
    by_cases hc : (tallestIsLeft zl zr true) ==
        (if tallestIsLeft zl zr true then
          tallestIsLeft (if tallestIsLeft zl zr true then zl else zr).left
            (if tallestIsLeft zl zr true then zl else zr).right true
         else
          tallestIsLeft (if tallestIsLeft zl zr true then zl else zr).left
            (if tallestIsLeft zl zr true then zl else zr).right false)
    · simp only [hc, if_true, ite_true]
      simp [singleRotation_ctx_length]
    · simp only [hc]
      simp only [if_false, Bool.false_eq_true, ite_false]
      split
      · next h1 =>
          exfalso
          have := singleRotation_ctx_length
            (!(if tallestIsLeft zl zr true then
                tallestIsLeft (if tallestIsLeft zl zr true then zl else zr).left
                  (if tallestIsLeft zl zr true then zl else zr).right true
               else
                tallestIsLeft (if tallestIsLeft zl zr true then zl else zr).left
                  (if tallestIsLeft zl zr true then zl else zr).right false))
            (if tallestIsLeft zl zr true then zl else zr)
            (⟨tallestIsLeft zl zr true, zk, zv, zh, zi,
              if tallestIsLeft zl zr true then zr else zl⟩ :: ctx)
          rw [h1] at this
          simp at this
      · next zf' ctx1 h1 =>
          have := singleRotation_ctx_length
            (!(if tallestIsLeft zl zr true then
                tallestIsLeft (if tallestIsLeft zl zr true then zl else zr).left
                  (if tallestIsLeft zl zr true then zl else zr).right true
               else
                tallestIsLeft (if tallestIsLeft zl zr true then zl else zr).left
                  (if tallestIsLeft zl zr true then zl else zr).right false))
            (if tallestIsLeft zl zr true then zl else zr)
            (⟨tallestIsLeft zl zr true, zk, zv, zh, zi,
              if tallestIsLeft zl zr true then zr else zl⟩ :: ctx)
          rw [h1] at this
          simp only [List.length_cons, Nat.succ.injEq] at this
          simp [singleRotation_ctx_length, this]

theorem toL_updateInfo (t : Tree) : toL (updateInfo t) = toL t := by
  cases t <;> simp [updateInfo, toL]

theorem height_updateInfo (t : Tree) : height (updateInfo t) = height t := by
  cases t <;> simp [updateInfo, height]

theorem htOK_updateInfo (t : Tree) : htOK (updateInfo t) = htOK t := by
  cases t <;> simp [updateInfo, htOK]

theorem balOK_updateInfo (t : Tree) : balOK (updateInfo t) = balOK t := by
  cases t <;> simp [updateInfo, balOK]

theorem ordered_updateInfo (t : Tree) : ordered (updateInfo t) = ordered t := by
  cases t <;> simp [updateInfo, ordered]

theorem toL_updateTreeAt (t : Tree) (p : List Bool) : toL (updateTreeAt t p) = toL t := by
  induction t generalizing p with
  | nil => cases p <;> simp [updateTreeAt, updateInfo]
  | node k v l r h i ihl ihr =>
    cases p with
    | nil => simp [updateTreeAt, toL_updateInfo]
    | cons d pp =>
      cases d <;> simp [updateTreeAt, updateInfo, toL, ihl, ihr]

theorem height_updateTreeAt (t : Tree) (p : List Bool) : height (updateTreeAt t p) = height t := by
  induction t generalizing p with
  | nil => cases p <;> simp [updateTreeAt, updateInfo, height]
  | node k v l r h i ihl ihr =>
    cases p with
    | nil => simp [updateTreeAt, height_updateInfo]
    | cons d pp =>
      cases d <;> simp [updateTreeAt, updateInfo, height]

theorem htOK_updateTreeAt (t : Tree) (p : List Bool) : htOK (updateTreeAt t p) = htOK t := by
  induction t generalizing p with
  | nil => cases p <;> simp [updateTreeAt, updateInfo, htOK]
  | node k v l r h i ihl ihr =>
    cases p with
    | nil => simp [updateTreeAt, htOK_updateInfo]
    | cons d pp =>
      cases d <;> simp [updateTreeAt, updateInfo, htOK, ihl, ihr, height_updateTreeAt]

theorem balOK_updateTreeAt (t : Tree) (p : List Bool) : balOK (updateTreeAt t p) = balOK t := by
  induction t generalizing p with
  | nil => cases p <;> simp [updateTreeAt, updateInfo, balOK]
  | node k v l r h i ihl ihr =>
    cases p with
    | nil => simp [updateTreeAt, balOK_updateInfo]
    | cons d pp =>
      cases d <;> simp [updateTreeAt, updateInfo, balOK, ihl, ihr, height_updateTreeAt]

theorem ordered_updateTreeAt (t : Tree) (p : List Bool) : ordered (updateTreeAt t p) = ordered t := by
  induction t generalizing p with
  | nil => cases p <;> simp [updateTreeAt, updateInfo, ordered]
  | node k v l r h i ihl ihr =>
    cases p with
    | nil => simp [updateTreeAt, ordered_updateInfo]
    | cons d pp =>
      have hk : ∀ (u : Tree) (q : List Bool) (p : Int → Bool),
          allKeys p (updateTreeAt u q) = allKeys p u := by
        intro u
        induction u with
        | nil => intro q p; cases q <;> simp [updateTreeAt, updateInfo, allKeys]
        | node k' v' l' r' h' i' ihl' ihr' =>
          intro q p
          cases q with
          | nil => simp [updateTreeAt, updateInfo, allKeys]
          | cons d' qq => cases d' <;> simp [updateTreeAt, updateInfo, allKeys, ihl', ihr']
      cases d <;> simp [updateTreeAt, updateInfo, ordered, ihl, ihr, hk]

theorem toL_resetHeight (t : Tree) : toL (resetHeight t) = toL t := by
  cases t <;> simp [resetHeight, toL]

theorem toL_rebuildOne (f : Frame) (t : Tree) :
    toL (rebuildOne f t) = fContribL f ++ toL t ++ fContribR f := by
  cases hb : f.fromLeft <;> simp [rebuildOne, hb, fContribL, fContribR, toL]

theorem toL_rebuild (ctx : Ctx) (t : Tree) :
    toL (rebuild ctx t) = lpart ctx ++ toL t ++ rpart ctx := by
  induction ctx generalizing t with
  | nil => simp [rebuild, lpart, rpart]
  | cons f rest ih =>
    simp [rebuild, ih, toL_rebuildOne, lpart, rpart]

theorem height_rebuildOne (f : Frame) (t : Tree) : height (rebuildOne f t) = f.ht := by
  cases hb : f.fromLeft <;> simp [rebuildOne, hb, height]

theorem htOK_rebuildOne_iff (f : Frame) (t : Tree) :
    htOK (rebuildOne f t) = true ↔
      (f.ht = Max.max (height t) (height f.other) + 1 ∧ htOK t = true ∧ htOK f.other = true) := by
  cases hb : f.fromLeft
  · simp only [rebuildOne, hb, Bool.false_eq_true, if_false, htOK, Bool.and_eq_true, beq_iff_eq,
      Nat.max_comm (height f.other) (height t)]
    tauto
  · simp only [rebuildOne, hb, if_true, htOK, Bool.and_eq_true, beq_iff_eq]
    tauto

theorem balOK_rebuildOne_iff (f : Frame) (t : Tree) :
    balOK (rebuildOne f t) = true ↔
      (((height t : Int) - (height f.other : Int)).natAbs ≤ 1
        ∧ balOK t = true ∧ balOK f.other = true) := by
  cases hb : f.fromLeft
  · simp only [rebuildOne, hb, Bool.false_eq_true, if_false, balOK, Bool.and_eq_true,
      decide_eq_true_eq]
    constructor
    · intro hh
      refine ⟨?_, hh.2, hh.1.2⟩
      omega
    · intro hh
      refine ⟨⟨?_, hh.2.2⟩, hh.2.1⟩
      omega
  · simp only [rebuildOne, hb, if_true, balOK, Bool.and_eq_true, decide_eq_true_eq]
    tauto

theorem statsOK_rebuildOne_imp (f : Frame) (t : Tree) :
    statsOK (rebuildOne f t) = true → statsOK t = true ∧ statsOK f.other = true := by
  cases hb : f.fromLeft <;>
    simp only [rebuildOne, hb, Bool.false_eq_true, if_false, if_true, statsOK,
      Bool.and_eq_true] <;> tauto

theorem ordered_rebuildOne_imp (f : Frame) (t : Tree) :
    ordered (rebuildOne f t) = true → ordered t = true := by
  cases hb : f.fromLeft <;>
    simp only [rebuildOne, hb, Bool.false_eq_true, if_false, if_true, ordered,
      Bool.and_eq_true] <;> tauto

theorem htOK_rebuild_focus (ctx : Ctx) (t : Tree) :
    htOK (rebuild ctx t) = true → htOK t = true := by
  induction ctx generalizing t with
  | nil => exact fun h => h
  | cons f rest ih =>
    intro h
    exact ((htOK_rebuildOne_iff f t).1 (ih (rebuildOne f t) h)).2.1

theorem balOK_rebuild_focus (ctx : Ctx) (t : Tree) :
    balOK (rebuild ctx t) = true → balOK t = true := by
  induction ctx generalizing t with
  | nil => exact fun h => h
  | cons f rest ih =>
    intro h
    exact ((balOK_rebuildOne_iff f t).1 (ih (rebuildOne f t) h)).2.1

theorem statsOK_rebuild_focus (ctx : Ctx) (t : Tree) :
    statsOK (rebuild ctx t) = true → statsOK t = true := by
  induction ctx generalizing t with
  | nil => exact fun h => h
  | cons f rest ih =>
    intro h
    exact (statsOK_rebuildOne_imp f t (ih (rebuildOne f t) h)).1

theorem ordered_rebuild_focus (ctx : Ctx) (t : Tree) :
    ordered (rebuild ctx t) = true → ordered t = true := by
  induction ctx generalizing t with
  | nil => exact fun h => h
  | cons f rest ih =>
    intro h
    exact ordered_rebuildOne_imp f t (ih (rebuildOne f t) h)

theorem hChain_of_rebuild (ctx : Ctx) (t : Tree) :
    htOK (rebuild ctx t) = true → balOK (rebuild ctx t) = true → hChain ctx (height t) := by
  induction ctx generalizing t with
  | nil => intro _ _; trivial
  | cons f rest ih =>
    intro hh hb
    have hh1 : htOK (rebuildOne f t) = true := htOK_rebuild_focus rest _ hh
    have hb1 : balOK (rebuildOne f t) = true := balOK_rebuild_focus rest _ hb
    have h2 := (htOK_rebuildOne_iff f t).1 hh1
    have h3 := (balOK_rebuildOne_iff f t).1 hb1
    have h4 := ih (rebuildOne f t) hh hb
    rw [height_rebuildOne] at h4
    exact ⟨h2.1, by omega, by omega, h2.2.2, h3.2.2, h4⟩

theorem othersStats_of_rebuild (ctx : Ctx) (t : Tree) :
    statsOK (rebuild ctx t) = true → othersStats ctx := by
  induction ctx generalizing t with
  | nil => intro _; trivial
  | cons f rest ih =>
    intro h
    have h1 : statsOK (rebuildOne f t) = true := statsOK_rebuild_focus rest _ h
    exact ⟨(statsOK_rebuildOne_imp f t h1).2, ih (rebuildOne f t) h⟩

/-! ### Transfer lemmas: `updateCtxStats` only rewrites `info` fields of frames -/

theorem lpart_updateCtxStats (ctx : Ctx) (t : Tree) :
    lpart (updateCtxStats ctx t) = lpart ctx := by
  induction ctx generalizing t with
  | nil => rfl
  | cons f rest ih => simp [updateCtxStats, lpart, fContribL, ih]

theorem rpart_updateCtxStats (ctx : Ctx) (t : Tree) :
    rpart (updateCtxStats ctx t) = rpart ctx := by
  induction ctx generalizing t with
  | nil => rfl
  | cons f rest ih => simp [updateCtxStats, rpart, fContribR, ih]

theorem dirs_cons (f : Frame) (rest : Ctx) : dirs (f :: rest) = dirs rest ++ [f.fromLeft] := by
  simp [dirs]

theorem dirs_updateCtxStats (ctx : Ctx) (t : Tree) :
    dirs (updateCtxStats ctx t) = dirs ctx := by
  induction ctx generalizing t with
  | nil => rfl
  | cons f rest ih => simp [updateCtxStats, dirs_cons, ih]

theorem hChain_updateCtxStats (ctx : Ctx) (t : Tree) (h : Nat) :
    hChain (updateCtxStats ctx t) h ↔ hChain ctx h := by
  induction ctx generalizing t h with
  | nil => simp [updateCtxStats]
  | cons f rest ih => simp [updateCtxStats, hChain, ih]

theorem othersStats_updateCtxStats (ctx : Ctx) (t : Tree) :
    othersStats (updateCtxStats ctx t) ↔ othersStats ctx := by
  induction ctx generalizing t with
  | nil => simp [updateCtxStats]
  | cons f rest ih => simp [updateCtxStats, othersStats, ih]

/-! ### Statistics lemmas -/

theorem statsOK_node_updateStats (k v : Int) (l r : Tree) (h : Nat) :
    statsOK l = true → statsOK r = true →
    statsOK (.node k v l r h (updateStats v (Tree.info? l) (Tree.info? r))) = true := by
  intro hl hr
  simp [statsOK, hl, hr]

theorem statsOK_imp_statsExcept (t : Tree) (p : List Bool) :
    statsOK t = true → statsExcept t p = true := by
  induction t generalizing p with
  | nil => intro _; rfl
  | node k v l r h i ihl ihr =>
    intro hs
    simp only [statsOK, Bool.and_eq_true] at hs
    cases p with
    | nil => simp [statsExcept, hs.1.2, hs.2]
    | cons d pp =>
      cases d <;> simp [statsExcept, hs.1.2, hs.2, ihl, ihr]

theorem statsExcept_rebuildOne (f : Frame) (t : Tree) (p : List Bool) :
    statsExcept t p = true → statsOK f.other = true →
    statsExcept (rebuildOne f t) (f.fromLeft :: p) = true := by
  intro ht ho
  cases hb : f.fromLeft <;> simp [rebuildOne, hb, statsExcept, ht, ho]

theorem statsExcept_rebuild (ctx : Ctx) (t : Tree) (p : List Bool) :
    statsExcept t p = true → othersStats ctx →
    statsExcept (rebuild ctx t) (dirs ctx ++ p) = true := by
  induction ctx generalizing t p with
  | nil => intro h _; simpa [rebuild, dirs] using h
  | cons f rest ih =>
    intro ht ho
    have h1 : statsExcept (rebuildOne f t) (f.fromLeft :: p) = true :=
      statsExcept_rebuildOne f t p ht ho.1
    have h2 := ih (rebuildOne f t) (f.fromLeft :: p) h1 ho.2
    simpa [rebuild, dirs_cons] using h2

theorem statsOK_resetHeight (t : Tree) : statsOK (resetHeight t) = statsOK t := by
  cases t <;> simp [resetHeight, statsOK]

theorem statsExcept_resetHeight (t : Tree) (p : List Bool) :
    statsExcept (resetHeight t) p = statsExcept t p := by
  cases t with
  | nil => rfl
  | node k v l r h i => cases p with
    | nil => simp [resetHeight, statsExcept]
    | cons d pp => cases d <;> simp [resetHeight, statsExcept]

theorem updateTreeAt_statsOK (t : Tree) (p : List Bool) :
    statsExcept t p = true → statsOK (updateTreeAt t p) = true := by
  induction t generalizing p with
  | nil => intro _; cases p <;> simp [updateTreeAt, updateInfo, statsOK]
  | node k v l r h i ihl ihr =>
    intro hs
    cases p with
    | nil =>
      simp only [statsExcept, Bool.and_eq_true] at hs
      simpa [updateTreeAt, updateInfo] using statsOK_node_updateStats k v l r h hs.1 hs.2
    | cons d pp =>
      cases d with
      | true =>
        simp only [statsExcept, if_true, Bool.and_eq_true] at hs
        have h1 := ihl pp hs.1
        simpa [updateTreeAt, updateInfo] using
          statsOK_node_updateStats k v (updateTreeAt l pp) r h h1 hs.2
      | false =>
        simp only [statsExcept, Bool.false_eq_true, if_false, Bool.and_eq_true] at hs
        have h1 := ihr pp hs.2
        simpa [updateTreeAt, updateInfo] using
          statsOK_node_updateStats k v l (updateTreeAt r pp) h hs.1 h1

theorem updateTreeAt_id (t : Tree) (p : List Bool) :
    statsOK t = true → updateTreeAt t p = t := by
  induction t generalizing p with
  | nil => intro _; cases p <;> rfl
  | node k v l r h i ihl ihr =>
    intro hs
    simp only [statsOK, Bool.and_eq_true, beq_iff_eq] at hs
    cases p with
    | nil => simp [updateTreeAt, updateInfo, hs.1.1]
    | cons d pp =>
      cases d with
      | true =>
        simp [updateTreeAt, updateInfo, ihl pp hs.1.2, hs.1.1]
      | false =>
        simp [updateTreeAt, updateInfo, ihr pp hs.2, hs.1.1]

/-! ### Ordering: the per-node BST predicate versus sortedness of the in-order keys -/

theorem keys_node (k v : Int) (l r : Tree) (h : Nat) (i : Stats) :
    keys (.node k v l r h i) = keys l ++ k :: keys r := by
  simp [keys, toL]

theorem allKeys_iff (p : Int → Bool) (t : Tree) :
    allKeys p t = true ↔ ∀ x ∈ keys t, p x = true := by
  induction t with
  | nil => simp [allKeys, keys, toL]
  | node k v l r h i ihl ihr =>
    simp only [allKeys, Bool.and_eq_true, ihl, ihr, keys_node]
    constructor
    · rintro ⟨⟨hk, hl⟩, hr⟩ x hx
      rcases List.mem_append.1 hx with hx | hx
      · exact hl x hx
      · rcases List.mem_cons.1 hx with rfl | hx
        · exact hk
        · exact hr x hx
    · intro hh
      refine ⟨⟨hh k (by simp), fun x hx => hh x (by simp [hx])⟩,
        fun x hx => hh x (by simp [hx])⟩

theorem ordered_iff_pairwise (t : Tree) :
    ordered t = true ↔ (keys t).Pairwise (· < ·) := by
  induction t with
  | nil => simp [ordered, keys, toL]
  | node k v l r h i ihl ihr =>
    simp only [ordered, Bool.and_eq_true, ihl, ihr, keys_node, List.pairwise_append,
      List.pairwise_cons, allKeys_iff, decide_eq_true_eq]
    constructor
    · rintro ⟨⟨⟨hlk, hkr⟩, hl⟩, hr⟩
      refine ⟨hl, ⟨fun x hx => hkr x hx, hr⟩, ?_⟩
      intro a ha b hb
      rcases List.mem_cons.1 hb with rfl | hb
      · exact hlk a ha
      · exact lt_trans (hlk a ha) (hkr b hb)
    · rintro ⟨hl, ⟨hkr, hr⟩, hcross⟩
      exact ⟨⟨⟨fun x hx => hcross x hx k (by simp), fun x hx => hkr x hx⟩, hl⟩, hr⟩

/-! ### Stored statistics versus ground truth -/

theorem values_node (k v : Int) (l r : Tree) (h : Nat) (i : Stats) :
    values (.node k v l r h i) = values l ++ v :: values r := by
  simp [values, toL]

theorem count_eq_length_toL (t : Tree) : count t = (toL t).length := by
  induction t with
  | nil => rfl
  | node k v l r h i ihl ihr => simp [count, toL, ihl, ihr]; omega

theorem bound_attained_min (v a b : Int) (A B : List Int)
    (hA : ∀ x ∈ A, a ≤ x) (hAm : a ∈ A ∨ a = v)
    (hB : ∀ x ∈ B, b ≤ x) (hBm : b ∈ B ∨ b = v) :
    (∀ x ∈ A ++ v :: B, Min.min v (Min.min a b) ≤ x)
      ∧ Min.min v (Min.min a b) ∈ A ++ v :: B := by
  constructor
  · intro x hx
    rcases List.mem_append.1 hx with hx | hx
    · exact le_trans (le_trans (min_le_right _ _) (min_le_left a b)) (hA x hx)
    · rcases List.mem_cons.1 hx with rfl | hx
      · exact min_le_left _ _
      · exact le_trans (le_trans (min_le_right _ _) (min_le_right a b)) (hB x hx)
  · rcases min_choice v (Min.min a b) with hm | hm
    · rw [hm]; simp
    · rw [hm]
      rcases min_choice a b with hm2 | hm2 <;> rw [hm2]
      · rcases hAm with hAm | rfl
        · exact List.mem_append.2 (Or.inl hAm)
        · simp
      · rcases hBm with hBm | rfl
        · simp [hBm]
        · simp

theorem bound_attained_max (v a b : Int) (A B : List Int)
    (hA : ∀ x ∈ A, x ≤ a) (hAm : a ∈ A ∨ a = v)
    (hB : ∀ x ∈ B, x ≤ b) (hBm : b ∈ B ∨ b = v) :
    (∀ x ∈ A ++ v :: B, x ≤ Max.max v (Max.max a b))
      ∧ Max.max v (Max.max a b) ∈ A ++ v :: B := by
  constructor
  · intro x hx
    rcases List.mem_append.1 hx with hx | hx
    · exact le_trans (hA x hx) (le_trans (le_max_left a b) (le_max_right _ _))
    · rcases List.mem_cons.1 hx with rfl | hx
      · exact le_max_left _ _
      · exact le_trans (hB x hx) (le_trans (le_max_right a b) (le_max_right _ _))
  · rcases max_choice v (Max.max a b) with hm | hm
    · rw [hm]; simp
    · rw [hm]
      rcases max_choice a b with hm2 | hm2 <;> rw [hm2]
      · rcases hAm with hAm | rfl
        · exact List.mem_append.2 (Or.inl hAm)
        · simp
      · rcases hBm with hBm | rfl
        · simp [hBm]
        · simp

theorem statsOK_imp_statsTrue (t : Tree) : statsOK t = true → statsTrue t = true := by
  induction t with
  | nil => intro _; rfl
  | node k v l r h i ihl ihr =>
    intro hs
    simp only [statsOK, Bool.and_eq_true, beq_iff_eq] at hs
    obtain ⟨⟨hi, hl⟩, hr⟩ := hs
    have htl := ihl hl
    have htr := ihr hr
    -- facts about the children's stored root statistics
    have hnuml : (match Tree.info? l with | some s => s.num | none => 0) = count l := by
      cases l with
      | nil => rfl
      | node lk lv ll lr lh li =>
        simp only [statsTrue, Bool.and_eq_true, beq_iff_eq] at htl
        simpa [Tree.info?] using htl.1.1.1.1.1.1.1
    have hnumr : (match Tree.info? r with | some s => s.num | none => 0) = count r := by
      cases r with
      | nil => rfl
      | node rk rv rl rr rh ri =>
        simp only [statsTrue, Bool.and_eq_true, beq_iff_eq] at htr
        simpa [Tree.info?] using htr.1.1.1.1.1.1.1
    have hsuml : (match Tree.info? l with | some s => s.sum | none => 0) = (values l).sum := by
      cases l with
      | nil => simp [Tree.info?, values, toL]
      | node lk lv ll lr lh li =>
        simp only [statsTrue, Bool.and_eq_true, beq_iff_eq] at htl
        simpa [Tree.info?] using htl.1.1.1.1.1.1.2
    have hsumr : (match Tree.info? r with | some s => s.sum | none => 0) = (values r).sum := by
      cases r with
      | nil => simp [Tree.info?, values, toL]
      | node rk rv rl rr rh ri =>
        simp only [statsTrue, Bool.and_eq_true, beq_iff_eq] at htr
        simpa [Tree.info?] using htr.1.1.1.1.1.1.2
    have hminl : (∀ x ∈ values l,
          (match Tree.info? l with | some s => s.smin | none => v) ≤ x)
        ∧ ((match Tree.info? l with | some s => s.smin | none => v) ∈ values l
            ∨ (match Tree.info? l with | some s => s.smin | none => v) = v) := by
      cases l with
      | nil => simp [Tree.info?, values, toL]
      | node lk lv ll lr lh li =>
        simp only [statsTrue, Bool.and_eq_true, beq_iff_eq] at htl
        refine ⟨?_, Or.inl ?_⟩
        · intro x hx
          have := htl.1.1.1.1.1.2
          simp only [List.all_eq_true, decide_eq_true_eq] at this
          exact this x hx
        · have := htl.1.1.1.1.2
          simpa [List.contains_iff_exists_mem_beq, Tree.info?] using this
    have hminr : (∀ x ∈ values r,
          (match Tree.info? r with | some s => s.smin | none => v) ≤ x)
        ∧ ((match Tree.info? r with | some s => s.smin | none => v) ∈ values r
            ∨ (match Tree.info? r with | some s => s.smin | none => v) = v) := by
      cases r with
      | nil => simp [Tree.info?, values, toL]
      | node rk rv rl rr rh ri =>
        simp only [statsTrue, Bool.and_eq_true, beq_iff_eq] at htr
        refine ⟨?_, Or.inl ?_⟩
        · intro x hx
          have := htr.1.1.1.1.1.2
          simp only [List.all_eq_true, decide_eq_true_eq] at this
          exact this x hx
        · have := htr.1.1.1.1.2
          simpa [List.contains_iff_exists_mem_beq, Tree.info?] using this
    have hmaxl : (∀ x ∈ values l,
          x ≤ (match Tree.info? l with | some s => s.smax | none => v))
        ∧ ((match Tree.info? l with | some s => s.smax | none => v) ∈ values l
            ∨ (match Tree.info? l with | some s => s.smax | none => v) = v) := by
      cases l with
      | nil => simp [Tree.info?, values, toL]
      | node lk lv ll lr lh li =>
        simp only [statsTrue, Bool.and_eq_true, beq_iff_eq] at htl
        refine ⟨?_, Or.inl ?_⟩
        · intro x hx
          have := htl.1.1.1.2
          simp only [List.all_eq_true, decide_eq_true_eq] at this
          exact this x hx
        · have := htl.1.1.2
          simpa [List.contains_iff_exists_mem_beq, Tree.info?] using this
    have hmaxr : (∀ x ∈ values r,
          x ≤ (match Tree.info? r with | some s => s.smax | none => v))
        ∧ ((match Tree.info? r with | some s => s.smax | none => v) ∈ values r
            ∨ (match Tree.info? r with | some s => s.smax | none => v) = v) := by
      cases r with
      | nil => simp [Tree.info?, values, toL]
      | node rk rv rl rr rh ri =>
        simp only [statsTrue, Bool.and_eq_true, beq_iff_eq] at htr
        refine ⟨?_, Or.inl ?_⟩
        · intro x hx
          have := htr.1.1.1.2
          simp only [List.all_eq_true, decide_eq_true_eq] at this
          exact this x hx
        · have := htr.1.1.2
          simpa [List.contains_iff_exists_mem_beq, Tree.info?] using this
    have hbm := bound_attained_min v _ _ (values l) (values r) hminl.1 hminl.2 hminr.1 hminr.2
    have hbM := bound_attained_max v _ _ (values l) (values r) hmaxl.1 hmaxl.2 hmaxr.1 hmaxr.2
    simp only [statsTrue, Bool.and_eq_true, beq_iff_eq, hi, updateStats, htl, htr,
      values_node, count, List.all_eq_true, decide_eq_true_eq, and_true]
    refine ⟨⟨⟨⟨⟨?_, ?_⟩, ?_⟩, ?_⟩, ?_⟩, ?_⟩
    · rw [hnuml, hnumr]; omega
    · rw [hsuml, hsumr]; simp [List.sum_append]; ring
    · exact hbm.1
    · simpa [List.contains_iff_exists_mem_beq] using hbm.2
    · exact hbM.1
    · simpa [List.contains_iff_exists_mem_beq] using hbM.2

/-! ### The four trinode-restructuring shapes of `rebalance` -/

theorem rebalance_red_LL (zk zv yk yv : Int) (yl yr2 zr : Tree) (yh zh : Nat) (yi zi : Stats)
    (ctx : Ctx) (p : List Bool)
    (hlr : height yr2 ≤ height yl)
    (hd : yh = height zr + 2) :
    rebalance (.node zk zv (.node yk yv yl yr2 yh yi) zr zh zi) ctx p
      = (let z2 := Tree.node zk zv yr2 zr (Max.max (height yr2) (height zr) + 1)
              (updateStats zv (Tree.info? yr2) (Tree.info? zr))
         let res := Tree.node yk yv yl z2 (Max.max (height yl) (height z2) + 1)
              (updateStats yv (Tree.info? yl) (Tree.info? z2))
         (res, updateCtxStats ctx res, rotPath false p)) := by
  have h1 : tallestIsLeft (Tree.node yk yv yl yr2 yh yi) zr true = true := by
    have e : height (Tree.node yk yv yl yr2 yh yi) = yh := rfl
    simp only [tallestIsLeft, e, Bool.or_eq_true, decide_eq_true_eq, Bool.and_eq_true,
      beq_iff_eq]
    omega
  have h2 : tallestIsLeft yl yr2 true = true := by
    simp only [tallestIsLeft, Bool.or_eq_true, decide_eq_true_eq, Bool.and_eq_true,
      beq_iff_eq, and_true]
    omega
  simp only [rebalance, h1, if_true, Tree.left, Tree.right, h2, beq_self_eq_true, if_true,
    Bool.not_true, singleRotation, if_false, Bool.false_eq_true]

theorem rebalance_red_RR (zk zv yk yv : Int) (zl yl yr2 : Tree) (yh zh : Nat) (yi zi : Stats)
    (ctx : Ctx) (p : List Bool)
    (hlr : height yl ≤ height yr2)
    (hd : yh = height zl + 2) :
    rebalance (.node zk zv zl (.node yk yv yl yr2 yh yi) zh zi) ctx p
      = (let z2 := Tree.node zk zv zl yl (Max.max (height zl) (height yl) + 1)
              (updateStats zv (Tree.info? zl) (Tree.info? yl))
         let res := Tree.node yk yv z2 yr2 (Max.max (height z2) (height yr2) + 1)
              (updateStats yv (Tree.info? z2) (Tree.info? yr2))
         (res, updateCtxStats ctx res, rotPath true p)) := by
  have h1 : tallestIsLeft zl (Tree.node yk yv yl yr2 yh yi) true = false := by
    have e : height (Tree.node yk yv yl yr2 yh yi) = yh := rfl
    simp only [tallestIsLeft, e, Bool.or_eq_false_iff, decide_eq_false_iff_not, not_lt,
      Bool.and_eq_false_iff, beq_eq_false_iff_ne, ne_eq]
    omega
  have h2 : tallestIsLeft yl yr2 false = false := by
    simp only [tallestIsLeft, Bool.and_false, Bool.or_false, decide_eq_false_iff_not, not_lt]
    exact hlr
  simp only [rebalance, h1, Bool.false_eq_true, if_false, Tree.left, Tree.right, h2,
    beq_self_eq_true, if_true, Bool.not_false, singleRotation, if_true]

theorem rebalance_red_LR (zk zv yk yv xk xv : Int) (yl xl xr zr : Tree) (yh xh zh : Nat)
    (yi xi zi : Stats) (ctx : Ctx) (p : List Bool)
    (hlr : height yl < xh)
    (hd : yh = height zr + 2) :
    rebalance (.node zk zv (.node yk yv yl (.node xk xv xl xr xh xi) yh yi) zr zh zi) ctx p
      = (let y2 := Tree.node yk yv yl xl (Max.max (height yl) (height xl) + 1)
              (updateStats yv (Tree.info? yl) (Tree.info? xl))
         let z2 := Tree.node zk zv xr zr (Max.max (height xr) (height zr) + 1)
              (updateStats zv (Tree.info? xr) (Tree.info? zr))
         let res := Tree.node xk xv y2 z2 (Max.max (height y2) (height z2) + 1)
              (updateStats xv (Tree.info? y2) (Tree.info? z2))
         (res,
          updateCtxStats
            (updateCtxStats ctx
              (rebuildOne
                ⟨true, zk, zv, zh,
                  updateStats zv
                    (Tree.info? (Tree.node xk xv y2 xr (Max.max (height y2) (height xr) + 1)
                      (updateStats xv (Tree.info? y2) (Tree.info? xr))))
                    (Tree.info? zr), zr⟩
                (Tree.node xk xv y2 xr (Max.max (height y2) (height xr) + 1)
                  (updateStats xv (Tree.info? y2) (Tree.info? xr)))))
            res,
          rotPath false (match p with
            | [] => ([] : List Bool)
            | d :: rest => if d == true then d :: rotPath true rest else d :: rest))) := by
  have h1 : tallestIsLeft (Tree.node yk yv yl (Tree.node xk xv xl xr xh xi) yh yi) zr true
      = true := by
    have e : height (Tree.node yk yv yl (Tree.node xk xv xl xr xh xi) yh yi) = yh := rfl
    simp only [tallestIsLeft, e, Bool.or_eq_true, decide_eq_true_eq, Bool.and_eq_true,
      beq_iff_eq]
    omega
  have h2 : tallestIsLeft yl (Tree.node xk xv xl xr xh xi) true = false := by
    have e : height (Tree.node xk xv xl xr xh xi) = xh := rfl
    simp only [tallestIsLeft, e, Bool.or_eq_false_iff, decide_eq_false_iff_not, not_lt,
      Bool.and_eq_false_iff, beq_eq_false_iff_ne, ne_eq]
    omega
  have e1 : (true == false) = false := rfl
  simp only [rebalance, h1, if_true, Tree.left, Tree.right, h2, e1,
    Bool.false_eq_true, if_false, Bool.not_false, Bool.not_true, singleRotation,
    updateCtxStats, rebuildOne, if_true]

theorem rebalance_red_RL (zk zv yk yv xk xv : Int) (zl xl xr yr2 : Tree) (yh xh zh : Nat)
    (yi xi zi : Stats) (ctx : Ctx) (p : List Bool)
    (hlr : height yr2 < xh)
    (hd : yh = height zl + 2) :
    rebalance (.node zk zv zl (.node yk yv (.node xk xv xl xr xh xi) yr2 yh yi) zh zi) ctx p
      = (let z2 := Tree.node zk zv zl xl (Max.max (height zl) (height xl) + 1)
              (updateStats zv (Tree.info? zl) (Tree.info? xl))
         let y2 := Tree.node yk yv xr yr2 (Max.max (height xr) (height yr2) + 1)
              (updateStats yv (Tree.info? xr) (Tree.info? yr2))
         let res := Tree.node xk xv z2 y2 (Max.max (height z2) (height y2) + 1)
              (updateStats xv (Tree.info? z2) (Tree.info? y2))
         (res,
          updateCtxStats
            (updateCtxStats ctx
              (rebuildOne
                ⟨false, zk, zv, zh,
                  updateStats zv (Tree.info? zl)
                    (Tree.info? (Tree.node xk xv xl y2 (Max.max (height xl) (height y2) + 1)
                      (updateStats xv (Tree.info? xl) (Tree.info? y2)))), zl⟩
                (Tree.node xk xv xl y2 (Max.max (height xl) (height y2) + 1)
                  (updateStats xv (Tree.info? xl) (Tree.info? y2)))))
            res,
          rotPath true (match p with
            | [] => ([] : List Bool)
            | d :: rest => if d == false then d :: rotPath false rest else d :: rest))) := by
  have h1 : tallestIsLeft zl (Tree.node yk yv (Tree.node xk xv xl xr xh xi) yr2 yh yi) true
      = false := by
    have e : height (Tree.node yk yv (Tree.node xk xv xl xr xh xi) yr2 yh yi) = yh := rfl
    simp only [tallestIsLeft, e, Bool.or_eq_false_iff, decide_eq_false_iff_not, not_lt,
      Bool.and_eq_false_iff, beq_eq_false_iff_ne, ne_eq]
    omega
  have h2 : tallestIsLeft (Tree.node xk xv xl xr xh xi) yr2 false = true := by
    have e : height (Tree.node xk xv xl xr xh xi) = xh := rfl
    simp only [tallestIsLeft, e, Bool.or_eq_true, decide_eq_true_eq, Bool.and_eq_true,
      beq_iff_eq]
    omega
  have e1 : (false == true) = false := rfl
  simp only [rebalance, h1, Bool.false_eq_true, if_false, Tree.left, Tree.right, h2, e1,
    Bool.not_false, Bool.not_true, singleRotation,
    updateCtxStats, rebuildOne, if_true]

theorem height_node (k v : Int) (l r : Tree) (h : Nat) (i : Stats) :
    height (.node k v l r h i) = h := rfl

theorem height_nil : height .nil = 0 := rfl

theorem rebalance_valid (zk zv : Int) (zl zr : Tree) (zh : Nat) (zi : Stats) (ctx : Ctx)
    (p : List Bool)
    (hl : htOK zl = true) (hr : htOK zr = true)
    (hbl : balOK zl = true) (hbr : balOK zr = true)
    (hd : height zl = height zr + 2 ∨ height zr = height zl + 2) :
    htOK (rebalance (.node zk zv zl zr zh zi) ctx p).1 = true
      ∧ balOK (rebalance (.node zk zv zl zr zh zi) ctx p).1 = true
      ∧ toL (rebalance (.node zk zv zl zr zh zi) ctx p).1 = toL (.node zk zv zl zr zh zi)
      ∧ (height (rebalance (.node zk zv zl zr zh zi) ctx p).1
            = Max.max (height zl) (height zr) + 1
         ∨ height (rebalance (.node zk zv zl zr zh zi) ctx p).1 + 1
            = Max.max (height zl) (height zr) + 1) := by
  rcases hd with hd | hd
  · -- left-heavy: y = zl
    cases zl with
    | nil => rw [height_nil] at hd; omega
    | node yk yv yl yr2 yh yi2 =>
      rw [height_node] at hd
      simp only [htOK, Bool.and_eq_true, beq_iff_eq] at hl
      obtain ⟨⟨hyh, hOKyl⟩, hOKyr2⟩ := hl
      simp only [balOK, Bool.and_eq_true, decide_eq_true_eq] at hbl
      obtain ⟨⟨hby, hbyl⟩, hbyr2⟩ := hbl
      by_cases hx : height yr2 ≤ height yl
      · rw [rebalance_red_LL zk zv yk yv yl yr2 zr yh zh yi2 zi ctx p hx hd]
        refine ⟨?_, ?_, ?_, ?_⟩
        · simp [htOK, height_node, hOKyl, hOKyr2, hr]
        · simp only [balOK, height_node, Bool.and_eq_true, decide_eq_true_eq,
            hbyl, hbyr2, hbr, and_true]
          omega
        · simp [toL]
        · simp only [height_node]
          omega
      · push_neg at hx
        cases yr2 with
        | nil => rw [height_nil] at hx; omega
        | node xk xv xl xr xh xi3 =>
          rw [height_node] at hx hby
          rw [height_node] at hyh
          simp only [htOK, Bool.and_eq_true, beq_iff_eq] at hOKyr2
          obtain ⟨⟨hxh, hOKxl⟩, hOKxr⟩ := hOKyr2
          simp only [balOK, Bool.and_eq_true, decide_eq_true_eq] at hbyr2
          obtain ⟨⟨hbx, hbxl⟩, hbxr⟩ := hbyr2
          rw [rebalance_red_LR zk zv yk yv xk xv yl xl xr zr yh xh zh yi2 xi3 zi ctx p hx hd]
          refine ⟨?_, ?_, ?_, ?_⟩
          · simp [htOK, height_node, hOKyl, hOKxl, hOKxr, hr]
          · simp only [balOK, height_node, Bool.and_eq_true, decide_eq_true_eq,
              hbyl, hbxl, hbxr, hbr, and_true]
            omega
          · simp [toL]
          · simp only [height_node]
            omega
  · -- right-heavy: y = zr
    cases zr with
    | nil => rw [height_nil] at hd; omega
    | node yk yv yl yr2 yh yi2 =>
      rw [height_node] at hd
      simp only [htOK, Bool.and_eq_true, beq_iff_eq] at hr
      obtain ⟨⟨hyh, hOKyl⟩, hOKyr2⟩ := hr
      simp only [balOK, Bool.and_eq_true, decide_eq_true_eq] at hbr
      obtain ⟨⟨hby, hbyl⟩, hbyr2⟩ := hbr
      by_cases hx : height yl ≤ height yr2
      · rw [rebalance_red_RR zk zv yk yv zl yl yr2 yh zh yi2 zi ctx p hx hd]
        refine ⟨?_, ?_, ?_, ?_⟩
        · simp [htOK, height_node, hOKyl, hOKyr2, hl]
        · simp only [balOK, height_node, Bool.and_eq_true, decide_eq_true_eq,
            hbyl, hbyr2, hbl, and_true]
          omega
        · simp [toL]
        · simp only [height_node]
          omega
      · push_neg at hx
        cases yl with
        | nil => rw [height_nil] at hx; omega
        | node xk xv xl xr xh xi3 =>
          rw [height_node] at hx hby
          rw [height_node] at hyh
          simp only [htOK, Bool.and_eq_true, beq_iff_eq] at hOKyl
          obtain ⟨⟨hxh, hOKxl⟩, hOKxr⟩ := hOKyl
          simp only [balOK, Bool.and_eq_true, decide_eq_true_eq] at hbyl
          obtain ⟨⟨hbx, hbxl⟩, hbxr⟩ := hbyl
          rw [rebalance_red_RL zk zv yk yv xk xv zl xl xr yr2 yh xh zh yi2 xi3 zi ctx p hx hd]
          refine ⟨?_, ?_, ?_, ?_⟩
          · simp [htOK, height_node, hOKxl, hOKxr, hOKyr2, hl]
          · simp only [balOK, height_node, Bool.and_eq_true, decide_eq_true_eq,
              hbxl, hbxr, hbyr2, hbl, and_true]
            omega
          · simp [toL]
          · simp only [height_node]
            omega

theorem ctxSame_refl (a : Ctx) : ctxSame a a :=
  ⟨rfl, rfl, rfl, fun _ => Iff.rfl, Iff.rfl⟩

theorem ctxSame_upd (ctx : Ctx) (t : Tree) : ctxSame (updateCtxStats ctx t) ctx :=
  ⟨lpart_updateCtxStats ctx t, rpart_updateCtxStats ctx t, dirs_updateCtxStats ctx t,
    fun h => hChain_updateCtxStats ctx t h, othersStats_updateCtxStats ctx t⟩

theorem ctxSame_trans {a b c : Ctx} (h1 : ctxSame a b) (h2 : ctxSame b c) : ctxSame a c :=
  ⟨h1.1.trans h2.1, h1.2.1.trans h2.2.1, h1.2.2.1.trans h2.2.2.1,
    fun h => (h1.2.2.2.1 h).trans (h2.2.2.2.1 h), h1.2.2.2.2.trans h2.2.2.2.2⟩

theorem singleRotation_ctxSame (rotLeft : Bool) (z : Tree) (ctx : Ctx) :
    ctxSame (singleRotation rotLeft z ctx).2 ctx := by
  cases z with
  | nil => exact ctxSame_refl ctx
  | node zk zv zl zr zh zi =>
    simp only [singleRotation]
    cases hy : (if rotLeft then zr else zl) with
    | nil => exact ctxSame_refl ctx
    | node yk yv yl yr yh yi => exact ctxSame_upd ctx _

theorem rebalance_ctxSame (z : Tree) (ctx : Ctx) (p : List Bool) :
    ctxSame (rebalance z ctx p).2.1 ctx := by
  cases z with
  | nil => exact ctxSame_refl ctx
  | node zk zv zl zr zh zi =>
    by_cases hy : tallestIsLeft zl zr true = true
    · -- y = zl
      cases zl with
      | nil =>
        -- NULL y: the rotation degenerates and leaves the context unchanged
        have e : tallestIsLeft (Tree.left Tree.nil) (Tree.right Tree.nil) true = true := rfl
        simp only [rebalance, hy, if_true, e, beq_self_eq_true, Bool.not_true,
          singleRotation, Bool.false_eq_true, if_false]
        exact ctxSame_refl ctx
      | node yk yv yl yr yh yi =>
        simp only [rebalance, hy, if_true, Tree.left, Tree.right]
        by_cases hx : tallestIsLeft yl yr true = true
        · simp only [hx, beq_self_eq_true, if_true, Bool.not_true]
          exact singleRotation_ctxSame false _ ctx
        · rw [Bool.not_eq_true] at hx
          have e1 : (true == false) = false := rfl
          simp only [hx, e1, Bool.false_eq_true, if_false, Bool.not_false,
            Bool.not_true]
          cases yr with
          | nil =>
            simp only [singleRotation, if_true, rebuildOne, Bool.false_eq_true, if_false]
            exact ctxSame_refl ctx
          | node xk xv xl xr xh xi =>
            simp only [singleRotation, if_true, updateCtxStats, rebuildOne,
              Bool.false_eq_true, if_false]
            exact ctxSame_trans (ctxSame_upd _ _) (ctxSame_upd ctx _)
    · rw [Bool.not_eq_true] at hy
      -- y = zr
      cases zr with
      | nil =>
        have e : tallestIsLeft (Tree.left Tree.nil) (Tree.right Tree.nil) false = false := rfl
        simp only [rebalance, hy, Bool.false_eq_true, if_false, e, beq_self_eq_true,
          Bool.not_false, singleRotation, if_true]
        exact ctxSame_refl ctx
      | node yk yv yl yr yh yi =>
        simp only [rebalance, hy, Bool.false_eq_true, if_false, Tree.left, Tree.right]
        by_cases hx : tallestIsLeft yl yr false = true
        · have e1 : (false == true) = false := rfl
          simp only [hx, e1, Bool.false_eq_true, if_false, Bool.not_false,
            Bool.not_true]
          cases yl with
          | nil =>
            simp only [singleRotation, Bool.false_eq_true, if_false, rebuildOne, if_true]
            exact ctxSame_refl ctx
          | node xk xv xl xr xh xi =>
            simp only [singleRotation, Bool.false_eq_true, if_false, updateCtxStats,
              rebuildOne, if_true]
            exact ctxSame_trans (ctxSame_upd _ _) (ctxSame_upd ctx _)
        · rw [Bool.not_eq_true] at hx
          simp only [hx, beq_self_eq_true, if_true, Bool.not_false]
          exact singleRotation_ctxSame true _ ctx

theorem statsExcept_nil_path (t : Tree) (p : List Bool) :
    statsOK t = true → statsExcept t p = true :=
  statsOK_imp_statsExcept t p

theorem statsExcept_cons_decomp (k v : Int) (l r : Tree) (h : Nat) (i : Stats)
    (d : Bool) (q : List Bool) :
    statsExcept (.node k v l r h i) (d :: q) = true ↔
      (if d then statsExcept l q = true ∧ statsOK r = true
       else statsOK l = true ∧ statsExcept r q = true) := by
  cases d <;> simp [statsExcept]

theorem statsExcept_root_decomp (k v : Int) (l r : Tree) (h : Nat) (i : Stats) :
    statsExcept (.node k v l r h i) [] = true ↔ (statsOK l = true ∧ statsOK r = true) := by
  simp [statsExcept]

theorem statsOK_node_decomp (k v : Int) (l r : Tree) (h : Nat) (i : Stats) :
    statsOK (.node k v l r h i) = true ↔
      (i = updateStats v (Tree.info? l) (Tree.info? r) ∧ statsOK l = true ∧ statsOK r = true) := by
  simp [statsOK, and_assoc]

theorem singleRotation_statsOK (rotLeft : Bool) (z : Tree) (ctx : Ctx) :
    statsOK z = true → statsOK (singleRotation rotLeft z ctx).1 = true := by
  cases z with
  | nil => intro _; rfl
  | node zk zv zl zr zh zi =>
    intro hs
    rw [statsOK_node_decomp] at hs
    obtain ⟨_, hl, hr⟩ := hs
    cases rotLeft with
    | true =>
      cases zr with
      | nil => rfl
      | node yk yv yl yr yh yi =>
        rw [statsOK_node_decomp] at hr
        obtain ⟨_, hyl, hyr⟩ := hr
        simp only [singleRotation, if_true]
        rw [statsOK_node_decomp]
        exact ⟨rfl, statsOK_node_updateStats zk zv zl yl _ hl hyl, hyr⟩
    | false =>
      cases zl with
      | nil => rfl
      | node yk yv yl yr yh yi =>
        rw [statsOK_node_decomp] at hl
        obtain ⟨_, hyl, hyr⟩ := hl
        simp only [singleRotation, Bool.false_eq_true, if_false]
        rw [statsOK_node_decomp]
        exact ⟨rfl, hyl, statsOK_node_updateStats zk zv yr zr _ hyr hr⟩

theorem singleRotation_statsExcept (rotLeft : Bool) (z : Tree) (ctx : Ctx) (p : List Bool) :
    statsExcept z p = true →
    statsExcept (singleRotation rotLeft z ctx).1 (rotPath rotLeft p) = true := by
  cases z with
  | nil => intro _; cases rotLeft <;> rfl
  | node zk zv zl zr zh zi =>
    intro hs
    cases rotLeft with
    | true =>
      cases zr with
      | nil => rfl
      | node yk yv yl yr yh yi =>
        simp only [singleRotation, if_true]
        match p with
        | [] =>
          rw [statsExcept_root_decomp] at hs
          obtain ⟨hl, hy⟩ := hs
          rw [statsOK_node_decomp] at hy
          obtain ⟨_, hyl, hyr⟩ := hy
          rw [rotPath, statsExcept_cons_decomp]
          simp only [if_true]
          exact ⟨statsExcept_root_decomp _ _ _ _ _ _ |>.2 ⟨hl, hyl⟩, hyr⟩
        | true :: rest =>
          rw [statsExcept_cons_decomp] at hs
          simp only [if_true] at hs
          obtain ⟨hl, hy⟩ := hs
          rw [statsOK_node_decomp] at hy
          obtain ⟨_, hyl, hyr⟩ := hy
          rw [rotPath, statsExcept_cons_decomp]
          simp only [if_true]
          refine ⟨?_, hyr⟩
          rw [statsExcept_cons_decomp]
          simp only [if_true]
          exact ⟨hl, hyl⟩
        | [false] =>
          rw [statsExcept_cons_decomp] at hs
          simp only [Bool.false_eq_true, if_false] at hs
          obtain ⟨hl, hy⟩ := hs
          rw [statsExcept_root_decomp] at hy
          obtain ⟨hyl, hyr⟩ := hy
          rw [rotPath, statsExcept_root_decomp]
          exact ⟨statsOK_node_updateStats zk zv zl yl _ hl hyl, hyr⟩
        | false :: true :: rest =>
          rw [statsExcept_cons_decomp] at hs
          simp only [Bool.false_eq_true, if_false] at hs
          obtain ⟨hl, hy⟩ := hs
          rw [statsExcept_cons_decomp] at hy
          simp only [if_true] at hy
          obtain ⟨hyl, hyr⟩ := hy
          rw [rotPath, statsExcept_cons_decomp]
          simp only [if_true]
          refine ⟨?_, hyr⟩
          rw [statsExcept_cons_decomp]
          simp only [Bool.false_eq_true, if_false]
          exact ⟨hl, hyl⟩
        | false :: false :: rest =>
          rw [statsExcept_cons_decomp] at hs
          simp only [Bool.false_eq_true, if_false] at hs
          obtain ⟨hl, hy⟩ := hs
          rw [statsExcept_cons_decomp] at hy
          simp only [Bool.false_eq_true, if_false] at hy
          obtain ⟨hyl, hyr⟩ := hy
          rw [rotPath, statsExcept_cons_decomp]
          simp only [Bool.false_eq_true, if_false]
          exact ⟨statsOK_node_updateStats zk zv zl yl _ hl hyl, hyr⟩
    | false =>
      cases zl with
      | nil => rfl
      | node yk yv yl yr yh yi =>
        simp only [singleRotation, Bool.false_eq_true, if_false]
        match p with
        | [] =>
          rw [statsExcept_root_decomp] at hs
          obtain ⟨hy, hr⟩ := hs
          rw [statsOK_node_decomp] at hy
          obtain ⟨_, hyl, hyr⟩ := hy
          rw [rotPath, statsExcept_cons_decomp]
          simp only [Bool.false_eq_true, if_false]
          exact ⟨hyl, statsExcept_root_decomp _ _ _ _ _ _ |>.2 ⟨hyr, hr⟩⟩
        | false :: rest =>
          rw [statsExcept_cons_decomp] at hs
          simp only [Bool.false_eq_true, if_false] at hs
          obtain ⟨hy, hr⟩ := hs
          rw [statsOK_node_decomp] at hy
          obtain ⟨_, hyl, hyr⟩ := hy
          rw [rotPath, statsExcept_cons_decomp]
          simp only [Bool.false_eq_true, if_false]
          refine ⟨hyl, ?_⟩
          rw [statsExcept_cons_decomp]
          simp only [Bool.false_eq_true, if_false]
          exact ⟨hyr, hr⟩
        | [true] =>
          rw [statsExcept_cons_decomp] at hs
          simp only [if_true] at hs
          obtain ⟨hy, hr⟩ := hs
          rw [statsExcept_root_decomp] at hy
          obtain ⟨hyl, hyr⟩ := hy
          rw [rotPath, statsExcept_root_decomp]
          exact ⟨hyl, statsOK_node_updateStats zk zv yr zr _ hyr hr⟩
        | true :: false :: rest =>
          rw [statsExcept_cons_decomp] at hs
          simp only [if_true] at hs
          obtain ⟨hy, hr⟩ := hs
          rw [statsExcept_cons_decomp] at hy
          simp only [Bool.false_eq_true, if_false] at hy
          obtain ⟨hyl, hyr⟩ := hy
          rw [rotPath, statsExcept_cons_decomp]
          simp only [Bool.false_eq_true, if_false]
          refine ⟨hyl, ?_⟩
          rw [statsExcept_cons_decomp]
          simp only [if_true]
          exact ⟨hyr, hr⟩
        | true :: true :: rest =>
          rw [statsExcept_cons_decomp] at hs
          simp only [if_true] at hs
          obtain ⟨hy, hr⟩ := hs
          rw [statsExcept_cons_decomp] at hy
          simp only [if_true] at hy
          obtain ⟨hyl, hyr⟩ := hy
          rw [rotPath, statsExcept_cons_decomp]
          simp only [if_true]
          exact ⟨hyl, statsOK_node_updateStats zk zv yr zr _ hyr hr⟩

theorem rebalance_statsExcept (z : Tree) (ctx : Ctx) (p : List Bool) :
    statsExcept z p = true →
    statsExcept (rebalance z ctx p).1 (rebalance z ctx p).2.2 = true := by
  cases z with
  | nil => intro _; rfl
  | node zk zv zl zr zh zi =>
    intro hs
    by_cases hy : tallestIsLeft zl zr true = true
    · cases zl with
      | nil =>
        have e : tallestIsLeft (Tree.left Tree.nil) (Tree.right Tree.nil) true = true := rfl
        simp only [rebalance, hy, if_true, e, beq_self_eq_true, Bool.not_true,
          singleRotation, Bool.false_eq_true, if_false]
        rfl
      | node yk yv yl yr yh yi =>
        simp only [rebalance, hy, if_true, Tree.left, Tree.right]
        by_cases hx : tallestIsLeft yl yr true = true
        · simp only [hx, beq_self_eq_true, if_true, Bool.not_true]
          exact singleRotation_statsExcept false _ ctx p hs
        · rw [Bool.not_eq_true] at hx
          have e1 : (true == false) = false := rfl
          simp only [hx, e1, Bool.false_eq_true, if_false, Bool.not_false, Bool.not_true]
          cases yr with
          | nil =>
            simp only [singleRotation, if_true, rebuildOne, Bool.false_eq_true, if_false]
            rfl
          | node xk xv xl xr xh xi =>
            simp only [singleRotation, if_true, updateCtxStats, rebuildOne,
              Bool.false_eq_true, if_false]
            -- hs decomposed below, per shape of the tracked path
            match p with
            | [] =>
              rw [statsExcept_root_decomp] at hs
              obtain ⟨hyT, hzr⟩ := hs
              rw [statsOK_node_decomp] at hyT
              obtain ⟨_, hyl, hxT⟩ := hyT
              rw [statsOK_node_decomp] at hxT
              obtain ⟨_, hxl, hxr⟩ := hxT
              rw [rotPath, statsExcept_cons_decomp]
              simp only [Bool.false_eq_true, if_false]
              exact ⟨statsOK_node_updateStats yk yv yl xl _ hyl hxl,
                statsExcept_root_decomp _ _ _ _ _ _ |>.2 ⟨hxr, hzr⟩⟩
            | true :: rest =>
              rw [statsExcept_cons_decomp] at hs
              simp only [if_true] at hs
              obtain ⟨hyE, hzr⟩ := hs
              simp only [beq_self_eq_true, if_true]
              -- the tracked node sits inside the promoted y/x pair
              match rest with
              | [] =>
                rw [statsExcept_root_decomp] at hyE
                obtain ⟨hyl, hxT⟩ := hyE
                rw [statsOK_node_decomp] at hxT
                obtain ⟨_, hxl, hxr⟩ := hxT
                rw [rotPath, rotPath, statsExcept_cons_decomp]
                simp only [if_true]
                refine ⟨?_, statsOK_node_updateStats zk zv xr zr _ hxr hzr⟩
                rw [statsExcept_root_decomp]
                exact ⟨hyl, hxl⟩
              | true :: r2 =>
                rw [statsExcept_cons_decomp] at hyE
                simp only [if_true] at hyE
                obtain ⟨hylE, hxT⟩ := hyE
                rw [statsOK_node_decomp] at hxT
                obtain ⟨_, hxl, hxr⟩ := hxT
                rw [rotPath, rotPath, statsExcept_cons_decomp]
                simp only [if_true]
                refine ⟨?_, statsOK_node_updateStats zk zv xr zr _ hxr hzr⟩
                rw [statsExcept_cons_decomp]
                simp only [if_true]
                exact ⟨hylE, hxl⟩
              | [false] =>
                rw [statsExcept_cons_decomp] at hyE
                simp only [Bool.false_eq_true, if_false] at hyE
                obtain ⟨hyl, hxE⟩ := hyE
                rw [statsExcept_root_decomp] at hxE
                obtain ⟨hxl, hxr⟩ := hxE
                rw [rotPath, rotPath, statsExcept_root_decomp]
                exact ⟨statsOK_node_updateStats yk yv yl xl _ hyl hxl,
                  statsOK_node_updateStats zk zv xr zr _ hxr hzr⟩
              | false :: true :: r2 =>
                rw [statsExcept_cons_decomp] at hyE
                simp only [Bool.false_eq_true, if_false] at hyE
                obtain ⟨hyl, hxE⟩ := hyE
                rw [statsExcept_cons_decomp] at hxE
                simp only [if_true] at hxE
                obtain ⟨hxlE, hxr⟩ := hxE
                rw [rotPath, rotPath, statsExcept_cons_decomp]
                simp only [if_true]
                refine ⟨?_, statsOK_node_updateStats zk zv xr zr _ hxr hzr⟩
                rw [statsExcept_cons_decomp]
                simp only [Bool.false_eq_true, if_false]
                exact ⟨hyl, hxlE⟩
              | false :: false :: r2 =>
                rw [statsExcept_cons_decomp] at hyE
                simp only [Bool.false_eq_true, if_false] at hyE
                obtain ⟨hyl, hxE⟩ := hyE
                rw [statsExcept_cons_decomp] at hxE
                simp only [Bool.false_eq_true, if_false] at hxE
                obtain ⟨hxl, hxrE⟩ := hxE
                rw [rotPath, rotPath, statsExcept_cons_decomp]
                simp only [Bool.false_eq_true, if_false]
                refine ⟨statsOK_node_updateStats yk yv yl xl _ hyl hxl, ?_⟩
                rw [statsExcept_cons_decomp]
                simp only [if_true]
                exact ⟨hxrE, hzr⟩
            | false :: rest =>
              rw [statsExcept_cons_decomp] at hs
              simp only [Bool.false_eq_true, if_false] at hs
              obtain ⟨hyT, hzrE⟩ := hs
              rw [statsOK_node_decomp] at hyT
              obtain ⟨_, hyl, hxT⟩ := hyT
              rw [statsOK_node_decomp] at hxT
              obtain ⟨_, hxl, hxr⟩ := hxT
              have e2 : (false == true) = false := rfl
              simp only [e2, Bool.false_eq_true, if_false]
              rw [rotPath, statsExcept_cons_decomp]
              simp only [Bool.false_eq_true, if_false]
              refine ⟨statsOK_node_updateStats yk yv yl xl _ hyl hxl, ?_⟩
              rw [statsExcept_cons_decomp]
              simp only [Bool.false_eq_true, if_false]
              exact ⟨hxl.symm ▸ hxr, hzrE⟩
    · rw [Bool.not_eq_true] at hy
      cases zr with
      | nil =>
        have e : tallestIsLeft (Tree.left Tree.nil) (Tree.right Tree.nil) false = false := rfl
        simp only [rebalance, hy, Bool.false_eq_true, if_false, e, beq_self_eq_true,
          Bool.not_false, singleRotation, if_true]
        rfl
      | node yk yv yl yr yh yi =>
        simp only [rebalance, hy, Bool.false_eq_true, if_false, Tree.left, Tree.right]
        by_cases hx : tallestIsLeft yl yr false = true
        · have e1 : (false == true) = false := rfl
          simp only [hx, e1, Bool.false_eq_true, if_false, Bool.not_false, Bool.not_true]
          cases yl with
          | nil =>
            simp only [singleRotation, Bool.false_eq_true, if_false, rebuildOne, if_true]
            rfl
          | node xk xv xl xr xh xi =>
            simp only [singleRotation, Bool.false_eq_true, if_false, updateCtxStats,
              rebuildOne, if_true]
            match p with
            | [] =>
              rw [statsExcept_root_decomp] at hs
              obtain ⟨hzl, hyT⟩ := hs
              rw [statsOK_node_decomp] at hyT
              obtain ⟨_, hxT, hyr⟩ := hyT
              rw [statsOK_node_decomp] at hxT
              obtain ⟨_, hxl, hxr⟩ := hxT
              rw [rotPath, statsExcept_cons_decomp]
              simp only [if_true]
              exact ⟨statsExcept_root_decomp _ _ _ _ _ _ |>.2 ⟨hzl, hxl⟩,
                statsOK_node_updateStats yk yv xr yr _ hxr hyr⟩
            | false :: rest =>
              rw [statsExcept_cons_decomp] at hs
              simp only [Bool.false_eq_true, if_false] at hs
              obtain ⟨hzl, hyE⟩ := hs
              simp only [beq_self_eq_true, if_true]
              match rest with
              | [] =>
                rw [statsExcept_root_decomp] at hyE
                obtain ⟨hxT, hyr⟩ := hyE
                rw [statsOK_node_decomp] at hxT
                obtain ⟨_, hxl, hxr⟩ := hxT
                rw [rotPath, rotPath, statsExcept_cons_decomp]
                simp only [Bool.false_eq_true, if_false]
                refine ⟨statsOK_node_updateStats zk zv zl xl _ hzl hxl, ?_⟩
                rw [statsExcept_root_decomp]
                exact ⟨hxr, hyr⟩
              | false :: r2 =>
                rw [statsExcept_cons_decomp] at hyE
                simp only [Bool.false_eq_true, if_false] at hyE
                obtain ⟨hxT, hyrE⟩ := hyE
                rw [statsOK_node_decomp] at hxT
                obtain ⟨_, hxl, hxr⟩ := hxT
                rw [rotPath, rotPath, statsExcept_cons_decomp]
                simp only [Bool.false_eq_true, if_false]
                refine ⟨statsOK_node_updateStats zk zv zl xl _ hzl hxl, ?_⟩
                rw [statsExcept_cons_decomp]
                simp only [Bool.false_eq_true, if_false]
                exact ⟨hxr, hyrE⟩
              | [true] =>
                rw [statsExcept_cons_decomp] at hyE
                simp only [if_true] at hyE
                obtain ⟨hxE, hyr⟩ := hyE
                rw [statsExcept_root_decomp] at hxE
                obtain ⟨hxl, hxr⟩ := hxE
                rw [rotPath, rotPath, statsExcept_root_decomp]
                exact ⟨statsOK_node_updateStats zk zv zl xl _ hzl hxl,
                  statsOK_node_updateStats yk yv xr yr _ hxr hyr⟩
              | true :: false :: r2 =>
                rw [statsExcept_cons_decomp] at hyE
                simp only [if_true] at hyE
                obtain ⟨hxE, hyr⟩ := hyE
                rw [statsExcept_cons_decomp] at hxE
                simp only [Bool.false_eq_true, if_false] at hxE
                obtain ⟨hxl, hxrE⟩ := hxE
                rw [rotPath, rotPath, statsExcept_cons_decomp]
                simp only [Bool.false_eq_true, if_false]
                refine ⟨statsOK_node_updateStats zk zv zl xl _ hzl hxl, ?_⟩
                rw [statsExcept_cons_decomp]
                simp only [if_true]
                exact ⟨hxrE, hyr⟩
              | true :: true :: r2 =>
                rw [statsExcept_cons_decomp] at hyE
                simp only [if_true] at hyE
                obtain ⟨hxE, hyr⟩ := hyE
                rw [statsExcept_cons_decomp] at hxE
                simp only [if_true] at hxE
                obtain ⟨hxlE, hxr⟩ := hxE
                rw [rotPath, rotPath, statsExcept_cons_decomp]
                simp only [if_true]
                refine ⟨?_, statsOK_node_updateStats yk yv xr yr _ hxr hyr⟩
                rw [statsExcept_cons_decomp]
                simp only [Bool.false_eq_true, if_false]
                exact ⟨hzl, hxlE⟩
            | true :: rest =>
              rw [statsExcept_cons_decomp] at hs
              simp only [if_true] at hs
              obtain ⟨hzlE, hyT⟩ := hs
              rw [statsOK_node_decomp] at hyT
              obtain ⟨_, hxT, hyr⟩ := hyT
              rw [statsOK_node_decomp] at hxT
              obtain ⟨_, hxl, hxr⟩ := hxT
              have e2 : (true == false) = false := rfl
              simp only [e2, Bool.false_eq_true, if_false]
              rw [rotPath, statsExcept_cons_decomp]
              simp only [if_true]
              refine ⟨?_, statsOK_node_updateStats yk yv xr yr _ hxr hyr⟩
              rw [statsExcept_cons_decomp]
              simp only [if_true]
              exact ⟨hzlE, hxl⟩
        · rw [Bool.not_eq_true] at hx
          simp only [hx, beq_self_eq_true, if_true, Bool.not_false]
          exact singleRotation_statsExcept true _ ctx p hs

theorem rebuild_valid (ctx : Ctx) (t : Tree) :
    hChain ctx (height t) → htOK t = true → balOK t = true →
    htOK (rebuild ctx t) = true ∧ balOK (rebuild ctx t) = true := by
  induction ctx generalizing t with
  | nil => intro _ h1 h2; exact ⟨h1, h2⟩
  | cons f rest ih =>
    intro hc h1 h2
    obtain ⟨he, hle1, hle2, ho1, ho2, hrest⟩ := hc
    have hh1 : htOK (rebuildOne f t) = true :=
      (htOK_rebuildOne_iff f t).2 ⟨he, h1, ho1⟩
    have hh2 : balOK (rebuildOne f t) = true :=
      (balOK_rebuildOne_iff f t).2 ⟨by omega, h2, ho2⟩
    have : hChain rest (height (rebuildOne f t)) := by
      rw [height_rebuildOne]; exact hrest
    exact ih (rebuildOne f t) this hh1 hh2

theorem step_facts (ctx : Ctx) (w : Tree) (p : List Bool) (hpre : WalkPre ctx w) :
    htOK (if balanced w = true then (resetHeight w, ctx, p) else rebalance w ctx p).1 = true
    ∧ balOK (if balanced w = true then (resetHeight w, ctx, p) else rebalance w ctx p).1 = true
    ∧ toL (if balanced w = true then (resetHeight w, ctx, p) else rebalance w ctx p).1 = toL w
    ∧ height (if balanced w = true then (resetHeight w, ctx, p) else rebalance w ctx p).1
        ≤ height w + 1
    ∧ height w
        ≤ height (if balanced w = true then (resetHeight w, ctx, p) else rebalance w ctx p).1 + 1
    ∧ ctxSame (if balanced w = true then (resetHeight w, ctx, p) else rebalance w ctx p).2.1 ctx := by
  obtain ⟨k, v, l, r, h, i, rfl, hl, hbl, hr, hbr, hch, hc1, hc2, hf1, hf2⟩ := hpre
  by_cases hb : balanced (Tree.node k v l r h i) = true
  · have hb' : ((height l : Int) - (height r : Int)).natAbs ≤ 1 := by
      simpa [balanced] using hb
    simp only [hb, if_true, resetHeight, height_node]
    refine ⟨by simp [htOK, height_node, hl, hr], ?_, by simp [toL], by omega, by omega,
      ctxSame_refl ctx⟩
    simp only [balOK, height_node, Bool.and_eq_true, decide_eq_true_eq, hbl, hbr, and_true]
    exact hb'
  · have hb' : ¬ ((height l : Int) - (height r : Int)).natAbs ≤ 1 := by
      simpa [balanced] using hb
    have hd : height l = height r + 2 ∨ height r = height l + 2 := by omega
    have hv := rebalance_valid k v l r h i ctx p hl hr hbl hbr hd
    simp only [hb, Bool.false_eq_true, if_false, height_node]
    have hzh : h ≤ Max.max (height l) (height r) + 1 := by
      rcases hc2 with hc2 | hc2
      · exact hc2
      · omega
    exact ⟨hv.1, hv.2.1, hv.2.2.1, by omega, by omega, rebalance_ctxSame _ ctx p⟩

theorem walk_valid (ctx : Ctx) (w : Tree) (p : List Bool) (hpre : WalkPre ctx w) :
    htOK (rebalanceAncestors ctx w p).1 = true
    ∧ balOK (rebalanceAncestors ctx w p).1 = true
    ∧ toL (rebalanceAncestors ctx w p).1 = toL (rebuild ctx w) := by
  induction ctx, w, p using rebalanceAncestors.induct with
  | case1 ctx w p old res hstop =>
    have hstop2 : (height (if balanced w = true then (resetHeight w, ctx, p)
        else rebalance w ctx p).1 == height w) = true := hstop
    rw [rebalanceAncestors]
    simp only [hstop2, if_true]
    obtain ⟨hsf1, hsf2, hsf3, hsf4, hsf5, hlp, hrp, hdr, hhc, hos⟩ := step_facts ctx w p hpre
    have hstop' : height (if balanced w = true then (resetHeight w, ctx, p)
        else rebalance w ctx p).1 = height w := by rwa [beq_iff_eq] at hstop2
    obtain ⟨k, v, l, r, h, i, hw, hl, hbl, hr, hbr, hch, hc1, hc2, hf1, hf2⟩ := hpre
    have hhw : height w = h := by rw [hw]; rfl
    have hchain : hChain (if balanced w = true then (resetHeight w, ctx, p)
        else rebalance w ctx p).2.1
        (height (if balanced w = true then (resetHeight w, ctx, p)
          else rebalance w ctx p).1) := by
      rw [hstop', hhw]
      exact (hhc h).2 hch
    have hrb := rebuild_valid _ _ hchain hsf1 hsf2
    refine ⟨hrb.1, hrb.2, ?_⟩
    rw [toL_rebuild, toL_rebuild, hsf3, hlp, hrp]
  | case2 ctx w p old res hstop hnil =>
    have hstop2 : (height (if balanced w = true then (resetHeight w, ctx, p)
        else rebalance w ctx p).1 == height w) = false := by
      have h0 : ¬ (height (if balanced w = true then (resetHeight w, ctx, p)
          else rebalance w ctx p).1 == height w) = true := hstop
      rwa [Bool.not_eq_true] at h0
    have hnil2 : (if balanced w = true then (resetHeight w, ctx, p)
        else rebalance w ctx p).2.1 = [] := hnil
    rw [rebalanceAncestors]
    simp only [hstop2, Bool.false_eq_true, if_false]
    obtain ⟨hsf1, hsf2, hsf3, hsf4, hsf5, hlp, hrp, hdr, hhc, hos⟩ := step_facts ctx w p hpre
    have hctxnil : ctx = [] := by
      have hlen : (if balanced w = true then (resetHeight w, ctx, p)
          else rebalance w ctx p).2.1.length = ctx.length := by
        by_cases hb : balanced w = true
        · simp [hb]
        · simp [hb, rebalance_ctx_length]
      rw [hnil2] at hlen
      cases ctx with
      | nil => rfl
      | cons a b => simp at hlen
    split
    · refine ⟨hsf1, hsf2, ?_⟩
      rw [hsf3, hctxnil]
      rfl
    · next f' rest' heq =>
      rw [hnil2] at heq
      cases heq
  | case3 ctx w p old res hstop f rest hcons ih =>
    have hstop2 : (height (if balanced w = true then (resetHeight w, ctx, p)
        else rebalance w ctx p).1 == height w) = false := by
      have h0 : ¬ (height (if balanced w = true then (resetHeight w, ctx, p)
          else rebalance w ctx p).1 == height w) = true := hstop
      rwa [Bool.not_eq_true] at h0
    have hcons2 : (if balanced w = true then (resetHeight w, ctx, p)
        else rebalance w ctx p).2.1 = f :: rest := hcons
    have ih2 : WalkPre rest (rebuildOne f (if balanced w = true then (resetHeight w, ctx, p)
          else rebalance w ctx p).1) →
        htOK (rebalanceAncestors rest (rebuildOne f (if balanced w = true
            then (resetHeight w, ctx, p) else rebalance w ctx p).1)
          (f.fromLeft :: (if balanced w = true then (resetHeight w, ctx, p)
            else rebalance w ctx p).2.2)).1 = true
        ∧ balOK (rebalanceAncestors rest (rebuildOne f (if balanced w = true
            then (resetHeight w, ctx, p) else rebalance w ctx p).1)
          (f.fromLeft :: (if balanced w = true then (resetHeight w, ctx, p)
            else rebalance w ctx p).2.2)).1 = true
        ∧ toL (rebalanceAncestors rest (rebuildOne f (if balanced w = true
            then (resetHeight w, ctx, p) else rebalance w ctx p).1)
          (f.fromLeft :: (if balanced w = true then (resetHeight w, ctx, p)
            else rebalance w ctx p).2.2)).1
          = toL (rebuild rest (rebuildOne f (if balanced w = true
              then (resetHeight w, ctx, p) else rebalance w ctx p).1)) := ih
    rw [rebalanceAncestors]
    simp only [hstop2, Bool.false_eq_true, if_false]
    obtain ⟨hsf1, hsf2, hsf3, hsf4, hsf5, hlp, hrp, hdr, hhc, hos⟩ := step_facts ctx w p hpre
    obtain ⟨k, v, l, r, h, i, hw, hl, hbl, hr, hbr, hch, hc1, hc2, hf1, hf2⟩ := hpre
    have hhw : height w = h := by rw [hw]; rfl
    have hchain2 : hChain (f :: rest) h := by
      rw [← hcons2]
      exact (hhc h).2 hch
    obtain ⟨hfht, hfl1, hfl2, hfo1, hfo2, hrest⟩ := hchain2
    have hne : ¬ height (if balanced w = true then (resetHeight w, ctx, p)
        else rebalance w ctx p).1 = height w := by
      intro hh
      rw [← beq_iff_eq] at hh
      rw [hstop2] at hh
      cases hh
    have hpre2 : WalkPre rest (rebuildOne f (if balanced w = true then (resetHeight w, ctx, p)
        else rebalance w ctx p).1) := by
      cases hfL : f.fromLeft with
      | true =>
        refine ⟨f.key, f.value, _, f.other, f.ht, f.info, by simp [rebuildOne, hfL], hsf1,
          hsf2, hfo1, hfo2, hrest, ?_, ?_, ?_, ?_⟩ <;>
        · rw [hhw] at hsf4 hsf5 hne
          omega
      | false =>
        refine ⟨f.key, f.value, f.other, _, f.ht, f.info, by simp [rebuildOne, hfL], hfo1,
          hfo2, hsf1, hsf2, hrest, ?_, ?_, ?_, ?_⟩ <;>
        · rw [hhw] at hsf4 hsf5 hne
          omega
    have hihr := ih2 hpre2
    split
    · next heq =>
      rw [hcons2] at heq
      cases heq
    · next f' rest' heq =>
      rw [hcons2] at heq
      injection heq with heq1 heq2
      subst heq1
      subst heq2
      refine ⟨hihr.1, hihr.2.1, ?_⟩
      rw [hihr.2.2]
      have hre : rebuild rest (rebuildOne f (if balanced w = true then (resetHeight w, ctx, p)
          else rebalance w ctx p).1)
          = rebuild ((if balanced w = true then (resetHeight w, ctx, p)
              else rebalance w ctx p).2.1)
            (if balanced w = true then (resetHeight w, ctx, p) else rebalance w ctx p).1 := by
        rw [hcons2]
        rfl
      rw [hre, toL_rebuild, toL_rebuild, hsf3, hlp, hrp]

theorem step_ctxSame (ctx : Ctx) (w : Tree) (p : List Bool) :
    ctxSame (if balanced w = true then (resetHeight w, ctx, p)
      else rebalance w ctx p).2.1 ctx := by
  by_cases hb : balanced w = true
  · simp only [hb, if_true]
    exact ctxSame_refl ctx
  · simp only [hb, Bool.false_eq_true, if_false]
    exact rebalance_ctxSame w ctx p

theorem step_stats (ctx : Ctx) (w : Tree) (p : List Bool) (h1 : statsExcept w p = true) :
    statsExcept (if balanced w = true then (resetHeight w, ctx, p)
        else rebalance w ctx p).1
      (if balanced w = true then (resetHeight w, ctx, p)
        else rebalance w ctx p).2.2 = true := by
  by_cases hb : balanced w = true
  · simp only [hb, if_true]
    rw [statsExcept_resetHeight]
    exact h1
  · simp only [hb, Bool.false_eq_true, if_false]
    exact rebalance_statsExcept w ctx p h1

theorem walk_stats (ctx : Ctx) (w : Tree) (p : List Bool)
    (h1 : statsExcept w p = true) (h2 : othersStats ctx) :
    statsExcept (rebalanceAncestors ctx w p).1 (rebalanceAncestors ctx w p).2 = true := by
  induction ctx, w, p using rebalanceAncestors.induct with
  | case1 ctx w p old res hstop =>
    have hstop2 : (height (if balanced w = true then (resetHeight w, ctx, p)
        else rebalance w ctx p).1 == height w) = true := hstop
    rw [rebalanceAncestors]
    simp only [hstop2, if_true]
    exact statsExcept_rebuild _ _ _ (step_stats ctx w p h1)
      ((step_ctxSame ctx w p).2.2.2.2.2 h2)
  | case2 ctx w p old res hstop hnil =>
    have hstop2 : (height (if balanced w = true then (resetHeight w, ctx, p)
        else rebalance w ctx p).1 == height w) = false := by
      have h0 : ¬ (height (if balanced w = true then (resetHeight w, ctx, p)
          else rebalance w ctx p).1 == height w) = true := hstop
      rwa [Bool.not_eq_true] at h0
    have hnil2 : (if balanced w = true then (resetHeight w, ctx, p)
        else rebalance w ctx p).2.1 = [] := hnil
    rw [rebalanceAncestors]
    simp only [hstop2, Bool.false_eq_true, if_false]
    split
    · exact step_stats ctx w p h1
    · next f' rest' heq =>
      rw [hnil2] at heq
      cases heq
  | case3 ctx w p old res hstop f rest hcons ih =>
    have hstop2 : (height (if balanced w = true then (resetHeight w, ctx, p)
        else rebalance w ctx p).1 == height w) = false := by
      have h0 : ¬ (height (if balanced w = true then (resetHeight w, ctx, p)
          else rebalance w ctx p).1 == height w) = true := hstop
      rwa [Bool.not_eq_true] at h0
    have hcons2 : (if balanced w = true then (resetHeight w, ctx, p)
        else rebalance w ctx p).2.1 = f :: rest := hcons
    have ih2 : statsExcept (rebuildOne f (if balanced w = true then (resetHeight w, ctx, p)
            else rebalance w ctx p).1)
          (f.fromLeft :: (if balanced w = true then (resetHeight w, ctx, p)
            else rebalance w ctx p).2.2) = true →
        othersStats rest →
        statsExcept (rebalanceAncestors rest (rebuildOne f (if balanced w = true
            then (resetHeight w, ctx, p) else rebalance w ctx p).1)
          (f.fromLeft :: (if balanced w = true then (resetHeight w, ctx, p)
            else rebalance w ctx p).2.2)).1
          (rebalanceAncestors rest (rebuildOne f (if balanced w = true
            then (resetHeight w, ctx, p) else rebalance w ctx p).1)
          (f.fromLeft :: (if balanced w = true then (resetHeight w, ctx, p)
            else rebalance w ctx p).2.2)).2 = true := ih
    rw [rebalanceAncestors]
    simp only [hstop2, Bool.false_eq_true, if_false]
    have hos2 : othersStats (f :: rest) := by
      rw [← hcons2]
      exact (step_ctxSame ctx w p).2.2.2.2.2 h2
    split
    · next heq =>
      rw [hcons2] at heq
      cases heq
    · next f' rest' heq =>
      rw [hcons2] at heq
      injection heq with heq1 heq2
      subst heq1
      subst heq2
      exact ih2 (statsExcept_rebuildOne f _ _ (step_stats ctx w p h1) hos2.1) hos2.2

theorem lpart_append (a b : Ctx) : lpart (a ++ b) = lpart b ++ lpart a := by
  induction a with
  | nil => simp [lpart]
  | cons f rest ih => simp [lpart, ih]

theorem rpart_append (a b : Ctx) : rpart (a ++ b) = rpart a ++ rpart b := by
  induction a with
  | nil => simp [rpart]
  | cons f rest ih => simp [rpart, ih]

theorem ordered_node_decomp (k v : Int) (l r : Tree) (h : Nat) (i : Stats) :
    ordered (.node k v l r h i) = true ↔
      (allKeys (fun x => decide (x < k)) l = true ∧ allKeys (fun x => decide (k < x)) r = true
        ∧ ordered l = true ∧ ordered r = true) := by
  simp [ordered, and_assoc]

/-- Unfolding lemma for `findNode` at a node. -/
theorem findNode_node (k k0 v0 : Int) (l0 r0 : Tree) (h0 : Nat) (i0 : Stats) (ctx : Ctx) :
    findNode k ctx (.node k0 v0 l0 r0 h0 i0) =
      if k0 == k then some (ctx, .node k0 v0 l0 r0 h0 i0)
      else if k0 > k then
        match l0 with
        | .nil => some (ctx, .node k0 v0 l0 r0 h0 i0)
        | .node lk lv ll lr lh li =>
          findNode k (⟨true, k0, v0, h0, i0, r0⟩ :: ctx) (.node lk lv ll lr lh li)
      else
        match r0 with
        | .nil => some (ctx, .node k0 v0 l0 r0 h0 i0)
        | .node rk rv rl rr rh ri =>
          findNode k (⟨false, k0, v0, h0, i0, l0⟩ :: ctx) (.node rk rv rl rr rh ri) := by
  rw [findNode.eq_def]
theorem findNode_spec (k : Int) (t : Tree) (ctx ctx' : Ctx) (w : Tree)
    (hfind : findNode k ctx t = some (ctx', w)) (hord : ordered t = true) :
    rebuild ctx' w = rebuild ctx t
    ∧ (∃ k0 v0 l0 r0 h0 i0, w = Tree.node k0 v0 l0 r0 h0 i0
        ∧ (¬ k0 = k → (k0 > k → l0 = Tree.nil) ∧ (k0 < k → r0 = Tree.nil)))
    ∧ (∃ pre, ctx' = pre ++ ctx
        ∧ (∀ e ∈ lpart pre, e.1 < k) ∧ (∀ e ∈ rpart pre, k < e.1)) := by
  induction t generalizing ctx with
  | nil => cases hfind
  | node k0 v0 l0 r0 h0 i0 ihl ihr =>
    rw [ordered_node_decomp] at hord
    obtain ⟨hbl, hbr, hol, hor⟩ := hord
    rw [findNode_node] at hfind
    by_cases hk : (k0 == k) = true
    · rw [if_pos hk] at hfind
      injection hfind with hfind
      injection hfind with h1 h2
      subst h1
      subst h2
      refine ⟨rfl, ⟨k0, v0, l0, r0, h0, i0, rfl, ?_⟩, [], by simp, by simp [lpart], by simp [rpart]⟩
      intro hne
      exact absurd (by simpa using hk) hne
    · rw [if_neg hk] at hfind
      have hk' : ¬ k0 = k := by simpa using hk
      by_cases hgt : k0 > k
      · rw [if_pos (by simpa using hgt)] at hfind
        cases l0 with
        | nil =>
          injection hfind with hfind
          injection hfind with h1 h2
          subst h1
          subst h2
          refine ⟨rfl, ⟨k0, v0, Tree.nil, r0, h0, i0, rfl, fun _ => ⟨fun _ => rfl, ?_⟩⟩,
            [], by simp, by simp [lpart], by simp [rpart]⟩
          intro hlt
          omega
        | node lk lv ll lr lh li =>
          obtain ⟨hre, hnode, pre', hpre', hlb, hrb⟩ :=
            ihl (⟨true, k0, v0, h0, i0, r0⟩ :: ctx) hfind hol
          refine ⟨?_, hnode, pre' ++ [⟨true, k0, v0, h0, i0, r0⟩], by rw [hpre']; simp, ?_, ?_⟩
          · rw [hre]
            rfl
          · intro e he
            rw [lpart_append] at he
            simp only [lpart, fContribL, if_true, List.append_nil, List.mem_append] at he
            rcases he with he | he
            · cases he
            · exact hlb e he
          · intro e he
            rw [rpart_append] at he
            simp only [rpart, fContribR, if_true, List.append_nil, List.mem_append] at he
            rcases he with he | he
            · exact hrb e he
            · rcases List.mem_cons.1 he with rfl | he
              · exact hgt
              · have : k0 < e.1 := by
                  have hmem : e.1 ∈ keys r0 := by
                    simp only [keys]
                    exact List.mem_map_of_mem Prod.fst he
                  have := (allKeys_iff _ r0).1 hbr e.1 hmem
                  simpa using this
                omega
      · rw [if_neg (by simpa using hgt)] at hfind
        have hlt : k0 < k := by omega
        cases r0 with
        | nil =>
          injection hfind with hfind
          injection hfind with h1 h2
          subst h1
          subst h2
          refine ⟨rfl, ⟨k0, v0, l0, Tree.nil, h0, i0, rfl, fun _ => ⟨?_, fun _ => rfl⟩⟩,
            [], by simp, by simp [lpart], by simp [rpart]⟩
          intro hgt'
          omega
        | node rk rv rl rr rh ri =>
          obtain ⟨hre, hnode, pre', hpre', hlb, hrb⟩ :=
            ihr (⟨false, k0, v0, h0, i0, l0⟩ :: ctx) hfind hor
          refine ⟨?_, hnode, pre' ++ [⟨false, k0, v0, h0, i0, l0⟩], by rw [hpre']; simp, ?_, ?_⟩
          · rw [hre]
            rfl
          · intro e he
            rw [lpart_append] at he
            simp only [lpart, fContribL, Bool.false_eq_true, if_false, List.nil_append,
              List.mem_append] at he
            rcases he with he | he
            · rcases he with he | he
              · have : e.1 < k0 := by
                  have hmem : e.1 ∈ keys l0 := by
                    simp only [keys]
                    exact List.mem_map_of_mem Prod.fst he
                  have := (allKeys_iff _ l0).1 hbl e.1 hmem
                  simpa using this
                omega
              · rcases List.mem_singleton.1 he with rfl
                exact hlt
            · exact hlb e he
          · intro e he
            rw [rpart_append] at he
            simp only [rpart, fContribR, Bool.false_eq_true, if_false, List.append_nil,
              List.mem_append] at he
            exact hrb e he

theorem findNode_some (k : Int) (t : Tree) (ctx : Ctx) (hne : t ≠ Tree.nil) :
    ∃ res, findNode k ctx t = some res := by
  induction t generalizing ctx with
  | nil => exact absurd rfl hne
  | node k0 v0 l0 r0 h0 i0 ihl ihr =>
    rw [findNode_node]
    by_cases hk : (k0 == k) = true
    · rw [if_pos hk]
      exact ⟨_, rfl⟩
    · rw [if_neg hk]
      by_cases hgt : k0 > k
      · rw [if_pos hgt]
        cases l0 with
        | nil => exact ⟨_, rfl⟩
        | node lk lv ll lr lh li => exact ihl _ (by simp)
      · rw [if_neg hgt]
        cases r0 with
        | nil => exact ⟨_, rfl⟩
        | node rk rv rl rr rh ri => exact ihr _ (by simp)

theorem resetHeight_eq_of_htOK (t : Tree) (h : htOK t = true) : resetHeight t = t := by
  cases t with
  | nil => rfl
  | node k v l r ht i =>
    simp only [htOK, Bool.and_eq_true, beq_iff_eq] at h
    simp [resetHeight, h.1.1]

theorem balanced_of_balOK (t : Tree) (h : balOK t = true) : balanced t = true := by
  cases t with
  | nil => rfl
  | node k v l r ht i =>
    simp only [balOK, Bool.and_eq_true, decide_eq_true_eq] at h
    simp [balanced, h.1.1]

theorem walk_noop (ctx : Ctx) (w : Tree) (p : List Bool)
    (hres : resetHeight w = w) (hbal : balanced w = true) :
    rebalanceAncestors ctx w p = (rebuild ctx w, dirs ctx ++ p) := by
  rw [rebalanceAncestors]
  simp only [hbal, if_true, hres, beq_self_eq_true, if_true]

theorem pairwise_insert_mid (A B : List Int) (k : Int)
    (hp : (A ++ B).Pairwise (· < ·))
    (hA : ∀ x ∈ A, x < k) (hB : ∀ x ∈ B, k < x) :
    (A ++ k :: B).Pairwise (· < ·) := by
  rw [List.pairwise_append] at hp ⊢
  obtain ⟨hpA, hpB, hcross⟩ := hp
  refine ⟨hpA, ?_, ?_⟩
  · rw [List.pairwise_cons]
    exact ⟨hB, hpB⟩
  · intro a ha b hb
    rcases List.mem_cons.1 hb with rfl | hb
    · exact hA a ha
    · exact hcross a ha b hb

theorem pairwise_remove_mid (A B : List Int) (k : Int)
    (hp : (A ++ k :: B).Pairwise (· < ·)) : (A ++ B).Pairwise (· < ·) := by
  have hsub : (A ++ B).Sublist (A ++ k :: B) :=
    (List.sublist_cons_self k B).append_left A
  exact hp.sublist hsub

theorem htOK_rebuild_congr (ctx : Ctx) (t1 t2 : Tree)
    (hh : height t1 = height t2) (he : htOK t1 = htOK t2) :
    htOK (rebuild ctx t1) = htOK (rebuild ctx t2) := by
  induction ctx generalizing t1 t2 with
  | nil => exact he
  | cons f rest ih =>
    refine ih (rebuildOne f t1) (rebuildOne f t2) (by rw [height_rebuildOne, height_rebuildOne]) ?_
    cases hb : f.fromLeft <;>
      simp [rebuildOne, hb, htOK, hh, he]

theorem balOK_rebuild_congr (ctx : Ctx) (t1 t2 : Tree)
    (hh : height t1 = height t2) (he : balOK t1 = balOK t2) :
    balOK (rebuild ctx t1) = balOK (rebuild ctx t2) := by
  induction ctx generalizing t1 t2 with
  | nil => exact he
  | cons f rest ih =>
    refine ih (rebuildOne f t1) (rebuildOne f t2) (by rw [height_rebuildOne, height_rebuildOne]) ?_
    cases hb : f.fromLeft <;>
      simp [rebuildOne, hb, balOK, hh, he]

theorem othersStats_append (a b : Ctx) :
    othersStats (a ++ b) ↔ othersStats a ∧ othersStats b := by
  induction a with
  | nil => simp [othersStats]
  | cons f rest ih => simp [othersStats, ih, and_assoc]

theorem htOK_value_irrel (k v v' : Int) (l r : Tree) (h : Nat) (i i' : Stats) :
    htOK (.node k v l r h i) = htOK (.node k v' l r h i') := by
  simp [htOK]

theorem balOK_value_irrel (k v v' : Int) (l r : Tree) (h : Nat) (i i' : Stats) :
    balOK (.node k v l r h i) = balOK (.node k v' l r h i') := by
  simp [balOK]

theorem put_found (s : MapState) (k v : Int) (ctx' : Ctx) (k0 v0 : Int) (l r : Tree)
    (h0 : Nat) (i0 : Stats)
    (hfind : findNode k [] s.root = some (ctx', .node k0 v0 l r h0 i0))
    (hk : (k0 == k) = true)
    (hre : rebuild ctx' (.node k0 v0 l r h0 i0) = s.root)
    (hht : htOK s.root = true) (hbal : balOK s.root = true) :
    put s k v = ⟨updateTreeAt (rebuild ctx' (.node k0 v l r h0 i0)) (dirs ctx'), s.n⟩ := by
  have hput : putNodeBST s k v = ((ctx', .node k0 v l r h0 i0), s.n) := by
    simp [putNodeBST, hfind, hk]
  cases ctx' with
  | nil => simp [put, hput, rebuild, dirs]
  | cons f rest =>
    have hre2 : rebuild rest (rebuildOne f (.node k0 v0 l r h0 i0)) = s.root := hre
    have hh1 : htOK (rebuildOne f (.node k0 v0 l r h0 i0)) = true := by
      apply htOK_rebuild_focus rest
      rw [hre2]
      exact hht
    have hb1 : balOK (rebuildOne f (.node k0 v0 l r h0 i0)) = true := by
      apply balOK_rebuild_focus rest
      rw [hre2]
      exact hbal
    have hh2 : htOK (rebuildOne f (.node k0 v l r h0 i0)) = true := by
      rw [htOK_rebuildOne_iff] at hh1 ⊢
      refine ⟨?_, ?_, hh1.2.2⟩
      · have e : height (Tree.node k0 v l r h0 i0) = height (Tree.node k0 v0 l r h0 i0) := rfl
        rw [e]
        exact hh1.1
      · rw [htOK_value_irrel k0 v v0 l r h0 i0 i0]
        exact hh1.2.1
    have hb2 : balOK (rebuildOne f (.node k0 v l r h0 i0)) = true := by
      rw [balOK_rebuildOne_iff] at hb1 ⊢
      refine ⟨?_, ?_, hb1.2.2⟩
      · have e : height (Tree.node k0 v l r h0 i0) = height (Tree.node k0 v0 l r h0 i0) := rfl
        rw [e]
        exact hb1.1
      · rw [balOK_value_irrel k0 v v0 l r h0 i0 i0]
        exact hb1.2.1
    have hwn := walk_noop rest (rebuildOne f (.node k0 v l r h0 i0)) [f.fromLeft]
      (resetHeight_eq_of_htOK _ hh2) (balanced_of_balOK _ hb2)
    simp only [put, hput, hwn]
    rw [dirs_cons]
    rfl

theorem put_notfound (s : MapState) (k v : Int) (ctx' : Ctx) (k0 v0 : Int) (l r : Tree)
    (h0 : Nat) (i0 : Stats)
    (hfind : findNode k [] s.root = some (ctx', .node k0 v0 l r h0 i0))
    (hk : (k0 == k) = false) :
    put s k v =
      ⟨updateTreeAt
        (rebalanceAncestors ctx'
          (rebuildOne ⟨decide (k0 > k), k0, v0, h0, i0, if k0 > k then r else l⟩ (newLeaf k v))
          [decide (k0 > k)]).1
        (rebalanceAncestors ctx'
          (rebuildOne ⟨decide (k0 > k), k0, v0, h0, i0, if k0 > k then r else l⟩ (newLeaf k v))
          [decide (k0 > k)]).2,
       s.n + 1⟩ := by
  have hput : putNodeBST s k v =
      ((⟨decide (k0 > k), k0, v0, h0, i0, if k0 > k then r else l⟩ :: ctx', newLeaf k v),
        s.n + 1) := by
    simp [putNodeBST, hfind, hk]
  simp [put, hput]

theorem put_inv (s : MapState) (k v : Int) (hinv : Inv s) : Inv (put s k v) := by
  obtain ⟨hord, hht, hbal, hst, hn⟩ := hinv
  by_cases hroot : s.root = Tree.nil
  · have hput : put s k v = ⟨updateInfo (newLeaf k v), s.n + 1⟩ := by
      simp [put, putNodeBST, hroot, findNode, updateTreeAt]
    rw [hput]
    refine ⟨?_, ?_, ?_, ?_, ?_⟩
    · simp [updateInfo, newLeaf, ordered, allKeys]
    · simp [updateInfo, newLeaf, htOK, height]
    · simp [updateInfo, newLeaf, balOK, height]
    · simp [updateInfo, newLeaf, statsOK, updateStats, Tree.info?]
    · show s.n + 1 = _
      rw [hn, hroot]
      simp [updateInfo, newLeaf, count]
  · obtain ⟨⟨ctx', w⟩, hfind⟩ := findNode_some k s.root [] hroot
    obtain ⟨hre0, ⟨k0, v0, l, r, h0, i0, rfl, hchild⟩, pre, hpre, hlb, hrb⟩ :=
      findNode_spec k s.root [] ctx' _ hfind hord
    rw [List.append_nil] at hpre
    subst hpre
    have hre : rebuild ctx' (.node k0 v0 l r h0 i0) = s.root := hre0
    have hhtw : htOK (.node k0 v0 l r h0 i0) = true :=
      htOK_rebuild_focus ctx' _ (by rw [hre]; exact hht)
    have hbalw : balOK (.node k0 v0 l r h0 i0) = true :=
      balOK_rebuild_focus ctx' _ (by rw [hre]; exact hbal)
    have hstw : statsOK (.node k0 v0 l r h0 i0) = true :=
      statsOK_rebuild_focus ctx' _ (by rw [hre]; exact hst)
    have hordw : ordered (.node k0 v0 l r h0 i0) = true :=
      ordered_rebuild_focus ctx' _ (by rw [hre]; exact hord)
    have hchain : hChain ctx' h0 := by
      have := hChain_of_rebuild ctx' _ (by rw [hre]; exact hht) (by rw [hre]; exact hbal)
      simpa [height_node] using this
    have hothers : othersStats ctx' := othersStats_of_rebuild ctx' _ (by rw [hre]; exact hst)
    obtain ⟨_, hsl, hsr⟩ :=
      (statsOK_node_decomp k0 v0 l r h0 i0).1 hstw
    by_cases hk : (k0 == k) = true
    · rw [put_found s k v ctx' k0 v0 l r h0 i0 hfind hk hre hht hbal]
      have hkeq : keys (updateTreeAt (rebuild ctx' (.node k0 v l r h0 i0)) (dirs ctx'))
          = keys s.root := by
        simp only [keys, toL_updateTreeAt]
        rw [← hre, toL_rebuild, toL_rebuild]
        simp [toL]
      have hceq : count (updateTreeAt (rebuild ctx' (.node k0 v l r h0 i0)) (dirs ctx'))
          = count s.root := by
        rw [count_eq_length_toL, count_eq_length_toL, toL_updateTreeAt]
        rw [← hre, toL_rebuild, toL_rebuild]
        simp [toL]
      refine ⟨?_, ?_, ?_, ?_, ?_⟩
      · show ordered (updateTreeAt _ _) = true
        rw [ordered_iff_pairwise, hkeq, ← ordered_iff_pairwise]
        exact hord
      · show htOK (updateTreeAt _ _) = true
        rw [htOK_updateTreeAt]
        rw [htOK_rebuild_congr ctx' (.node k0 v l r h0 i0) (.node k0 v0 l r h0 i0) rfl
          (htOK_value_irrel k0 v v0 l r h0 i0 i0), hre]
        exact hht
      · show balOK (updateTreeAt _ _) = true
        rw [balOK_updateTreeAt]
        rw [balOK_rebuild_congr ctx' (.node k0 v l r h0 i0) (.node k0 v0 l r h0 i0) rfl
          (balOK_value_irrel k0 v v0 l r h0 i0 i0), hre]
        exact hbal
      · show statsOK (updateTreeAt _ _) = true
        apply updateTreeAt_statsOK
        have hse : statsExcept (.node k0 v l r h0 i0) [] = true :=
          (statsExcept_root_decomp k0 v l r h0 i0).2 ⟨hsl, hsr⟩
        have hsx := statsExcept_rebuild ctx' _ [] hse hothers
        rwa [List.append_nil] at hsx
      · show s.n = _
        rw [hceq]
        exact hn
    · have hk' : (k0 == k) = false := by
        rwa [Bool.not_eq_true] at hk
      have hkne : ¬ k0 = k := by simpa using hk'
      obtain ⟨hgtl, hltr⟩ := hchild hkne
      obtain ⟨hbl, hbr, hol, hor⟩ := (ordered_node_decomp k0 v0 l r h0 i0).1 hordw
      rw [put_notfound s k v ctx' k0 v0 l r h0 i0 hfind hk']
      by_cases hgt : k0 > k
      · have hl0 : l = Tree.nil := hgtl hgt
        subst hl0
        have hdg : decide (k0 > k) = true := decide_eq_true hgt
        rw [hdg, if_pos hgt]
        have hw' : rebuildOne ⟨true, k0, v0, h0, i0, r⟩ (newLeaf k v)
            = Tree.node k0 v0 (newLeaf k v) r h0 i0 := rfl
        rw [hw']
        have hh0 : h0 = Max.max 0 (height r) + 1 ∧ htOK r = true := by
          have h1 := hhtw
          simp only [htOK, Bool.and_eq_true, beq_iff_eq, height_nil] at h1
          exact ⟨h1.1.1, h1.2⟩
        have hb0 : ((0 : Int) - (height r : Int)).natAbs ≤ 1 ∧ balOK r = true := by
          have h1 := hbalw
          simp only [balOK, Bool.and_eq_true, decide_eq_true_eq, height_nil,
            Nat.cast_zero] at h1
          exact ⟨h1.1.1, h1.2⟩
        obtain ⟨hh01, hhtr⟩ := hh0
        obtain ⟨hb01, hbarr⟩ := hb0
        have hpre' : WalkPre ctx' (Tree.node k0 v0 (newLeaf k v) r h0 i0) := by
          refine ⟨k0, v0, newLeaf k v, r, h0, i0, rfl, ?_, ?_, hhtr, hbarr, hchain,
            ?_, ?_, ?_, ?_⟩
          · simp [newLeaf, htOK, height]
          · simp [newLeaf, balOK, height]
          · have e : height (newLeaf k v) = 1 := rfl
            rw [e]
            omega
          · have e : height (newLeaf k v) = 1 := rfl
            rw [e]
            left
            omega
          · have e : height (newLeaf k v) = 1 := rfl
            rw [e]
            omega
          · have e : height (newLeaf k v) = 1 := rfl
            rw [e]
            omega
        have hwv := walk_valid ctx' (Tree.node k0 v0 (newLeaf k v) r h0 i0) [true] hpre'
        have hse : statsExcept (Tree.node k0 v0 (newLeaf k v) r h0 i0) [true] = true := by
          simp [statsExcept, newLeaf, statsOK, hsr]
        have hws := walk_stats ctx' (Tree.node k0 v0 (newLeaf k v) r h0 i0) [true] hse hothers
        have htoLW : toL (rebalanceAncestors ctx'
              (Tree.node k0 v0 (newLeaf k v) r h0 i0) [true]).1
            = lpart ctx' ++ (k, v) :: (k0, v0) :: (toL r ++ rpart ctx') := by
          rw [hwv.2.2, toL_rebuild]
          simp [toL, newLeaf]
        have htoLs : toL s.root = lpart ctx' ++ (k0, v0) :: (toL r ++ rpart ctx') := by
          rw [← hre, toL_rebuild]
          simp [toL]
        refine ⟨?_, ?_, ?_, ?_, ?_⟩
        · show ordered (updateTreeAt _ _) = true
          rw [ordered_updateTreeAt, ordered_iff_pairwise]
          have hkeysW : keys (rebalanceAncestors ctx'
                (Tree.node k0 v0 (newLeaf k v) r h0 i0) [true]).1
              = (lpart ctx').map Prod.fst
                  ++ k :: (k0 :: ((toL r).map Prod.fst ++ (rpart ctx').map Prod.fst)) := by
            simp [keys, htoLW]
          rw [hkeysW]
          apply pairwise_insert_mid
          · have hord' := (ordered_iff_pairwise s.root).1 hord
            have hkeyss : keys s.root
                = (lpart ctx').map Prod.fst
                    ++ (k0 :: ((toL r).map Prod.fst ++ (rpart ctx').map Prod.fst)) := by
              simp [keys, htoLs]
            rwa [hkeyss] at hord'
          · intro x hx
            obtain ⟨e, he, rfl⟩ := List.mem_map.1 hx
            exact hlb e he
          · intro x hx
            rcases List.mem_cons.1 hx with rfl | hx
            · exact hgt
            · rcases List.mem_append.1 hx with hx | hx
              · obtain ⟨e, he, rfl⟩ := List.mem_map.1 hx
                have hmem : e.1 ∈ keys r := List.mem_map_of_mem Prod.fst he
                have h2 := (allKeys_iff _ r).1 hbr e.1 hmem
                simp only [decide_eq_true_eq] at h2
                omega
              · obtain ⟨e, he, rfl⟩ := List.mem_map.1 hx
                exact hrb e he
        · show htOK (updateTreeAt _ _) = true
          rw [htOK_updateTreeAt]
          exact hwv.1
        · show balOK (updateTreeAt _ _) = true
          rw [balOK_updateTreeAt]
          exact hwv.2.1
        · show statsOK (updateTreeAt _ _) = true
          exact updateTreeAt_statsOK _ _ hws
        · show s.n + 1 = _
          have hc : count (updateTreeAt (rebalanceAncestors ctx'
                (Tree.node k0 v0 (newLeaf k v) r h0 i0) [true]).1
                (rebalanceAncestors ctx'
                (Tree.node k0 v0 (newLeaf k v) r h0 i0) [true]).2)
              = count s.root + 1 := by
            rw [count_eq_length_toL, toL_updateTreeAt, htoLW,
              count_eq_length_toL, htoLs]
            simp
            omega
          rw [hc]
          push_cast
          omega
      · have hlt : k0 < k := by omega
        have hr0 : r = Tree.nil := hltr hlt
        subst hr0
        have hdg : decide (k0 > k) = false := decide_eq_false hgt
        rw [hdg, if_neg hgt]
        have hw' : rebuildOne ⟨false, k0, v0, h0, i0, l⟩ (newLeaf k v)
            = Tree.node k0 v0 l (newLeaf k v) h0 i0 := rfl
        rw [hw']
        have hh0 : h0 = Max.max (height l) 0 + 1 ∧ htOK l = true := by
          have h1 := hhtw
          simp only [htOK, Bool.and_eq_true, beq_iff_eq, height_nil] at h1
          exact ⟨h1.1.1, h1.1.2⟩
        have hb0 : ((height l : Int) - (0 : Int)).natAbs ≤ 1 ∧ balOK l = true := by
          have h1 := hbalw
          simp only [balOK, Bool.and_eq_true, decide_eq_true_eq, height_nil,
            Nat.cast_zero] at h1
          exact ⟨h1.1.1, h1.1.2⟩
        obtain ⟨hh01, hhtl⟩ := hh0
        obtain ⟨hb01, hball⟩ := hb0
        have hpre' : WalkPre ctx' (Tree.node k0 v0 l (newLeaf k v) h0 i0) := by
          refine ⟨k0, v0, l, newLeaf k v, h0, i0, rfl, hhtl, hball, ?_, ?_, hchain,
            ?_, ?_, ?_, ?_⟩
          · simp [newLeaf, htOK, height]
          · simp [newLeaf, balOK, height]
          · have e : height (newLeaf k v) = 1 := rfl
            rw [e]
            omega
          · have e : height (newLeaf k v) = 1 := rfl
            rw [e]
            left
            omega
          · have e : height (newLeaf k v) = 1 := rfl
            rw [e]
            omega
          · have e : height (newLeaf k v) = 1 := rfl
            rw [e]
            omega
        have hwv := walk_valid ctx' (Tree.node k0 v0 l (newLeaf k v) h0 i0) [false] hpre'
        have hse : statsExcept (Tree.node k0 v0 l (newLeaf k v) h0 i0) [false] = true := by
          simp [statsExcept, newLeaf, statsOK, hsl]
        have hws := walk_stats ctx' (Tree.node k0 v0 l (newLeaf k v) h0 i0) [false] hse hothers
        have htoLW : toL (rebalanceAncestors ctx'
              (Tree.node k0 v0 l (newLeaf k v) h0 i0) [false]).1
            = lpart ctx' ++ toL l ++ (k0, v0) :: (k, v) :: rpart ctx' := by
          rw [hwv.2.2, toL_rebuild]
          simp [toL, newLeaf]
        have htoLs : toL s.root = lpart ctx' ++ toL l ++ (k0, v0) :: rpart ctx' := by
          rw [← hre, toL_rebuild]
          simp [toL]
        refine ⟨?_, ?_, ?_, ?_, ?_⟩
        · show ordered (updateTreeAt _ _) = true
          rw [ordered_updateTreeAt, ordered_iff_pairwise]
          have hkeysW : keys (rebalanceAncestors ctx'
                (Tree.node k0 v0 l (newLeaf k v) h0 i0) [false]).1
              = ((lpart ctx').map Prod.fst ++ (toL l).map Prod.fst ++ [k0])
                  ++ k :: (rpart ctx').map Prod.fst := by
            simp [keys, htoLW]
          rw [hkeysW]
          apply pairwise_insert_mid
          · have hord' := (ordered_iff_pairwise s.root).1 hord
            have hkeyss : keys s.root
                = ((lpart ctx').map Prod.fst ++ (toL l).map Prod.fst ++ [k0])
                    ++ (rpart ctx').map Prod.fst := by
              simp [keys, htoLs]
            rwa [hkeyss] at hord'
          · intro x hx
            rcases List.mem_append.1 hx with hx | hx
            · rcases List.mem_append.1 hx with hx | hx
              · obtain ⟨e, he, rfl⟩ := List.mem_map.1 hx
                exact hlb e he
              · obtain ⟨e, he, rfl⟩ := List.mem_map.1 hx
                have hmem : e.1 ∈ keys l := List.mem_map_of_mem Prod.fst he
                have h2 := (allKeys_iff _ l).1 hbl e.1 hmem
                simp only [decide_eq_true_eq] at h2
                omega
            · rcases List.mem_singleton.1 hx with rfl
              exact hlt
          · intro x hx
            obtain ⟨e, he, rfl⟩ := List.mem_map.1 hx
            exact hrb e he
        · show htOK (updateTreeAt _ _) = true
          rw [htOK_updateTreeAt]
          exact hwv.1
        · show balOK (updateTreeAt _ _) = true
          rw [balOK_updateTreeAt]
          exact hwv.2.1
        · show statsOK (updateTreeAt _ _) = true
          exact updateTreeAt_statsOK _ _ hws
        · show s.n + 1 = _
          have hc : count (updateTreeAt (rebalanceAncestors ctx'
                (Tree.node k0 v0 l (newLeaf k v) h0 i0) [false]).1
                (rebalanceAncestors ctx'
                (Tree.node k0 v0 l (newLeaf k v) h0 i0) [false]).2)
              = count s.root + 1 := by
            rw [count_eq_length_toL, toL_updateTreeAt, htoLW,
              count_eq_length_toL, htoLs]
            simp
            omega
          rw [hc]
          push_cast
          omega

theorem rebuild_append (a b : Ctx) (t : Tree) :
    rebuild (a ++ b) t = rebuild b (rebuild a t) := by
  induction a generalizing t with
  | nil => rfl
  | cons f rest ih => simp [rebuild, ih]

/-- Unfolding lemma for `youngestDescendantType` at a node. -/
theorem ydt_node (ctx : Ctx) (k v : Int) (l r : Tree) (h : Nat) (i : Stats) (checkLeft : Bool) :
    youngestDescendantType ctx (.node k v l r h i) checkLeft =
      if checkLeft then
        match l with
        | .nil => (ctx, Tree.node k v l r h i)
        | .node lk lv ll lr lh li =>
          youngestDescendantType (⟨true, k, v, h, i, r⟩ :: ctx) (.node lk lv ll lr lh li) checkLeft
      else
        match r with
        | .nil => (ctx, Tree.node k v l r h i)
        | .node rk rv rl rr rh ri =>
          youngestDescendantType (⟨false, k, v, h, i, l⟩ :: ctx) (.node rk rv rl rr rh ri)
            checkLeft := by
  rw [youngestDescendantType.eq_def]

theorem ydt_left_spec (t : Tree) (ctx : Ctx) (hne : t ≠ Tree.nil) :
    ∃ pre sk sv sr sh si,
      youngestDescendantType ctx t true = (pre ++ ctx, .node sk sv .nil sr sh si)
      ∧ rebuild pre (.node sk sv .nil sr sh si) = t
      ∧ lpart pre = []
      ∧ (sk, sv) = minEntry t
      ∧ rebuild pre sr = removeMinSpec t := by
  induction t generalizing ctx with
  | nil => exact absurd rfl hne
  | node k v l r h i ihl ihr =>
    cases l with
    | nil =>
      refine ⟨[], k, v, r, h, i, ?_, rfl, rfl, rfl, rfl⟩
      rw [ydt_node]
      simp
    | node lk lv ll lr lh li =>
      obtain ⟨pre, sk, sv, sr, sh, si, h1, h2, h3, h4, h5⟩ :=
        ihl (⟨true, k, v, h, i, r⟩ :: ctx) (by simp)
      refine ⟨pre ++ [⟨true, k, v, h, i, r⟩], sk, sv, sr, sh, si, ?_, ?_, ?_, ?_, ?_⟩
      · have hstep : youngestDescendantType ctx (.node k v (.node lk lv ll lr lh li) r h i) true
            = youngestDescendantType (⟨true, k, v, h, i, r⟩ :: ctx)
                (.node lk lv ll lr lh li) true := by
          rw [ydt_node]
          simp
        rw [hstep, h1]
        simp
      · rw [rebuild_append, h2]
        rfl
      · simp [lpart_append, lpart, fContribL, h3]
      · simpa [minEntry] using h4
      · rw [rebuild_append, h5]
        simp [minEntry, removeMinSpec]
        rfl

theorem walkPre_splice (rest : Ctx) (f : Frame) (x : Tree) (hw : Nat)
    (hch : hChain (f :: rest) hw)
    (hx1 : htOK x = true) (hx2 : balOK x = true)
    (hhx : hw = height x + 1) :
    WalkPre rest (rebuildOne f x) := by
  obtain ⟨hf1, hf2, hf3, hf4, hf5, hf6⟩ := hch
  cases hfl : f.fromLeft
  · refine ⟨f.key, f.value, f.other, x, f.ht, f.info, by simp [rebuildOne, hfl], hf4, hf5,
      hx1, hx2, hf6, ?_, ?_, ?_, ?_⟩ <;> omega
  · refine ⟨f.key, f.value, x, f.other, f.ht, f.info, by simp [rebuildOne, hfl], hx1, hx2,
      hf4, hf5, hf6, ?_, ?_, ?_, ?_⟩ <;> omega

theorem statsExcept_splice (f : Frame) (x : Tree)
    (hx : statsOK x = true) (ho : statsOK f.other = true) :
    statsExcept (rebuildOne f x) [] = true := by
  cases hfl : f.fromLeft <;> simp [rebuildOne, hfl, statsExcept, hx, ho]

theorem erase_notfound (s : MapState) (k : Int) (ctx' : Ctx) (k0 v0 : Int) (l r : Tree)
    (h0 : Nat) (i0 : Stats)
    (hfind : findNode k [] s.root = some (ctx', .node k0 v0 l r h0 i0))
    (hk : (k0 == k) = false)
    (hre : rebuild ctx' (.node k0 v0 l r h0 i0) = s.root)
    (hht : htOK s.root = true) (hbal : balOK s.root = true) (hst : statsOK s.root = true) :
    erase s k = s := by
  have hbne : (k0 != k) = true := by simp [bne, hk]
  have heds : eraseNodeBST s k = (some (ctx', .node k0 v0 l r h0 i0), s) := by
    simp [eraseNodeBST, hfind, hbne]
  have hhtw : htOK (.node k0 v0 l r h0 i0) = true :=
    htOK_rebuild_focus ctx' _ (by rw [hre]; exact hht)
  have hbalw : balOK (.node k0 v0 l r h0 i0) = true :=
    balOK_rebuild_focus ctx' _ (by rw [hre]; exact hbal)
  have hwn := walk_noop ctx' (.node k0 v0 l r h0 i0) []
    (resetHeight_eq_of_htOK _ hhtw) (balanced_of_balOK _ hbalw)
  simp only [erase, heds, hwn]
  rw [hre, updateTreeAt_id _ _ hst]

theorem htOK_kv_irrel (k k' v v' : Int) (l r : Tree) (h : Nat) (i i' : Stats) :
    htOK (.node k v l r h i) = htOK (.node k' v' l r h i') := by
  simp [htOK]

theorem balOK_kv_irrel (k k' v v' : Int) (l r : Tree) (h : Nat) (i i' : Stats) :
    balOK (.node k v l r h i) = balOK (.node k' v' l r h i') := by
  simp [balOK]

theorem erase_inv (s : MapState) (k : Int) (hinv : Inv s) : Inv (erase s k) := by
  obtain ⟨hord, hht, hbal, hst, hn⟩ := hinv
  by_cases hroot : s.root = Tree.nil
  · have heq : erase s k = s := by
      simp [erase, eraseNodeBST, hroot, findNode]
    rw [heq]
    exact ⟨hord, hht, hbal, hst, hn⟩
  · obtain ⟨⟨ctx0, w⟩, hfind⟩ := findNode_some k s.root [] hroot
    obtain ⟨hre0, ⟨k0, v0, l, r, h0, i0, rfl, hchild⟩, pre, hpre, hlb, hrb⟩ :=
      findNode_spec k s.root [] ctx0 _ hfind hord
    rw [List.append_nil] at hpre
    subst hpre
    have hre : rebuild ctx0 (.node k0 v0 l r h0 i0) = s.root := hre0
    have hhtw : htOK (.node k0 v0 l r h0 i0) = true :=
      htOK_rebuild_focus ctx0 _ (by rw [hre]; exact hht)
    have hbalw : balOK (.node k0 v0 l r h0 i0) = true :=
      balOK_rebuild_focus ctx0 _ (by rw [hre]; exact hbal)
    have hstw : statsOK (.node k0 v0 l r h0 i0) = true :=
      statsOK_rebuild_focus ctx0 _ (by rw [hre]; exact hst)
    have hordw : ordered (.node k0 v0 l r h0 i0) = true :=
      ordered_rebuild_focus ctx0 _ (by rw [hre]; exact hord)
    have hchain : hChain ctx0 h0 := by
      have h1 := hChain_of_rebuild ctx0 _ (by rw [hre]; exact hht) (by rw [hre]; exact hbal)
      simpa [height_node] using h1
    have hothers : othersStats ctx0 := othersStats_of_rebuild ctx0 _ (by rw [hre]; exact hst)
    obtain ⟨_hi, hsl, hsr⟩ := (statsOK_node_decomp k0 v0 l r h0 i0).1 hstw
    obtain ⟨hbl, hbr, hol, hor⟩ := (ordered_node_decomp k0 v0 l r h0 i0).1 hordw
    by_cases hk : (k0 == k) = true
    · have hbne : (k0 != k) = false := by simp [bne, hk]
      have hhh : h0 = Max.max (height l) (height r) + 1 ∧ htOK l = true ∧ htOK r = true := by
        have h1 := hhtw
        simp only [htOK, Bool.and_eq_true, beq_iff_eq] at h1
        exact ⟨h1.1.1, h1.1.2, h1.2⟩
      have hbb : ((height l : Int) - (height r : Int)).natAbs ≤ 1
          ∧ balOK l = true ∧ balOK r = true := by
        have h1 := hbalw
        simp only [balOK, Bool.and_eq_true, decide_eq_true_eq] at h1
        exact ⟨h1.1.1, h1.1.2, h1.2⟩
      obtain ⟨hh1, hhl, hhr⟩ := hhh
      obtain ⟨hb1, hball, hbarr⟩ := hbb
      cases l with
      | nil =>
        have heds : eraseNodeBST s k
            = ((removeNode ctx0 (Tree.node k0 v0 Tree.nil r h0 i0)).1,
               ⟨(removeNode ctx0 (Tree.node k0 v0 Tree.nil r h0 i0)).2, s.n - 1⟩) := by
          cases r <;> simp [eraseNodeBST, hfind, hbne]
        cases ctx0 with
        | nil =>
          have heq : erase s k = ⟨r, s.n - 1⟩ := by
            simp [erase, heds, removeNode, Tree.left, Tree.right]
          rw [heq]
          have hsroot : s.root = Tree.node k0 v0 Tree.nil r h0 i0 := hre.symm
          refine ⟨hor, hhr, hbarr, hsr, ?_⟩
          show s.n - 1 = (count r : Int)
          rw [hn, hsroot]
          simp [count]
        | cons f rest =>
          have hrm : removeNode (f :: rest) (Tree.node k0 v0 Tree.nil r h0 i0)
              = (some (rest, rebuildOne f r), rebuild rest (rebuildOne f r)) := by
            simp [removeNode, Tree.left, Tree.right]
          have heq : erase s k
              = ⟨updateTreeAt (rebalanceAncestors rest (rebuildOne f r) []).1
                  (rebalanceAncestors rest (rebuildOne f r) []).2, s.n - 1⟩ := by
            simp [erase, heds, hrm]
          rw [heq]
          have hpre' : WalkPre rest (rebuildOne f r) :=
            walkPre_splice rest f r h0 hchain hhr hbarr (by
              have e : height Tree.nil = 0 := rfl
              rw [e] at hh1
              omega)
          have hwv := walk_valid rest (rebuildOne f r) [] hpre'
          have hws := walk_stats rest (rebuildOne f r) []
            (statsExcept_splice f r hsr hothers.1) hothers.2
          have htoLW : toL (rebalanceAncestors rest (rebuildOne f r) []).1
              = lpart (f :: rest) ++ (toL r ++ rpart (f :: rest)) := by
            rw [hwv.2.2]
            have h1 : rebuild rest (rebuildOne f r) = rebuild (f :: rest) r := rfl
            rw [h1, toL_rebuild]
            simp
          have htoLs : toL s.root
              = lpart (f :: rest) ++ (k0, v0) :: (toL r ++ rpart (f :: rest)) := by
            rw [← hre, toL_rebuild]
            simp [toL]
          refine ⟨?_, ?_, ?_, ?_, ?_⟩
          · show ordered (updateTreeAt _ _) = true
            rw [ordered_updateTreeAt, ordered_iff_pairwise]
            have hkeysW : keys (rebalanceAncestors rest (rebuildOne f r) []).1
                = (lpart (f :: rest)).map Prod.fst
                    ++ ((toL r).map Prod.fst ++ (rpart (f :: rest)).map Prod.fst) := by
              simp [keys, htoLW]
            rw [hkeysW]
            apply pairwise_remove_mid _ _ k0
            have hkeyss : keys s.root
                = (lpart (f :: rest)).map Prod.fst
                    ++ k0 :: ((toL r).map Prod.fst ++ (rpart (f :: rest)).map Prod.fst) := by
              simp [keys, htoLs]
            have hord' := (ordered_iff_pairwise s.root).1 hord
            rwa [hkeyss] at hord'
          · show htOK (updateTreeAt _ _) = true
            rw [htOK_updateTreeAt]
            exact hwv.1
          · show balOK (updateTreeAt _ _) = true
            rw [balOK_updateTreeAt]
            exact hwv.2.1
          · show statsOK (updateTreeAt _ _) = true
            exact updateTreeAt_statsOK _ _ hws
          · show s.n - 1 = (count (updateTreeAt (rebalanceAncestors rest (rebuildOne f r) []).1
              (rebalanceAncestors rest (rebuildOne f r) []).2) : Int)
            have hc : count (updateTreeAt (rebalanceAncestors rest (rebuildOne f r) []).1
                  (rebalanceAncestors rest (rebuildOne f r) []).2) + 1
                = count s.root := by
              rw [count_eq_length_toL, toL_updateTreeAt, htoLW, count_eq_length_toL, htoLs]
              simp
              omega
            omega
      | node lk lv ll lr lh li =>
        cases r with
        | nil =>
          have heds : eraseNodeBST s k
              = ((removeNode ctx0
                    (Tree.node k0 v0 (Tree.node lk lv ll lr lh li) Tree.nil h0 i0)).1,
                 ⟨(removeNode ctx0
                    (Tree.node k0 v0 (Tree.node lk lv ll lr lh li) Tree.nil h0 i0)).2,
                  s.n - 1⟩) := by
            simp [eraseNodeBST, hfind, hbne]
          cases ctx0 with
          | nil =>
            have heq : erase s k = ⟨Tree.node lk lv ll lr lh li, s.n - 1⟩ := by
              simp [erase, heds, removeNode, Tree.left, Tree.right]
            rw [heq]
            have hsroot : s.root
                = Tree.node k0 v0 (Tree.node lk lv ll lr lh li) Tree.nil h0 i0 := hre.symm
            refine ⟨hol, hhl, hball, hsl, ?_⟩
            show s.n - 1 = _
            rw [hn, hsroot]
            simp [count]
          | cons f rest =>
            have hrm : removeNode (f :: rest)
                (Tree.node k0 v0 (Tree.node lk lv ll lr lh li) Tree.nil h0 i0)
                = (some (rest, rebuildOne f (Tree.node lk lv ll lr lh li)),
                   rebuild rest (rebuildOne f (Tree.node lk lv ll lr lh li))) := by
              simp [removeNode, Tree.left, Tree.right]
            have heq : erase s k
                = ⟨updateTreeAt
                    (rebalanceAncestors rest (rebuildOne f (Tree.node lk lv ll lr lh li)) []).1
                    (rebalanceAncestors rest (rebuildOne f (Tree.node lk lv ll lr lh li)) []).2,
                   s.n - 1⟩ := by
              simp [erase, heds, hrm]
            rw [heq]
            have hpre' : WalkPre rest (rebuildOne f (Tree.node lk lv ll lr lh li)) :=
              walkPre_splice rest f (Tree.node lk lv ll lr lh li) h0 hchain hhl hball (by
                have e : height Tree.nil = 0 := rfl
                rw [e] at hh1
                omega)
            have hwv := walk_valid rest (rebuildOne f (Tree.node lk lv ll lr lh li)) [] hpre'
            have hws := walk_stats rest (rebuildOne f (Tree.node lk lv ll lr lh li)) []
              (statsExcept_splice f (Tree.node lk lv ll lr lh li) hsl hothers.1) hothers.2
            have htoLW : toL (rebalanceAncestors rest
                  (rebuildOne f (Tree.node lk lv ll lr lh li)) []).1
                = (lpart (f :: rest) ++ toL (Tree.node lk lv ll lr lh li))
                    ++ rpart (f :: rest) := by
              rw [hwv.2.2]
              have h1 : rebuild rest (rebuildOne f (Tree.node lk lv ll lr lh li))
                  = rebuild (f :: rest) (Tree.node lk lv ll lr lh li) := rfl
              rw [h1, toL_rebuild]
            have htoLs : toL s.root
                = (lpart (f :: rest) ++ toL (Tree.node lk lv ll lr lh li))
                    ++ (k0, v0) :: rpart (f :: rest) := by
              rw [← hre, toL_rebuild]
              simp [toL]
            refine ⟨?_, ?_, ?_, ?_, ?_⟩
            · show ordered (updateTreeAt _ _) = true
              rw [ordered_updateTreeAt, ordered_iff_pairwise]
              have hkeysW : keys (rebalanceAncestors rest
                    (rebuildOne f (Tree.node lk lv ll lr lh li)) []).1
                  = ((lpart (f :: rest)).map Prod.fst
                      ++ (toL (Tree.node lk lv ll lr lh li)).map Prod.fst)
                      ++ (rpart (f :: rest)).map Prod.fst := by
                simp [keys, htoLW]
              rw [hkeysW]
              apply pairwise_remove_mid _ _ k0
              have hkeyss : keys s.root
                  = ((lpart (f :: rest)).map Prod.fst
                      ++ (toL (Tree.node lk lv ll lr lh li)).map Prod.fst)
                      ++ k0 :: (rpart (f :: rest)).map Prod.fst := by
                simp [keys, htoLs]
              have hord' := (ordered_iff_pairwise s.root).1 hord
              rwa [hkeyss] at hord'
            · show htOK (updateTreeAt _ _) = true
              rw [htOK_updateTreeAt]
              exact hwv.1
            · show balOK (updateTreeAt _ _) = true
              rw [balOK_updateTreeAt]
              exact hwv.2.1
            · show statsOK (updateTreeAt _ _) = true
              exact updateTreeAt_statsOK _ _ hws
            · show s.n - 1 = (count (updateTreeAt (rebalanceAncestors rest
                (rebuildOne f (Tree.node lk lv ll lr lh li)) []).1
                (rebalanceAncestors rest (rebuildOne f (Tree.node lk lv ll lr lh li)) []).2) : Int)
              have hc : count (updateTreeAt (rebalanceAncestors rest
                    (rebuildOne f (Tree.node lk lv ll lr lh li)) []).1
                    (rebalanceAncestors rest
                    (rebuildOne f (Tree.node lk lv ll lr lh li)) []).2) + 1
                  = count s.root := by
                rw [count_eq_length_toL, toL_updateTreeAt, htoLW, count_eq_length_toL, htoLs]
                simp
                omega
              omega
        | node rk rv rl rr rh ri =>
          obtain ⟨pre1, sk, sv, sr, sh, si, hydt, hreb, hlp, hmin, hrm⟩ :=
            ydt_left_spec (Tree.node rk rv rl rr rh ri)
              (⟨false, (minEntry (Tree.node rk rv rl rr rh ri)).1,
                (minEntry (Tree.node rk rv rl rr rh ri)).2, h0, i0,
                Tree.node lk lv ll lr lh li⟩ :: ctx0) (by simp)
          have hmin1 : (minEntry (Tree.node rk rv rl rr rh ri)).1 = sk := by rw [← hmin]
          have hmin2 : (minEntry (Tree.node rk rv rl rr rh ri)).2 = sv := by rw [← hmin]
          rw [hmin1, hmin2] at hydt
          cases hP : pre1 ++ (⟨false, sk, sv, h0, i0, Tree.node lk lv ll lr lh li⟩ :: ctx0) with
          | nil => simp at hP
          | cons f rest =>
            rw [hP] at hydt
            have hrm2 : removeNode (f :: rest) (Tree.node sk sv Tree.nil sr sh si)
                = (some (rest, rebuildOne f sr), rebuild rest (rebuildOne f sr)) := by
              simp [removeNode, Tree.left, Tree.right]
            have heq : erase s k
                = ⟨updateTreeAt (rebalanceAncestors rest (rebuildOne f sr) []).1
                    (rebalanceAncestors rest (rebuildOne f sr) []).2, s.n - 1⟩ := by
              have heds : eraseNodeBST s k
                  = (some (rest, rebuildOne f sr),
                     ⟨rebuild rest (rebuildOne f sr), s.n - 1⟩) := by
                simp only [eraseNodeBST, hfind, hbne, Bool.false_eq_true, if_false,
                  hmin1, hmin2, hydt, hrm2]
              simp [erase, heds]
            rw [heq]
            have hT : rebuild (pre1 ++ (⟨false, sk, sv, h0, i0,
                  Tree.node lk lv ll lr lh li⟩ :: ctx0)) (Tree.node sk sv Tree.nil sr sh si)
                = rebuild ctx0 (Tree.node sk sv (Tree.node lk lv ll lr lh li)
                    (Tree.node rk rv rl rr rh ri) h0 i0) := by
              rw [rebuild_append, hreb]
              rfl
            have hhtT : htOK (rebuild (pre1 ++ (⟨false, sk, sv, h0, i0,
                  Tree.node lk lv ll lr lh li⟩ :: ctx0))
                  (Tree.node sk sv Tree.nil sr sh si)) = true := by
              rw [hT, htOK_rebuild_congr ctx0
                (Tree.node sk sv (Tree.node lk lv ll lr lh li)
                  (Tree.node rk rv rl rr rh ri) h0 i0)
                (Tree.node k0 v0 (Tree.node lk lv ll lr lh li)
                  (Tree.node rk rv rl rr rh ri) h0 i0) rfl
                (htOK_kv_irrel sk k0 sv v0 _ _ h0 i0 i0), hre]
              exact hht
            have hbalT : balOK (rebuild (pre1 ++ (⟨false, sk, sv, h0, i0,
                  Tree.node lk lv ll lr lh li⟩ :: ctx0))
                  (Tree.node sk sv Tree.nil sr sh si)) = true := by
              rw [hT, balOK_rebuild_congr ctx0
                (Tree.node sk sv (Tree.node lk lv ll lr lh li)
                  (Tree.node rk rv rl rr rh ri) h0 i0)
                (Tree.node k0 v0 (Tree.node lk lv ll lr lh li)
                  (Tree.node rk rv rl rr rh ri) h0 i0) rfl
                (balOK_kv_irrel sk k0 sv v0 _ _ h0 i0 i0), hre]
              exact hbal
            have hchain2 : hChain (pre1 ++ (⟨false, sk, sv, h0, i0,
                Tree.node lk lv ll lr lh li⟩ :: ctx0)) sh := by
              have h1 := hChain_of_rebuild _ _ hhtT hbalT
              simpa [height_node] using h1
            have hhtw1 : htOK (Tree.node sk sv Tree.nil sr sh si) = true :=
              htOK_rebuild_focus _ _ hhtT
            have hbalw1 : balOK (Tree.node sk sv Tree.nil sr sh si) = true :=
              balOK_rebuild_focus _ _ hbalT
            have hsh : sh = height sr + 1 ∧ htOK sr = true := by
              have h1 := hhtw1
              simp only [htOK, Bool.and_eq_true, beq_iff_eq, height_nil] at h1
              exact ⟨by omega, h1.2⟩
            have hbsr : balOK sr = true := by
              have h1 := hbalw1
              simp only [balOK, Bool.and_eq_true, decide_eq_true_eq] at h1
              exact h1.2
            have hstw1 : statsOK (Tree.node sk sv Tree.nil sr sh si) = true :=
              statsOK_rebuild_focus pre1 _ (by rw [hreb]; exact hsr)
            obtain ⟨_, _, hstsr⟩ := (statsOK_node_decomp sk sv Tree.nil sr sh si).1 hstw1
            have hothers1 : othersStats pre1 :=
              othersStats_of_rebuild pre1 _ (by rw [hreb]; exact hsr)
            have hothersFull : othersStats (pre1 ++ (⟨false, sk, sv, h0, i0,
                Tree.node lk lv ll lr lh li⟩ :: ctx0)) :=
              (othersStats_append _ _).2 ⟨hothers1, hsl, hothers⟩
            rw [hP] at hchain2 hothersFull
            have hpre' : WalkPre rest (rebuildOne f sr) :=
              walkPre_splice rest f sr sh hchain2 hsh.2 hbsr hsh.1
            have hwv := walk_valid rest (rebuildOne f sr) [] hpre'
            have hws := walk_stats rest (rebuildOne f sr) []
              (statsExcept_splice f sr hstsr hothersFull.1) hothersFull.2
            have htoLW : toL (rebalanceAncestors rest (rebuildOne f sr) []).1
                = (lpart ctx0 ++ toL (Tree.node lk lv ll lr lh li))
                    ++ (sk, sv) :: (toL sr ++ (rpart pre1 ++ rpart ctx0)) := by
              rw [hwv.2.2]
              have h1 : rebuild rest (rebuildOne f sr) = rebuild (f :: rest) sr := rfl
              rw [h1, ← hP, rebuild_append, toL_rebuild, toL_rebuild, hlp]
              simp [lpart, rpart, fContribL, fContribR]
            have hrT : toL (Tree.node rk rv rl rr rh ri) = (sk, sv) :: (toL sr ++ rpart pre1) := by
              rw [← hreb, toL_rebuild, hlp]
              simp [toL]
            have htopL : toL (Tree.node k0 v0 (Tree.node lk lv ll lr lh li)
                  (Tree.node rk rv rl rr rh ri) h0 i0)
                = toL (Tree.node lk lv ll lr lh li)
                    ++ (k0, v0) :: toL (Tree.node rk rv rl rr rh ri) := rfl
            have htoLs : toL s.root
                = (lpart ctx0 ++ toL (Tree.node lk lv ll lr lh li))
                    ++ (k0, v0) :: ((sk, sv) :: (toL sr ++ (rpart pre1 ++ rpart ctx0))) := by
              rw [← hre, toL_rebuild, htopL, hrT]
              simp
            refine ⟨?_, ?_, ?_, ?_, ?_⟩
            · show ordered (updateTreeAt _ _) = true
              rw [ordered_updateTreeAt, ordered_iff_pairwise]
              have hkeysW : keys (rebalanceAncestors rest (rebuildOne f sr) []).1
                  = ((lpart ctx0).map Prod.fst
                      ++ (toL (Tree.node lk lv ll lr lh li)).map Prod.fst)
                      ++ sk :: ((toL sr).map Prod.fst
                        ++ ((rpart pre1).map Prod.fst ++ (rpart ctx0).map Prod.fst)) := by
                simp [keys, htoLW]
              rw [hkeysW]
              apply pairwise_remove_mid _ _ k0
              have hkeyss : keys s.root
                  = ((lpart ctx0).map Prod.fst
                      ++ (toL (Tree.node lk lv ll lr lh li)).map Prod.fst)
                      ++ k0 :: (sk :: ((toL sr).map Prod.fst
                        ++ ((rpart pre1).map Prod.fst ++ (rpart ctx0).map Prod.fst))) := by
                simp [keys, htoLs]
              have hord' := (ordered_iff_pairwise s.root).1 hord
              rwa [hkeyss] at hord'
            · show htOK (updateTreeAt _ _) = true
              rw [htOK_updateTreeAt]
              exact hwv.1
            · show balOK (updateTreeAt _ _) = true
              rw [balOK_updateTreeAt]
              exact hwv.2.1
            · show statsOK (updateTreeAt _ _) = true
              exact updateTreeAt_statsOK _ _ hws
            · show s.n - 1 = (count (updateTreeAt (rebalanceAncestors rest (rebuildOne f sr) []).1
                (rebalanceAncestors rest (rebuildOne f sr) []).2) : Int)
              have hc : count (updateTreeAt (rebalanceAncestors rest (rebuildOne f sr) []).1
                    (rebalanceAncestors rest (rebuildOne f sr) []).2) + 1
                  = count s.root := by
                rw [count_eq_length_toL, toL_updateTreeAt, htoLW, count_eq_length_toL, htoLs]
                simp
                omega
              omega
    · have hk' : (k0 == k) = false := by
        rwa [Bool.not_eq_true] at hk
      rw [erase_notfound s k ctx0 k0 v0 l r h0 i0 hfind hk' hre hht hbal hst]
      exact ⟨hord, hht, hbal, hst, hn⟩

theorem step_inv (s : MapState) (op : Op) (hinv : Inv s) : Inv (step s op) := by
  cases op with
  | put k v => exact put_inv s k v hinv
  | erase k => exact erase_inv s k hinv

theorem mkEmpty_inv : Inv mkEmpty :=
  ⟨rfl, rfl, rfl, rfl, rfl⟩

theorem foldl_inv (ops : List Op) (s : MapState) (hs : Inv s) : Inv (ops.foldl step s) := by
  induction ops generalizing s with
  | nil => exact hs
  | cons op rest ih => exact ih (step s op) (step_inv s op hs)

theorem run_inv (ops : List Op) : Inv (run ops) :=
  foldl_inv ops mkEmpty mkEmpty_inv

/-- **C1**: after any sequence of `put`/`erase` operations from the empty map,
every reachable node's stored height equals `1 + max` of its children's stored
heights and the two children's heights differ by at most one — even though
`rebalanceAncestors` stops climbing as soon as a node's height is unchanged.
Since every prefix of an operation sequence is itself an operation sequence,
this states the invariant after each operation. -/
theorem claim_C1 (ops : List Op) :
    htOK (run ops).root = true ∧ balOK (run ops).root = true :=
  ⟨(run_inv ops).2.1, (run_inv ops).2.2.1⟩

/-- **C2**: after any sequence of `put`/`erase` operations from the empty map,
every reachable node's stored statistics are the ground truth of its current
subtree: `num` is the node count, `sum` the sum of the values, and
`min`/`max` are attained bounds of the values — including after operations
whose rebalancing rotated. -/
theorem claim_C2 (ops : List Op) : statsTrue (run ops).root = true :=
  statsOK_imp_statsTrue _ (run_inv ops).2.2.2.1

/-- **C3**: after any sequence of `put`/`erase` operations from the empty map,
the BST ordering invariant holds at every reachable node: all keys of the
left subtree are smaller than the node's key, which is smaller than all keys
of the right subtree. -/
theorem claim_C3 (ops : List Op) : ordered (run ops).root = true :=
  (run_inv ops).1

/-- **C4**: after any sequence of `put`/`erase` operations from the empty map,
`size()` equals the number of reachable nodes, and also equals the root's
stored `num` statistic (0 when the tree is empty). -/
theorem claim_C4 (ops : List Op) :
    size (run ops) = (count (run ops).root : Int)
    ∧ size (run ops)
        = (match Tree.info? (run ops).root with
           | none => 0
           | some i => (i.num : Int)) := by
  obtain ⟨h1, h2, h3, h4, h5⟩ := run_inv ops
  refine ⟨h5, ?_⟩
  cases hr : (run ops).root with
  | nil =>
    rw [hr] at h5
    show size (run ops) = (0 : Int)
    show (run ops).n = (0 : Int)
    simpa [count] using h5
  | node k0 v0 l r h0 i0 =>
    have hst := statsOK_imp_statsTrue _ h4
    rw [hr] at hst h5
    simp only [statsTrue, Bool.and_eq_true, beq_iff_eq] at hst
    have hnum : i0.num = count (Tree.node k0 v0 l r h0 i0) := hst.1.1.1.1.1.1.1
    show (run ops).n = (i0.num : Int)
    rw [hnum]
    exact h5

theorem skel_updateInfo (t : Tree) : skel (updateInfo t) = skel t := by
  cases t <;> simp [updateInfo, skel]

theorem skel_updateTreeAt (t : Tree) (p : List Bool) : skel (updateTreeAt t p) = skel t := by
  induction t generalizing p with
  | nil => cases p <;> simp [updateTreeAt, updateInfo]
  | node k v l r h i ihl ihr =>
    cases p with
    | nil => simp [updateTreeAt, skel_updateInfo]
    | cons d pp => cases d <;> simp [updateTreeAt, updateInfo, skel, ihl, ihr]

theorem skel_rebuild_congr (ctx : Ctx) (t1 t2 : Tree) (h : skel t1 = skel t2) :
    skel (rebuild ctx t1) = skel (rebuild ctx t2) := by
  induction ctx generalizing t1 t2 with
  | nil => exact h
  | cons f rest ih =>
    refine ih (rebuildOne f t1) (rebuildOne f t2) ?_
    cases hb : f.fromLeft <;> simp [rebuildOne, hb, skel, h]

/-- **C5**: erasing a key with no node in the tree is an exact no-op: the whole
map state (tree and size) is unchanged, even though the erase path still runs
the rebalancing walk and the statistics walk from the last visited node. -/
theorem claim_C5 (s : MapState) (k : Int) (hinv : Inv s) (habs : k ∉ keys s.root) :
    erase s k = s := by
  obtain ⟨hord, hht, hbal, hst, hn⟩ := hinv
  by_cases hroot : s.root = Tree.nil
  · simp [erase, eraseNodeBST, hroot, findNode]
  · obtain ⟨⟨ctx0, w⟩, hfind⟩ := findNode_some k s.root [] hroot
    obtain ⟨hre0, ⟨k0, v0, l, r, h0, i0, rfl, hchild⟩, pre, hpre, hlb, hrb⟩ :=
      findNode_spec k s.root [] ctx0 _ hfind hord
    rw [List.append_nil] at hpre
    subst hpre
    have hre : rebuild ctx0 (.node k0 v0 l r h0 i0) = s.root := hre0
    have hkmem : k0 ∈ keys s.root := by
      rw [← hre]
      simp [keys, toL_rebuild, toL]
    have hk0 : (k0 == k) = false := by
      rcases Bool.eq_false_or_eq_true (k0 == k) with h | h
      · rw [beq_iff_eq] at h
        exact absurd (h ▸ hkmem) habs
      · exact h
    exact erase_notfound s k ctx0 k0 v0 l r h0 i0 hfind hk0 hre hht hbal hst

theorem claim_C5_witness :
    (Inv ⟨Tree.node 2 2 (Tree.node 1 1 .nil .nil 1 ⟨1, 1, 1, 1⟩)
          (Tree.node 3 3 .nil .nil 1 ⟨1, 3, 3, 3⟩) 2 ⟨3, 6, 1, 3⟩, 3⟩
      ∧ (5 : Int) ∉ keys (Tree.node 2 2 (Tree.node 1 1 .nil .nil 1 ⟨1, 1, 1, 1⟩)
          (Tree.node 3 3 .nil .nil 1 ⟨1, 3, 3, 3⟩) 2 ⟨3, 6, 1, 3⟩))
    ∧ erase ⟨Tree.node 2 2 (Tree.node 1 1 .nil .nil 1 ⟨1, 1, 1, 1⟩)
          (Tree.node 3 3 .nil .nil 1 ⟨1, 3, 3, 3⟩) 2 ⟨3, 6, 1, 3⟩, 3⟩ 5
        = ⟨Tree.node 2 2 (Tree.node 1 1 .nil .nil 1 ⟨1, 1, 1, 1⟩)
          (Tree.node 3 3 .nil .nil 1 ⟨1, 3, 3, 3⟩) 2 ⟨3, 6, 1, 3⟩, 3⟩ :=
  ⟨⟨by decide, by decide⟩, claim_C5 _ 5 (by decide) (by decide)⟩

/-- **C10**: the implicit NULL edge case of the navigation interface — both
`successor` and `predecessor` map an absent (NULL) node argument to an absent
result, without failing.  In this pure rendering, tree non-modification is
inherent. -/
theorem claim_C10 : successor none = none ∧ predecessor none = none :=
  ⟨rfl, rfl⟩

/-- **C9**: inserting keys 1, 2, 3 (with values equal to the keys) into the
empty map produces the balanced tree rooted at key 2 with key 1 as left child
and key 3 as right child, and `find 2` then locates a node whose statistics
are count 3, sum 6, min 1, max 3. -/
theorem claim_C9 :
    (run [Op.put 1 1, Op.put 2 2, Op.put 3 3]).root
      = Tree.node 2 2 (Tree.node 1 1 .nil .nil 1 ⟨1, 1, 1, 1⟩)
          (Tree.node 3 3 .nil .nil 1 ⟨1, 3, 3, 3⟩) 2 ⟨3, 6, 1, 3⟩
    ∧ ∃ ctx w, find (run [Op.put 1 1, Op.put 2 2, Op.put 3 3]) 2 = some (ctx, w)
        ∧ w.info? = some ⟨3, 6, 1, 3⟩ := by
  have hrun : run [Op.put 1 1, Op.put 2 2, Op.put 3 3]
      = ⟨Tree.node 2 2 (Tree.node 1 1 .nil .nil 1 ⟨1, 1, 1, 1⟩)
          (Tree.node 3 3 .nil .nil 1 ⟨1, 3, 3, 3⟩) 2 ⟨3, 6, 1, 3⟩, 3⟩ := by
    simp [run, step, put, putNodeBST, findNode, newLeaf, updateTreeAt, updateInfo,
      updateStats, rebalanceAncestors, rebuild, rebuildOne, dirs, balanced, resetHeight,
      height, rebalance, singleRotation, tallestIsLeft, updateCtxStats, Tree.info?,
      rotPath, mkEmpty, Tree.left, Tree.right]
  refine ⟨by rw [hrun], [],
    Tree.node 2 2 (Tree.node 1 1 .nil .nil 1 ⟨1, 1, 1, 1⟩)
      (Tree.node 3 3 .nil .nil 1 ⟨1, 3, 3, 3⟩) 2 ⟨3, 6, 1, 3⟩, ?_, rfl⟩
  rw [hrun]
  rfl

/-- **C7**: `put` on a key already present overwrites the value in place: the
skeleton (keys, shape, stored heights) and the size are unchanged, and the
in-order entry list is the old one with exactly the value at `k` replaced. -/
theorem claim_C7 (s : MapState) (k v : Int) (hinv : Inv s) (hmem : k ∈ keys s.root) :
    skel (put s k v).root = skel s.root
    ∧ size (put s k v) = size s
    ∧ ∃ A v0 B, toL s.root = A ++ (k, v0) :: B
        ∧ toL (put s k v).root = A ++ (k, v) :: B := by
  obtain ⟨hord, hht, hbal, hst, hn⟩ := hinv
  have hroot : ¬ s.root = Tree.nil := by
    intro h
    rw [h] at hmem
    simp [keys, toL] at hmem
  obtain ⟨⟨ctx0, w⟩, hfind⟩ := findNode_some k s.root [] hroot
  obtain ⟨hre0, ⟨k0, v0, l, r, h0, i0, rfl, hchild⟩, pre, hpre, hlb, hrb⟩ :=
    findNode_spec k s.root [] ctx0 _ hfind hord
  rw [List.append_nil] at hpre
  subst hpre
  have hre : rebuild ctx0 (.node k0 v0 l r h0 i0) = s.root := hre0
  have hordw : ordered (.node k0 v0 l r h0 i0) = true :=
    ordered_rebuild_focus ctx0 _ (by rw [hre]; exact hord)
  obtain ⟨hbl, hbr, hol, hor⟩ := (ordered_node_decomp k0 v0 l r h0 i0).1 hordw
  have hsplit : keys s.root
      = (lpart ctx0).map Prod.fst
          ++ ((toL l).map Prod.fst ++ k0 :: ((toL r).map Prod.fst
            ++ (rpart ctx0).map Prod.fst)) := by
    rw [← hre]
    simp [keys, toL_rebuild, toL]
  have hk : (k0 == k) = true := by
    rcases Bool.eq_false_or_eq_true (k0 == k) with h | h
    · exact h
    · exfalso
      have hkne : ¬ k0 = k := by simpa using h
      obtain ⟨hgtl, hltr⟩ := hchild hkne
      rw [hsplit] at hmem
      rcases List.mem_append.1 hmem with hx | hx
      · obtain ⟨e, he, hee⟩ := List.mem_map.1 hx
        have h2 := hlb e he
        omega
      · rcases List.mem_append.1 hx with hx | hx
        · obtain ⟨e, he, hee⟩ := List.mem_map.1 hx
          rcases lt_trichotomy k0 k with hlt | heq | hgt
          · have h2 := (allKeys_iff _ l).1 hbl e.1 (List.mem_map_of_mem Prod.fst he)
            simp only [decide_eq_true_eq] at h2
            omega
          · exact hkne heq
          · have hl0 : l = Tree.nil := hgtl hgt
            rw [hl0] at he
            simp [toL] at he
        · rcases List.mem_cons.1 hx with heq | hx
          · exact hkne heq.symm
          · rcases List.mem_append.1 hx with hx | hx
            · obtain ⟨e, he, hee⟩ := List.mem_map.1 hx
              rcases lt_trichotomy k0 k with hlt | heq | hgt
              · have hr0 : r = Tree.nil := hltr hlt
                rw [hr0] at he
                simp [toL] at he
              · exact hkne heq
              · have h2 := (allKeys_iff _ r).1 hbr e.1 (List.mem_map_of_mem Prod.fst he)
                simp only [decide_eq_true_eq] at h2
                omega
            · obtain ⟨e, he, hee⟩ := List.mem_map.1 hx
              have h2 := hrb e he
              omega
  have hkeq : k0 = k := by simpa using hk
  rw [put_found s k v ctx0 k0 v0 l r h0 i0 hfind hk hre hht hbal]
  refine ⟨?_, rfl, lpart ctx0 ++ toL l, v0, toL r ++ rpart ctx0, ?_, ?_⟩
  · show skel (updateTreeAt _ _) = _
    rw [skel_updateTreeAt,
      skel_rebuild_congr ctx0 (.node k0 v l r h0 i0) (.node k0 v0 l r h0 i0) (by simp [skel]),
      hre]
  · rw [← hre, toL_rebuild]
    simp [toL, hkeq]
  · show toL (updateTreeAt _ _) = _
    rw [toL_updateTreeAt, toL_rebuild]
    simp [toL, hkeq]

theorem claim_C7_witness :
    (Inv ⟨Tree.node 2 2 (Tree.node 1 1 .nil .nil 1 ⟨1, 1, 1, 1⟩)
          (Tree.node 3 3 .nil .nil 1 ⟨1, 3, 3, 3⟩) 2 ⟨3, 6, 1, 3⟩, 3⟩
      ∧ (2 : Int) ∈ keys (Tree.node 2 2 (Tree.node 1 1 .nil .nil 1 ⟨1, 1, 1, 1⟩)
          (Tree.node 3 3 .nil .nil 1 ⟨1, 3, 3, 3⟩) 2 ⟨3, 6, 1, 3⟩))
    ∧ (skel (put ⟨Tree.node 2 2 (Tree.node 1 1 .nil .nil 1 ⟨1, 1, 1, 1⟩)
          (Tree.node 3 3 .nil .nil 1 ⟨1, 3, 3, 3⟩) 2 ⟨3, 6, 1, 3⟩, 3⟩ 2 9).root
        = skel (Tree.node 2 2 (Tree.node 1 1 .nil .nil 1 ⟨1, 1, 1, 1⟩)
          (Tree.node 3 3 .nil .nil 1 ⟨1, 3, 3, 3⟩) 2 ⟨3, 6, 1, 3⟩)
       ∧ size (put ⟨Tree.node 2 2 (Tree.node 1 1 .nil .nil 1 ⟨1, 1, 1, 1⟩)
          (Tree.node 3 3 .nil .nil 1 ⟨1, 3, 3, 3⟩) 2 ⟨3, 6, 1, 3⟩, 3⟩ 2 9)
          = size ⟨Tree.node 2 2 (Tree.node 1 1 .nil .nil 1 ⟨1, 1, 1, 1⟩)
          (Tree.node 3 3 .nil .nil 1 ⟨1, 3, 3, 3⟩) 2 ⟨3, 6, 1, 3⟩, 3⟩
       ∧ ∃ A v0 B, toL (Tree.node 2 2 (Tree.node 1 1 .nil .nil 1 ⟨1, 1, 1, 1⟩)
          (Tree.node 3 3 .nil .nil 1 ⟨1, 3, 3, 3⟩) 2 ⟨3, 6, 1, 3⟩) = A ++ ((2 : Int), v0) :: B
          ∧ toL (put ⟨Tree.node 2 2 (Tree.node 1 1 .nil .nil 1 ⟨1, 1, 1, 1⟩)
          (Tree.node 3 3 .nil .nil 1 ⟨1, 3, 3, 3⟩) 2 ⟨3, 6, 1, 3⟩, 3⟩ 2 9).root
            = A ++ (2, 9) :: B) :=
  ⟨⟨by decide, by decide⟩, claim_C7 _ 2 9 (by decide) (by decide)⟩

/-- **C6**: erasing a key whose node has two children overwrites that node's
key and value with those of its in-order successor (the minimum-key node of
the right subtree, the head of the right subtree's in-order list), physically
removes the successor node from the right subtree (splicing in its only
possible child), and decrements `size` by exactly one.  The first conjunct is
a refinement against the spec-side `removeMinSpec`. -/
theorem claim_C6 (s : MapState) (k : Int) (ctx0 : Ctx) (k0 v0 : Int)
    (l r : Tree) (h0 : Nat) (i0 : Stats)
    (hfind : findNode k [] s.root = some (ctx0, .node k0 v0 l r h0 i0))
    (hk : k0 = k) (hl : l ≠ Tree.nil) (hr : r ≠ Tree.nil) :
    (eraseNodeBST s k).2.root
        = rebuild ctx0 (.node (minEntry r).1 (minEntry r).2 l (removeMinSpec r) h0 i0)
    ∧ size (erase s k) = size s - 1
    ∧ (toL r).head? = some (minEntry r) := by
  have hbne : (k0 != k) = false := by simp [bne, hk]
  cases l with
  | nil => exact absurd rfl hl
  | node lk lv ll lr lh li =>
    cases r with
    | nil => exact absurd rfl hr
    | node rk rv rl rr rh ri =>
      obtain ⟨pre1, sk, sv, sr, sh, si, hydt, hreb, hlp, hmin, hrm⟩ :=
        ydt_left_spec (Tree.node rk rv rl rr rh ri)
          (⟨false, (minEntry (Tree.node rk rv rl rr rh ri)).1,
            (minEntry (Tree.node rk rv rl rr rh ri)).2, h0, i0,
            Tree.node lk lv ll lr lh li⟩ :: ctx0) (by simp)
      have hmin1 : (minEntry (Tree.node rk rv rl rr rh ri)).1 = sk := by rw [← hmin]
      have hmin2 : (minEntry (Tree.node rk rv rl rr rh ri)).2 = sv := by rw [← hmin]
      rw [hmin1, hmin2] at hydt
      cases hP : pre1 ++ (⟨false, sk, sv, h0, i0, Tree.node lk lv ll lr lh li⟩ :: ctx0) with
      | nil => simp at hP
      | cons f rest =>
        rw [hP] at hydt
        have hrm2 : removeNode (f :: rest) (Tree.node sk sv Tree.nil sr sh si)
            = (some (rest, rebuildOne f sr), rebuild rest (rebuildOne f sr)) := by
          simp [removeNode, Tree.left, Tree.right]
        have heds : eraseNodeBST s k
            = (some (rest, rebuildOne f sr),
               ⟨rebuild rest (rebuildOne f sr), s.n - 1⟩) := by
          simp only [eraseNodeBST, hfind, hbne, Bool.false_eq_true, if_false,
            hmin1, hmin2, hydt, hrm2]
        refine ⟨?_, ?_, ?_⟩
        · rw [heds]
          show rebuild rest (rebuildOne f sr) = _
          have h1 : rebuild rest (rebuildOne f sr) = rebuild (f :: rest) sr := rfl
          rw [h1, ← hP, rebuild_append, hrm, hmin1, hmin2]
          rfl
        · show size (erase s k) = s.n - 1
          simp [erase, heds, size]
        · rw [show minEntry (Tree.node rk rv rl rr rh ri) = (sk, sv) from hmin.symm,
            ← hreb, toL_rebuild, hlp]
          simp [toL]

theorem claim_C6_witness :
    (findNode 2 [] (Tree.node 2 2 (Tree.node 1 1 .nil .nil 1 ⟨1, 1, 1, 1⟩)
          (Tree.node 3 3 .nil .nil 1 ⟨1, 3, 3, 3⟩) 2 ⟨3, 6, 1, 3⟩)
        = some ([], Tree.node 2 2 (Tree.node 1 1 .nil .nil 1 ⟨1, 1, 1, 1⟩)
          (Tree.node 3 3 .nil .nil 1 ⟨1, 3, 3, 3⟩) 2 ⟨3, 6, 1, 3⟩)
      ∧ (2 : Int) = 2
      ∧ Tree.node 1 1 .nil .nil 1 (⟨1, 1, 1, 1⟩ : Stats) ≠ Tree.nil
      ∧ Tree.node 3 3 .nil .nil 1 (⟨1, 3, 3, 3⟩ : Stats) ≠ Tree.nil)
    ∧ ((eraseNodeBST ⟨Tree.node 2 2 (Tree.node 1 1 .nil .nil 1 ⟨1, 1, 1, 1⟩)
          (Tree.node 3 3 .nil .nil 1 ⟨1, 3, 3, 3⟩) 2 ⟨3, 6, 1, 3⟩, 3⟩ 2).2.root
        = rebuild []
            (.node (minEntry (Tree.node 3 3 .nil .nil 1 ⟨1, 3, 3, 3⟩)).1
              (minEntry (Tree.node 3 3 .nil .nil 1 ⟨1, 3, 3, 3⟩)).2
              (Tree.node 1 1 .nil .nil 1 ⟨1, 1, 1, 1⟩)
              (removeMinSpec (Tree.node 3 3 .nil .nil 1 ⟨1, 3, 3, 3⟩)) 2 ⟨3, 6, 1, 3⟩)
       ∧ size (erase ⟨Tree.node 2 2 (Tree.node 1 1 .nil .nil 1 ⟨1, 1, 1, 1⟩)
          (Tree.node 3 3 .nil .nil 1 ⟨1, 3, 3, 3⟩) 2 ⟨3, 6, 1, 3⟩, 3⟩ 2)
          = size (⟨Tree.node 2 2 (Tree.node 1 1 .nil .nil 1 ⟨1, 1, 1, 1⟩)
          (Tree.node 3 3 .nil .nil 1 ⟨1, 3, 3, 3⟩) 2 ⟨3, 6, 1, 3⟩, 3⟩ : MapState) - 1
       ∧ (toL (Tree.node 3 3 .nil .nil 1 ⟨1, 3, 3, 3⟩)).head?
          = some (minEntry (Tree.node 3 3 .nil .nil 1 ⟨1, 3, 3, 3⟩))) :=
  ⟨⟨by decide, rfl, by decide, by decide⟩,
    claim_C6 ⟨Tree.node 2 2 (Tree.node 1 1 .nil .nil 1 ⟨1, 1, 1, 1⟩)
          (Tree.node 3 3 .nil .nil 1 ⟨1, 3, 3, 3⟩) 2 ⟨3, 6, 1, 3⟩, 3⟩ 2 []
      2 2 (Tree.node 1 1 .nil .nil 1 ⟨1, 1, 1, 1⟩) (Tree.node 3 3 .nil .nil 1 ⟨1, 3, 3, 3⟩)
      2 ⟨3, 6, 1, 3⟩ (by decide) rfl (by decide) (by decide)⟩

/-- **C8**: when the walk reaches an unbalanced node `z` (children's stored
heights differing by exactly 2, with internally valid children), the subtree
`rebalance` builds is exactly the spec's trinode restructuring: `y` is `z`'s
taller child (tie toward the left), `x` is `y`'s taller child (tie toward the
left, except toward the right when `y` is `z`'s right child), with a single
rotation promoting `y` in the collinear cases and a double rotation promoting
`x` otherwise. -/
theorem claim_C8 (zk zv : Int) (zl zr : Tree) (zh : Nat) (zi : Stats) (ctx : Ctx)
    (p : List Bool)
    (hl : htOK zl = true) (hr : htOK zr = true)
    (hbl : balOK zl = true) (hbr : balOK zr = true)
    (hd : height zl = height zr + 2 ∨ height zr = height zl + 2) :
    (rebalance (.node zk zv zl zr zh zi) ctx p).1
      = trinodeRestructureSpec (.node zk zv zl zr zh zi) := by
  rcases hd with hd | hd
  · cases zl with
    | nil => rw [height_nil] at hd; omega
    | node yk yv yl yr2 yh yi2 =>
      rw [height_node] at hd
      simp only [htOK, Bool.and_eq_true, beq_iff_eq] at hl
      obtain ⟨⟨hyh, hOKyl⟩, hOKyr2⟩ := hl
      simp only [balOK, Bool.and_eq_true, decide_eq_true_eq] at hbl
      obtain ⟨⟨hby, hbyl⟩, hbyr2⟩ := hbl
      have c1 : height zr < height (Tree.node yk yv yl yr2 yh yi2)
          ∨ height (Tree.node yk yv yl yr2 yh yi2) = height zr := by
        rw [height_node]
        omega
      by_cases hx : height yr2 ≤ height yl
      · rw [rebalance_red_LL zk zv yk yv yl yr2 zr yh zh yi2 zi ctx p hx hd]
        have c2 : height yr2 < height yl ∨ height yl = height yr2 := by omega
        simp only [trinodeRestructureSpec, if_pos c1, if_pos c2, joinNode]
      · push_neg at hx
        cases yr2 with
        | nil => rw [height_nil] at hx; omega
        | node xk xv xl xr xh xi3 =>
          rw [height_node] at hx hby
          rw [height_node] at hyh
          rw [rebalance_red_LR zk zv yk yv xk xv yl xl xr zr yh xh zh yi2 xi3 zi ctx p hx hd]
          have c2 : ¬ (height (Tree.node xk xv xl xr xh xi3) < height yl
              ∨ height yl = height (Tree.node xk xv xl xr xh xi3)) := by
            rw [height_node]
            omega
          simp only [trinodeRestructureSpec, if_pos c1, if_neg c2, joinNode]
  · cases zr with
    | nil => rw [height_nil] at hd; omega
    | node yk yv yl yr2 yh yi2 =>
      rw [height_node] at hd
      simp only [htOK, Bool.and_eq_true, beq_iff_eq] at hr
      obtain ⟨⟨hyh, hOKyl⟩, hOKyr2⟩ := hr
      simp only [balOK, Bool.and_eq_true, decide_eq_true_eq] at hbr
      obtain ⟨⟨hby, hbyl⟩, hbyr2⟩ := hbr
      have c1 : ¬ (height (Tree.node yk yv yl yr2 yh yi2) < height zl
          ∨ height zl = height (Tree.node yk yv yl yr2 yh yi2)) := by
        rw [height_node]
        omega
      by_cases hx : height yl ≤ height yr2
      · rw [rebalance_red_RR zk zv yk yv zl yl yr2 yh zh yi2 zi ctx p hx hd]
        have c2 : height yl < height yr2 ∨ height yl = height yr2 := by omega
        simp only [trinodeRestructureSpec, if_neg c1, if_pos c2, joinNode]
      · push_neg at hx
        cases yl with
        | nil => rw [height_nil] at hx; omega
        | node xk xv xl xr xh xi3 =>
          rw [height_node] at hx hby
          rw [height_node] at hyh
          rw [rebalance_red_RL zk zv yk yv xk xv zl xl xr yr2 yh xh zh yi2 xi3 zi ctx p hx hd]
          have c2 : ¬ (height (Tree.node xk xv xl xr xh xi3) < height yr2
              ∨ height (Tree.node xk xv xl xr xh xi3) = height yr2) := by
            rw [height_node]
            omega
          simp only [trinodeRestructureSpec, if_neg c1, if_neg c2, joinNode]

theorem claim_C8_witness :
    (htOK (Tree.node 2 2 (Tree.node 1 1 .nil .nil 1 ⟨1, 1, 1, 1⟩) .nil 2 ⟨2, 3, 1, 2⟩) = true
      ∧ htOK Tree.nil = true
      ∧ balOK (Tree.node 2 2 (Tree.node 1 1 .nil .nil 1 ⟨1, 1, 1, 1⟩) .nil 2 ⟨2, 3, 1, 2⟩) = true
      ∧ balOK Tree.nil = true
      ∧ (height (Tree.node 2 2 (Tree.node 1 1 .nil .nil 1 ⟨1, 1, 1, 1⟩) .nil 2 ⟨2, 3, 1, 2⟩)
            = height Tree.nil + 2
         ∨ height Tree.nil
            = height (Tree.node 2 2 (Tree.node 1 1 .nil .nil 1 ⟨1, 1, 1, 1⟩) .nil 2
                ⟨2, 3, 1, 2⟩) + 2))
    ∧ (rebalance (Tree.node 3 3
          (Tree.node 2 2 (Tree.node 1 1 .nil .nil 1 ⟨1, 1, 1, 1⟩) .nil 2 ⟨2, 3, 1, 2⟩)
          .nil 3 ⟨3, 6, 1, 3⟩) [] []).1
        = trinodeRestructureSpec (Tree.node 3 3
          (Tree.node 2 2 (Tree.node 1 1 .nil .nil 1 ⟨1, 1, 1, 1⟩) .nil 2 ⟨2, 3, 1, 2⟩)
          .nil 3 ⟨3, 6, 1, 3⟩) :=
  ⟨⟨by decide, by decide, by decide, by decide, Or.inl (by decide)⟩,
    claim_C8 3 3
      (Tree.node 2 2 (Tree.node 1 1 .nil .nil 1 ⟨1, 1, 1, 1⟩) .nil 2 ⟨2, 3, 1, 2⟩)
      .nil 3 ⟨3, 6, 1, 3⟩ [] []
      (by decide) (by decide) (by decide) (by decide) (Or.inl (by decide))⟩

end AVLMap
